import Mathlib

/-!
# Relayer metrics facade (`relayer/processor/metrics.go`)

A shallow embedding of the `PrometheusMetrics` facade of the relayer.  The file
`metrics.go` is a thin layer over three things it imports, so the embedding has
four parts:

* `Go` : the Go built-ins the facade uses: strings as byte sequences,
  `float64` as IEEE-754 binary64 with round-to-nearest-even, the conversions
  `float64(int)` and `uint64(float64)`, and `time.Duration.Seconds`;
* `prometheus` : the observable behaviour of the `client_golang` types the
  facade calls (`Desc`, `counter`, `gauge`, `MetricVec`, `Registry`);
* `promauto` : the registering constructors of `promauto.With(registry)`;
* `processor` : `metrics.go` itself, method by method.

Mutable Go objects become explicit state: a method that mutates its receiver
returns the new receiver, and a Go panic is the `Except.error` result (the state a
caller that recovers from the panic would find is not part of the embedding).
`int`, `int64`, `uint64` and `time.Duration` are 64-bit.
-/

namespace Go

/-! ## Go strings -/

/-- A Go `string` is an arbitrary sequence of bytes. -/
abbrev GoString := List UInt8

/-- The Go string whose bytes are the code points of an ASCII text. -/
def ascii (s : String) : GoString := s.toList.map (fun c => c.toNat.toUInt8)

/-- Lexicographic order on sequences of code points. -/
def runesLess : List Char → List Char → Bool
  | _, [] => false
  | [], _ :: _ => true
  | a :: as, b :: bs =>
    if a.toNat < b.toNat then true
    else if b.toNat < a.toNat then false
    else runesLess as bs

/-- Go `a < b` on the strings the library compares, metric names and label names, which are
Lean strings here.  Go compares the bytes lexicographically; for valid UTF-8 that is the
lexicographic order of the code points. -/
def stringLess (a b : String) : Bool := runesLess a.toList b.toList

/-- The scanner behind `utf8.ValidString`: `need` continuation bytes are still owed, the next
one must lie in `[lo, hi]` (the `acceptRanges` entry of the lead byte), the ones after it in
`[0x80, 0xBF]`. -/
def utf8ValidAux : Nat → UInt8 → UInt8 → List UInt8 → Bool
  | need, _, _, [] => need == 0
  | 0, _, _, b :: rest =>
    if b < 0x80 then utf8ValidAux 0 0x80 0xBF rest
    else if 0xC2 ≤ b ∧ b ≤ 0xDF then utf8ValidAux 1 0x80 0xBF rest
    else if b = 0xE0 then utf8ValidAux 2 0xA0 0xBF rest
    else if b = 0xED then utf8ValidAux 2 0x80 0x9F rest
    else if 0xE1 ≤ b ∧ b ≤ 0xEF then utf8ValidAux 2 0x80 0xBF rest
    else if b = 0xF0 then utf8ValidAux 3 0x90 0xBF rest
    else if 0xF1 ≤ b ∧ b ≤ 0xF3 then utf8ValidAux 3 0x80 0xBF rest
    else if b = 0xF4 then utf8ValidAux 3 0x80 0x8F rest
    else false
  | need + 1, lo, hi, b :: rest =>
    if lo ≤ b ∧ b ≤ hi then utf8ValidAux need 0x80 0xBF rest else false

/-- Go `utf8.ValidString`: the bytes are a sequence of well-formed UTF-8 encodings. -/
def utf8ValidString (s : GoString) : Bool := utf8ValidAux 0 0x80 0xBF s

/-! ## IEEE-754 binary64 -/

/-- Number of binary digits of `n`, by halving at most `fuel` times. -/
def bitLenAux : Nat → Nat → Nat
  | 0, _ => 0
  | fuel + 1, n => if n = 0 then 0 else bitLenAux fuel (n / 2) + 1

/-- Number of binary digits of `n` (`bits.Len`): `0` for `0`, else `⌊log₂ n⌋ + 1`. -/
def bitLen (n : Nat) : Nat := bitLenAux n n

/-- A Go `float64`.  `finite neg mant exp` is the number `(-1)^neg * mant * 2^exp`; hardware
results are canonical: `mant < 2^53`, `-1074 ≤ exp ≤ 971`, and `2^52 ≤ mant` unless
`exp = -1074`; a zero is written `finite neg 0 0`.  All NaN payloads are identified. -/
inductive Float64 where
  | finite (neg : Bool) (mant : Nat) (exp : Int)
  | inf (neg : Bool)
  | nan
  deriving DecidableEq, Repr

namespace Float64

/-- The constant `+0`. -/
def zero : Float64 := .finite false 0 0

/-- The integer nearest to `num / den`, ties going to the even one. -/
def rneDiv (num den : Nat) : Nat :=
  if den < 2 * (num % den) ∨ (2 * (num % den) = den ∧ (num / den) % 2 = 1) then num / den + 1
  else num / den

/-- The binade of a positive ratio: `⌊log₂ (n / d)⌋`. -/
def ilog2Ratio (n d : Nat) : Int :=
  let e0 : Int := (bitLen n : Int) - (bitLen d : Int)
  if d * 2 ^ e0.toNat ≤ n * 2 ^ (-e0).toNat then e0 else e0 - 1

/-- Rounding of the exact result `(-1)^neg * n / d` (`d ≠ 0`) to binary64, to nearest with
ties to even: the quantum is `2^t` with `t = max ⌊log₂ (n/d)⌋ (-1022) - 52`, overflow gives
an infinity. -/
def round (neg : Bool) (n d : Nat) : Float64 :=
  if n = 0 then .finite neg 0 0
  else
    let t : Int := max (ilog2Ratio n d) (-1022) - 52
    let m := rneDiv (n * 2 ^ (-t).toNat) (d * 2 ^ t.toNat)
    if 971 < t then .inf neg
    else if m = 2 ^ 53 then (if t = 971 then .inf neg else .finite neg (2 ^ 52) (t + 1))
    else if m = 0 then .finite neg 0 0
    else .finite neg m t

/-- The Go conversion `float64(i)` of an integer (`int`, `int64`, `uint64`). -/
def ofInt (i : Int) : Float64 := round (decide (i < 0)) i.natAbs 1

/-- The signed integer `(-1)^neg * mant * 2^(exp - e)`, for `e ≤ exp`. -/
def signed (neg : Bool) (mant : Nat) (exp e : Int) : Int :=
  (if neg then -1 else 1) * ((mant * 2 ^ (exp - e).toNat : Nat) : Int)

/-- Go `x + y` on `float64`. -/
def add : Float64 → Float64 → Float64
  | .nan, _ => .nan
  | .inf _, .nan => .nan
  | .finite _ _ _, .nan => .nan
  | .inf a, .inf b => if a = b then .inf a else .nan
  | .inf a, .finite _ _ _ => .inf a
  | .finite _ _ _, .inf b => .inf b
  | .finite sa ma ea, .finite sb mb eb =>
    if ma = 0 ∧ mb = 0 then .finite (sa && sb) 0 0
    else if ma = 0 then .finite sb mb eb
    else if mb = 0 then .finite sa ma ea
    else
      let e := min ea eb
      let s := signed sa ma ea e + signed sb mb eb e
      if s = 0 then zero
      else round (decide (s < 0)) (s.natAbs * 2 ^ e.toNat) (2 ^ (-e).toNat)

/-- Go `x / y` on `float64`. -/
def div : Float64 → Float64 → Float64
  | .nan, _ => .nan
  | .inf _, .nan => .nan
  | .finite _ _ _, .nan => .nan
  | .inf _, .inf _ => .nan
  | .inf a, .finite sb _ _ => .inf (xor a sb)
  | .finite sa _ _, .inf b => .finite (xor sa b) 0 0
  | .finite sa ma ea, .finite sb mb eb =>
    if mb = 0 then (if ma = 0 then .nan else .inf (xor sa sb))
    else if ma = 0 then .finite (xor sa sb) 0 0
    else round (xor sa sb) (ma * 2 ^ (ea - eb).toNat) (mb * 2 ^ (eb - ea).toNat)

/-- Go `x < y` on `float64`. -/
def lt : Float64 → Float64 → Bool
  | .nan, _ => false
  | .inf _, .nan => false
  | .finite _ _ _, .nan => false
  | .inf a, .inf b => a && !b
  | .inf a, .finite _ _ _ => a
  | .finite _ _ _, .inf b => !b
  | .finite sa ma ea, .finite sb mb eb =>
    decide (signed sa ma ea (min ea eb) < signed sb mb eb (min ea eb))

/-- Go `x == y` on `float64`. -/
def eq : Float64 → Float64 → Bool
  | .nan, _ => false
  | .inf _, .nan => false
  | .finite _ _ _, .nan => false
  | .inf a, .inf b => a == b
  | .inf _, .finite _ _ _ => false
  | .finite _ _ _, .inf _ => false
  | .finite sa ma ea, .finite sb mb eb =>
    decide (signed sa ma ea (min ea eb) = signed sb mb eb (min ea eb))

/-- The Go conversion `uint64(v)`: the fraction is discarded.  Go leaves the result
unspecified when the truncated value is not a `uint64`; here it is then reduced modulo
`2^64`, resp. `0`, which no call of the facade reaches. -/
def toUint64 : Float64 → Nat
  | .finite false m e => (m * 2 ^ e.toNat / 2 ^ (-e).toNat) % 2 ^ 64
  | _ => 0

/-- The rational number a finite `float64` denotes. -/
def toRat? : Float64 → Option ℚ
  | .finite neg m e => some ((if neg then -1 else 1) * (m : ℚ) * (2 : ℚ) ^ e)
  | _ => none

end Float64

/-- Go `time.Duration.Seconds` on a duration of `d` nanoseconds:
`sec := d / Second; nsec := d % Second; return float64(sec) + float64(nsec)/1e9`,
with Go's truncating integer division. -/
def Duration.Seconds (d : Int) : Float64 :=
  let sec := Int.tdiv d 1000000000
  let nsec := Int.tmod d 1000000000
  Float64.add (Float64.ofInt sec) (Float64.div (Float64.ofInt nsec) (Float64.ofInt 1000000000))

end Go

/-! ## The metrics library -/

namespace prometheus

open Go

/-- The error value a library call panics with or returns. -/
inductive PanicValue where
  | inconsistentCardinality (expected got : Nat)
  | invalidLabelValue
  | counterCannotDecrease
  | invalidDescriptor
  | inconsistentDescriptor
  | alreadyRegistered
  deriving DecidableEq, Repr

/-- Library `model.IsValidLegacyMetricName`: non-empty, characters from `[a-zA-Z0-9_:]`,
the first one not a digit. -/
def isValidMetricName (s : String) : Bool :=
  match s.toList with
  | [] => false
  | c :: cs =>
    (c.isAlpha || c == '_' || c == ':') &&
      cs.all (fun x => x.isAlpha || x.isDigit || x == '_' || x == ':')

/-- Library `checkLabelName`: a valid label name (`[a-zA-Z_][a-zA-Z0-9_]*`) that does not
start with the reserved `__`. -/
def checkLabelName (s : String) : Bool :=
  match s.toList with
  | [] => false
  | c :: cs =>
    (c.isAlpha || c == '_') && cs.all (fun x => x.isAlpha || x.isDigit || x == '_') &&
      !(c == '_' && cs.head? == some '_')

/-- Library `Desc`, for a descriptor without constant labels: the fully-qualified name, the
help text, the ordered variable label names, and the construction error if any. -/
structure Desc where
  fqName : String
  help : String
  variableLabels : List String
  err : Option PanicValue
  deriving DecidableEq, Repr

/-- Library `NewDesc(fqName, help, variableLabels, nil)`: the descriptor carries an error
when the name or a label name is invalid or a label name is repeated. -/
def NewDesc (fqName help : String) (variableLabels : List String) : Desc :=
  { fqName := fqName, help := help, variableLabels := variableLabels,
    err :=
      if !isValidMetricName fqName then some .invalidDescriptor
      else if !variableLabels.all checkLabelName then some .invalidDescriptor
      else if variableLabels.eraseDups.length ≠ variableLabels.length then
        some .invalidDescriptor
      else none }

/-- Library `validateLabelValues`: as many values as declared label names, each valid
UTF-8. -/
def validateLabelValues (vals : List GoString) (expectedNumberOfValues : Nat) :
    Except PanicValue Unit :=
  if vals.length ≠ expectedNumberOfValues then
    .error (.inconsistentCardinality expectedNumberOfValues vals.length)
  else if !vals.all utf8ValidString then .error .invalidLabelValue
  else .ok ()

/-- Library `counter`: `valBits` accumulates the non-integral additions as a `float64`,
`valInt` the integral ones as a `uint64`. -/
structure Counter where
  valBits : Float64
  valInt : Nat
  deriving DecidableEq, Repr

/-- Library `counter.Add`: panics on a negative argument; an argument that survives the round
trip through `uint64` is added to `valInt` with `atomic.AddUint64`, any other to `valBits`. -/
def Counter.Add (c : Counter) (v : Float64) : Except PanicValue Counter :=
  if v.lt Float64.zero then .error .counterCannotDecrease
  else
    let ival := v.toUint64
    if (Float64.ofInt ival).eq v then .ok { c with valInt := (c.valInt + ival) % 2 ^ 64 }
    else .ok { c with valBits := c.valBits.add v }

/-- Library `counter.Inc`: `atomic.AddUint64(&c.valInt, 1)`. -/
def Counter.Inc (c : Counter) : Counter := { c with valInt := (c.valInt + 1) % 2 ^ 64 }

/-- Library `counter.get`, the value a scrape reports: `fval + float64(ival)`. -/
def Counter.get (c : Counter) : Float64 := c.valBits.add (Float64.ofInt c.valInt)

/-- Library `gauge`: the current value. -/
structure Gauge where
  valBits : Float64
  deriving DecidableEq, Repr

/-- Library `gauge.Set`: stores the argument. -/
def Gauge.Set (_g : Gauge) (val : Float64) : Gauge := { valBits := val }

/-- Library `MetricVec`: a descriptor and the children created so far, each under its label
values in the order of the descriptor's variable labels.  The library keeps them in a hash map
whose buckets compare the label values, here a list in creation order. -/
structure MetricVec (α : Type) where
  desc : Desc
  metrics : List (List GoString × α)

/-- Child stored under the label values `lvs`, if there is one. -/
def lookup {α : Type} (lvs : List GoString) : List (List GoString × α) → Option α
  | [] => none
  | (k, a) :: rest => if k = lvs then some a else lookup lvs rest

/-- Replace the child stored under `lvs`. -/
def replace {α : Type} (lvs : List GoString) (a : α) :
    List (List GoString × α) → List (List GoString × α)
  | [] => []
  | (k, b) :: rest => if k = lvs then (k, a) :: rest else (k, b) :: replace lvs a rest

/-- Library `MetricVec.GetMetricWithLabelValues` followed by the panic of `WithLabelValues`
on an error: validates the label values, then returns the child stored under them, creating
it from `newMetric` when it is missing. -/
def MetricVec.WithLabelValues {α : Type} (newMetric : α) (v : MetricVec α)
    (lvs : List GoString) : Except PanicValue (MetricVec α × α) :=
  match validateLabelValues lvs v.desc.variableLabels.length with
  | .error e => .error e
  | .ok () =>
    match lookup lvs v.metrics with
    | some child => .ok (v, child)
    | none => .ok ({ v with metrics := v.metrics ++ [(lvs, newMetric)] }, newMetric)

/-- Write-back of a child mutated through the pointer `WithLabelValues` returned. -/
def MetricVec.store {α : Type} (v : MetricVec α) (lvs : List GoString) (child : α) :
    MetricVec α :=
  { v with metrics := replace lvs child v.metrics }

/-- Library `CounterVec`. -/
abbrev CounterVec := MetricVec Counter

/-- Library `GaugeVec`. -/
abbrev GaugeVec := MetricVec Gauge

/-- A fresh counter child: `valBits = +0`, `valInt = 0`. -/
def newCounter : Counter := { valBits := Float64.zero, valInt := 0 }

/-- A fresh gauge child: value `+0`. -/
def newGauge : Gauge := { valBits := Float64.zero }

/-- Library `NewCounterVec(CounterOpts with Name and Help, labelNames)`. -/
def NewCounterVec (name help : String) (labelNames : List String) : CounterVec :=
  { desc := NewDesc name help labelNames, metrics := [] }

/-- Library `NewGaugeVec(GaugeOpts with Name and Help, labelNames)`. -/
def NewGaugeVec (name help : String) (labelNames : List String) : GaugeVec :=
  { desc := NewDesc name help labelNames, metrics := [] }

/-- Library `Registry`: the descriptors of the registered collectors, in registration order.
The collectors themselves (the vectors) live in the structure that created them. -/
structure Registry where
  descs : List Desc
  deriving DecidableEq, Repr

/-- Library `NewRegistry`: no collector registered. -/
def NewRegistry : Registry := { descs := [] }

/-- Library `Registry.Register` for a collector with the single descriptor `d` (a vector),
descriptor identity being the fully-qualified name when there are no constant labels: an
invalid descriptor is refused, and so is a name that is already registered. -/
def Registry.Register (r : Registry) (d : Desc) : Except PanicValue Registry :=
  match d.err with
  | some _ => .error .invalidDescriptor
  | none =>
    match r.descs.find? (fun x => x.fqName == d.fqName) with
    | some x =>
      if x.help = d.help ∧ x.variableLabels.isPerm d.variableLabels then
        .error .alreadyRegistered
      else .error .inconsistentDescriptor
    | none => .ok { descs := r.descs ++ [d] }

/-- Library `Registry.MustRegister`: `Register`, panicking with its error. -/
def Registry.MustRegister (r : Registry) (d : Desc) : Except PanicValue Registry :=
  r.Register d

/-- The kind of a metric family. -/
inductive MetricType where
  | counter
  | gauge
  deriving DecidableEq, Repr

/-- Insertion of a label pair into a list of label pairs sorted by name. -/
def insertLabelPair (p : String × GoString) :
    List (String × GoString) → List (String × GoString)
  | [] => [p]
  | q :: rest =>
    if stringLess p.1 q.1 then p :: q :: rest else q :: insertLabelPair p rest

/-- Library `sort.Sort(internal.LabelPairSorter(labelPairs))`: the label pairs ordered by
label name. -/
def sortLabelPairs (ps : List (String × GoString)) : List (String × GoString) :=
  ps.foldr insertLabelPair []

/-- Library `MakeLabelPairs(desc, labelValues)` for a descriptor without constant labels: the
i-th variable label name paired with the i-th label value, the pairs then sorted by name. -/
def MakeLabelPairs (desc : Desc) (labelValues : List GoString) : List (String × GoString) :=
  sortLabelPairs (desc.variableLabels.zip labelValues)

/-- One metric family of a scrape: name, help, kind, and its series, each as its label pairs
with the reported value. -/
structure MetricFamily where
  name : String
  help : String
  kind : MetricType
  metric : List (List (String × GoString) × Float64)
  deriving DecidableEq, Repr

/-- What `CounterVec.Collect` sends: one metric per child, none for a vector without
children.  `counter.Write` puts out the label pairs of the child and `counter.get`; the
library stores the pairs in the child when it creates it, as `MakeLabelPairs(desc, lvs)` of
the descriptor of the vector and the label values the child is stored under, from which they
are computed here. -/
def CounterVec.family (v : CounterVec) : MetricFamily :=
  { name := v.desc.fqName, help := v.desc.help, kind := .counter,
    metric := v.metrics.map (fun p => (MakeLabelPairs v.desc p.1, p.2.get)) }

/-- What `GaugeVec.Collect` sends: per child its label pairs, as for a counter, and the
current value. -/
def GaugeVec.family (v : GaugeVec) : MetricFamily :=
  { name := v.desc.fqName, help := v.desc.help, kind := .gauge,
    metric := v.metrics.map (fun p => (MakeLabelPairs v.desc p.1, p.2.valBits)) }

/-- Insertion into a list of families sorted by name. -/
def insertByName (f : MetricFamily) : List MetricFamily → List MetricFamily
  | [] => [f]
  | g :: rest =>
    if stringLess f.name g.name then f :: g :: rest else g :: insertByName f rest

/-- Library `internal.NormalizeMetricFamilies`: the families that have at least one metric,
sorted by name. -/
def NormalizeMetricFamilies (fs : List MetricFamily) : List MetricFamily :=
  (fs.filter (fun f => !f.metric.isEmpty)).foldr insertByName []

end prometheus

namespace promauto

open prometheus

/-- Library `promauto.With(r).NewCounterVec`: builds the vector and registers it with
`r.MustRegister`. -/
def NewCounterVec (r : Registry) (name help : String) (labelNames : List String) :
    Except PanicValue (Registry × CounterVec) :=
  let c := prometheus.NewCounterVec name help labelNames
  match r.MustRegister c.desc with
  | .error e => .error e
  | .ok r1 => .ok (r1, c)

/-- Library `promauto.With(r).NewGaugeVec`. -/
def NewGaugeVec (r : Registry) (name help : String) (labelNames : List String) :
    Except PanicValue (Registry × GaugeVec) :=
  let g := prometheus.NewGaugeVec name help labelNames
  match r.MustRegister g.desc with
  | .error e => .error e
  | .ok r1 => .ok (r1, g)

end promauto

/-! ## `metrics.go` -/

namespace processor

open Go prometheus

/-- The struct `PrometheusMetrics`: the registry and the seven vectors. -/
structure PrometheusMetrics where
  Registry : Registry
  PacketObservedCounter : CounterVec
  PacketRelayedCounter : CounterVec
  LatestHeightGauge : GaugeVec
  WalletBalance : GaugeVec
  FeesSpent : GaugeVec
  BlockQueryFailure : CounterVec
  ClientExpiration : GaugeVec

/-- `m.PacketObservedCounter.WithLabelValues(path, chain, channel, port, eventType)`
`.Add(float64(count))`. -/
def PrometheusMetrics.AddPacketsObserved (m : PrometheusMetrics)
    (path chain channel port eventType : GoString) (count : Int) :
    Except PanicValue PrometheusMetrics :=
  match m.PacketObservedCounter.WithLabelValues newCounter
      [path, chain, channel, port, eventType] with
  | .error e => .error e
  | .ok (vec, child) =>
    match child.Add (Float64.ofInt count) with
    | .error e => .error e
    | .ok child1 =>
      .ok { m with
        PacketObservedCounter := vec.store [path, chain, channel, port, eventType] child1 }

/-- `m.PacketRelayedCounter.WithLabelValues(path, chain, channel, port, eventType).Inc()`. -/
def PrometheusMetrics.IncPacketsRelayed (m : PrometheusMetrics)
    (path chain channel port eventType : GoString) : Except PanicValue PrometheusMetrics :=
  match m.PacketRelayedCounter.WithLabelValues newCounter
      [path, chain, channel, port, eventType] with
  | .error e => .error e
  | .ok (vec, child) =>
    .ok { m with
      PacketRelayedCounter := vec.store [path, chain, channel, port, eventType] child.Inc }

/-- `m.LatestHeightGauge.WithLabelValues(chain).Set(float64(height))`. -/
def PrometheusMetrics.SetLatestHeight (m : PrometheusMetrics) (chain : GoString)
    (height : Int) : Except PanicValue PrometheusMetrics :=
  match m.LatestHeightGauge.WithLabelValues newGauge [chain] with
  | .error e => .error e
  | .ok (vec, child) =>
    .ok { m with LatestHeightGauge := vec.store [chain] (child.Set (Float64.ofInt height)) }

/-- `m.WalletBalance.WithLabelValues(chain, gasPrice, key, address, denom).Set(balance)`. -/
def PrometheusMetrics.SetWalletBalance (m : PrometheusMetrics)
    (chain gasPrice key address denom : GoString) (balance : Float64) :
    Except PanicValue PrometheusMetrics :=
  match m.WalletBalance.WithLabelValues newGauge [chain, gasPrice, key, address, denom] with
  | .error e => .error e
  | .ok (vec, child) =>
    .ok { m with
      WalletBalance := vec.store [chain, gasPrice, key, address, denom] (child.Set balance) }

/-- `m.FeesSpent.WithLabelValues(chain, gasPrice, key, address, denom).Set(amount)`. -/
def PrometheusMetrics.SetFeesSpent (m : PrometheusMetrics)
    (chain gasPrice key address denom : GoString) (amount : Float64) :
    Except PanicValue PrometheusMetrics :=
  match m.FeesSpent.WithLabelValues newGauge [chain, gasPrice, key, address, denom] with
  | .error e => .error e
  | .ok (vec, child) =>
    .ok { m with
      FeesSpent := vec.store [chain, gasPrice, key, address, denom] (child.Set amount) }

/-- `m.ClientExpiration.WithLabelValues(pathName, chain, clientID, trustingPeriod)`
`.Set(timeToExpiration.Seconds())`. -/
def PrometheusMetrics.SetClientExpiration (m : PrometheusMetrics)
    (pathName chain clientID trustingPeriod : GoString) (timeToExpiration : Int) :
    Except PanicValue PrometheusMetrics :=
  match m.ClientExpiration.WithLabelValues newGauge
      [pathName, chain, clientID, trustingPeriod] with
  | .error e => .error e
  | .ok (vec, child) =>
    .ok { m with
      ClientExpiration := vec.store [pathName, chain, clientID, trustingPeriod]
        (child.Set (Duration.Seconds timeToExpiration)) }

/-- `m.BlockQueryFailure.WithLabelValues(chain, err).Inc()`. -/
def PrometheusMetrics.IncBlockQueryFailure (m : PrometheusMetrics) (chain err : GoString) :
    Except PanicValue PrometheusMetrics :=
  match m.BlockQueryFailure.WithLabelValues newCounter [chain, err] with
  | .error e => .error e
  | .ok (vec, child) =>
    .ok { m with BlockQueryFailure := vec.store [chain, err] child.Inc }

/-- The local `packetLabels`. -/
def packetLabels : List String := ["path", "chain", "channel", "port", "type"]

/-- The local `heightLabels`. -/
def heightLabels : List String := ["chain"]

/-- The local `blockQueryFailureLabels`. -/
def blockQueryFailureLabels : List String := ["chain", "type"]

/-- The local `walletLabels`. -/
def walletLabels : List String := ["chain", "gas_price", "key", "address", "denom"]

/-- The local `clientExpirationLables` (spelled as in the source). -/
def clientExpirationLables : List String :=
  ["path_name", "chain", "client_id", "trusting_period"]

/-- The seven registering constructor calls of the struct literal of `NewPrometheusMetrics`, in
the order the literal lists them, against the registry `registry`. -/
def registerInstruments (registry : Registry) : Except PanicValue PrometheusMetrics :=
  match promauto.NewCounterVec registry "cosmos_relayer_observed_packets"
      "The total number of observed packets" packetLabels with
  | .error e => .error e
  | .ok (r1, observed) =>
  match promauto.NewCounterVec r1 "cosmos_relayer_relayed_packets"
      "The total number of relayed packets" packetLabels with
  | .error e => .error e
  | .ok (r2, relayed) =>
  match promauto.NewGaugeVec r2 "cosmos_relayer_chain_latest_height"
      "The current height of the chain" heightLabels with
  | .error e => .error e
  | .ok (r3, height) =>
  match promauto.NewGaugeVec r3 "cosmos_relayer_wallet_balance"
      "The current balance for the relayer's wallet" walletLabels with
  | .error e => .error e
  | .ok (r4, wallet) =>
  match promauto.NewGaugeVec r4 "cosmos_relayer_fees_spent"
      "The amount of fees spent from the relayer's wallet" walletLabels with
  | .error e => .error e
  | .ok (r5, fees) =>
  match promauto.NewCounterVec r5 "cosmos_relayer_block_query_errors_total"
      "The total number of block query failures. The failures are separated into two catagories: 'RPC Client' and 'IBC Header'"
      blockQueryFailureLabels with
  | .error e => .error e
  | .ok (r6, failures) =>
  match promauto.NewGaugeVec r6 "cosmos_relayer_client_expiration_seconds"
      "Seconds until the client expires" clientExpirationLables with
  | .error e => .error e
  | .ok (r7, expiration) =>
    .ok { Registry := r7, PacketObservedCounter := observed, PacketRelayedCounter := relayed,
          LatestHeightGauge := height, WalletBalance := wallet, FeesSpent := fees,
          BlockQueryFailure := failures, ClientExpiration := expiration }

/-- `NewPrometheusMetrics`: `registry := prometheus.NewRegistry()`, then the seven
vectors registered against it. -/
def NewPrometheusMetrics : Except PanicValue PrometheusMetrics :=
  registerInstruments NewRegistry

/-- The collectors of the struct with what each currently sends to a scrape. -/
def PrometheusMetrics.families (m : PrometheusMetrics) : List MetricFamily :=
  [CounterVec.family m.PacketObservedCounter, CounterVec.family m.PacketRelayedCounter,
   GaugeVec.family m.LatestHeightGauge, GaugeVec.family m.WalletBalance,
   GaugeVec.family m.FeesSpent, CounterVec.family m.BlockQueryFailure,
   GaugeVec.family m.ClientExpiration]

/-- The scrape snapshot `m.Registry.Gather()`: the registered collectors are collected and
the families normalised. -/
def PrometheusMetrics.Gather (m : PrometheusMetrics) : List MetricFamily :=
  NormalizeMetricFamilies
    (m.families.filter (fun f => m.Registry.descs.any (fun d => d.fqName == f.name)))

/-! ## Call sequences -/

/-- The seven instruments of the catalog. -/
inductive Instrument where
  | observedPackets
  | relayedPackets
  | latestHeight
  | walletBalance
  | feesSpent
  | blockQueryFailure
  | clientExpiration
  deriving DecidableEq, Repr

/-- One call of a recording method with its arguments (`int`, `int64` and `time.Duration`
arguments as integers). -/
inductive Call where
  | AddPacketsObserved (path chain channel port eventType : GoString) (count : Int)
  | IncPacketsRelayed (path chain channel port eventType : GoString)
  | SetLatestHeight (chain : GoString) (height : Int)
  | SetWalletBalance (chain gasPrice key address denom : GoString) (balance : Float64)
  | SetFeesSpent (chain gasPrice key address denom : GoString) (amount : Float64)
  | SetClientExpiration (pathName chain clientID trustingPeriod : GoString)
      (timeToExpiration : Int)
  | IncBlockQueryFailure (chain err : GoString)

/-- Execute one call. -/
def Call.apply (m : PrometheusMetrics) : Call → Except PanicValue PrometheusMetrics
  | .AddPacketsObserved path chain channel port eventType count =>
    m.AddPacketsObserved path chain channel port eventType count
  | .IncPacketsRelayed path chain channel port eventType =>
    m.IncPacketsRelayed path chain channel port eventType
  | .SetLatestHeight chain height => m.SetLatestHeight chain height
  | .SetWalletBalance chain gasPrice key address denom balance =>
    m.SetWalletBalance chain gasPrice key address denom balance
  | .SetFeesSpent chain gasPrice key address denom amount =>
    m.SetFeesSpent chain gasPrice key address denom amount
  | .SetClientExpiration pathName chain clientID trustingPeriod timeToExpiration =>
    m.SetClientExpiration pathName chain clientID trustingPeriod timeToExpiration
  | .IncBlockQueryFailure chain err => m.IncBlockQueryFailure chain err

/-- Execute a sequence of calls, stopping at the first panic. -/
def run (m : PrometheusMetrics) : List Call → Except PanicValue PrometheusMetrics
  | [] => .ok m
  | c :: cs =>
    match c.apply m with
    | .error e => .error e
    | .ok m1 => run m1 cs

/-- The instrument a call records on. -/
def Call.instrument : Call → Instrument
  | .AddPacketsObserved .. => .observedPackets
  | .IncPacketsRelayed .. => .relayedPackets
  | .SetLatestHeight .. => .latestHeight
  | .SetWalletBalance .. => .walletBalance
  | .SetFeesSpent .. => .feesSpent
  | .SetClientExpiration .. => .clientExpiration
  | .IncBlockQueryFailure .. => .blockQueryFailure

/-- The label values of the series `(instrument, labels)` currently present. -/
def PrometheusMetrics.seriesKeys (m : PrometheusMetrics) : Instrument → List (List GoString)
  | .observedPackets => m.PacketObservedCounter.metrics.map Prod.fst
  | .relayedPackets => m.PacketRelayedCounter.metrics.map Prod.fst
  | .latestHeight => m.LatestHeightGauge.metrics.map Prod.fst
  | .walletBalance => m.WalletBalance.metrics.map Prod.fst
  | .feesSpent => m.FeesSpent.metrics.map Prod.fst
  | .blockQueryFailure => m.BlockQueryFailure.metrics.map Prod.fst
  | .clientExpiration => m.ClientExpiration.metrics.map Prod.fst

/-- The value a scrape reports for the series `(instrument, labels)`, if the series exists. -/
def PrometheusMetrics.value (m : PrometheusMetrics) (i : Instrument) (lvs : List GoString) :
    Option Float64 :=
  match i with
  | .observedPackets => (lookup lvs m.PacketObservedCounter.metrics).map Counter.get
  | .relayedPackets => (lookup lvs m.PacketRelayedCounter.metrics).map Counter.get
  | .latestHeight => (lookup lvs m.LatestHeightGauge.metrics).map Gauge.valBits
  | .walletBalance => (lookup lvs m.WalletBalance.metrics).map Gauge.valBits
  | .feesSpent => (lookup lvs m.FeesSpent.metrics).map Gauge.valBits
  | .blockQueryFailure => (lookup lvs m.BlockQueryFailure.metrics).map Counter.get
  | .clientExpiration => (lookup lvs m.ClientExpiration.metrics).map Gauge.valBits

/-- The descriptor of an instrument's vector. -/
def PrometheusMetrics.desc (m : PrometheusMetrics) : Instrument → Desc
  | .observedPackets => m.PacketObservedCounter.desc
  | .relayedPackets => m.PacketRelayedCounter.desc
  | .latestHeight => m.LatestHeightGauge.desc
  | .walletBalance => m.WalletBalance.desc
  | .feesSpent => m.FeesSpent.desc
  | .blockQueryFailure => m.BlockQueryFailure.desc
  | .clientExpiration => m.ClientExpiration.desc

/-- The label values a call hands to `WithLabelValues`, in the order the method lists its
parameters. -/
def Call.labels : Call → List GoString
  | .AddPacketsObserved path chain channel port eventType _ =>
    [path, chain, channel, port, eventType]
  | .IncPacketsRelayed path chain channel port eventType =>
    [path, chain, channel, port, eventType]
  | .SetLatestHeight chain _ => [chain]
  | .SetWalletBalance chain gasPrice key address denom _ =>
    [chain, gasPrice, key, address, denom]
  | .SetFeesSpent chain gasPrice key address denom _ => [chain, gasPrice, key, address, denom]
  | .SetClientExpiration pathName chain clientID trustingPeriod _ =>
    [pathName, chain, clientID, trustingPeriod]
  | .IncBlockQueryFailure chain err => [chain, err]

/-- The three counter instruments. -/
def Instrument.isCounter : Instrument → Bool
  | .observedPackets => true
  | .relayedPackets => true
  | .blockQueryFailure => true
  | _ => false

/-- The counter child behind the series `(instrument, labels)` of a counter instrument. -/
def PrometheusMetrics.counter (m : PrometheusMetrics) (i : Instrument)
    (lvs : List GoString) : Option Counter :=
  match i with
  | .observedPackets => lookup lvs m.PacketObservedCounter.metrics
  | .relayedPackets => lookup lvs m.PacketRelayedCounter.metrics
  | .blockQueryFailure => lookup lvs m.BlockQueryFailure.metrics
  | _ => none

/-- The method a counter call invokes on the child `WithLabelValues` returned: `Add` of the
converted count, or `Inc`. -/
def Call.counterOp : Call → Counter → Except PanicValue Counter
  | .AddPacketsObserved _ _ _ _ _ count => fun child => child.Add (Float64.ofInt count)
  | _ => fun child => .ok child.Inc

/-- The `float64` a gauge call hands to `Set` (`+0` for the counter calls, which set
nothing). -/
def Call.setValue : Call → Float64
  | .SetLatestHeight _ height => Float64.ofInt height
  | .SetWalletBalance _ _ _ _ _ balance => balance
  | .SetFeesSpent _ _ _ _ _ amount => amount
  | .SetClientExpiration _ _ _ _ timeToExpiration => Duration.Seconds timeToExpiration
  | _ => Float64.zero

/-- The integer a counter call adds to the `uint64` accumulator of its series:
`uint64(float64(count))` for `AddPacketsObserved`, `1` for the two `Inc` methods (`0` for
the gauge calls). -/
def Call.added : Call → Nat
  | .AddPacketsObserved _ _ _ _ _ count => (Float64.ofInt count).toUint64
  | .IncPacketsRelayed .. => 1
  | .IncBlockQueryFailure .. => 1
  | _ => 0

/-- The amount the specification says a call adds to the counter series `(i, lvs)`: `count`
for `AddPacketsObserved`, `1` for an `Inc` call, nothing for a call on another series. -/
def Call.amountTo (i : Instrument) (lvs : List GoString) (c : Call) : Nat :=
  if c.instrument = i ∧ c.labels = lvs then
    match c with
    | .AddPacketsObserved _ _ _ _ _ count => count.toNat
    | .IncPacketsRelayed .. => 1
    | .IncBlockQueryFailure .. => 1
    | _ => 0
  else 0

/-- The calls a Go caller can make without hitting a library panic: every integer argument
fits its Go type (`int`, `int64` and `time.Duration` are 64-bit), every label value is valid
UTF-8, and the `count` of `AddPacketsObserved` is not negative. -/
def Call.admissible (c : Call) : Bool :=
  c.labels.all utf8ValidString &&
    match c with
    | .AddPacketsObserved _ _ _ _ _ count => decide (0 ≤ count ∧ count < 2 ^ 63)
    | .SetLatestHeight _ height => decide (-(2 ^ 63) ≤ height ∧ height < 2 ^ 63)
    | .SetClientExpiration _ _ _ _ d => decide (-(2 ^ 63) ≤ d ∧ d < 2 ^ 63)
    | _ => true

/-- The label schema of the catalog of the specification (its section 3). -/
def Instrument.catalogLabels : Instrument → List String
  | .observedPackets => ["path", "chain", "channel", "port", "type"]
  | .relayedPackets => ["path", "chain", "channel", "port", "type"]
  | .latestHeight => ["chain"]
  | .walletBalance => ["chain", "gas_price", "key", "address", "denom"]
  | .feesSpent => ["chain", "gas_price", "key", "address", "denom"]
  | .blockQueryFailure => ["chain", "type"]
  | .clientExpiration => ["path_name", "chain", "client_id", "trusting_period"]

/-- The label names of an instrument of the catalog in the order of `sort.Strings`. -/
def Instrument.sortedLabels : Instrument → List String
  | .observedPackets => ["chain", "channel", "path", "port", "type"]
  | .relayedPackets => ["chain", "channel", "path", "port", "type"]
  | .latestHeight => ["chain"]
  | .walletBalance => ["address", "chain", "denom", "gas_price", "key"]
  | .feesSpent => ["address", "chain", "denom", "gas_price", "key"]
  | .blockQueryFailure => ["chain", "type"]
  | .clientExpiration => ["chain", "client_id", "path_name", "trusting_period"]

/-- The instrument names of the catalog of the specification (its section 3). -/
def Instrument.catalogName : Instrument → String
  | .observedPackets => "cosmos_relayer_observed_packets"
  | .relayedPackets => "cosmos_relayer_relayed_packets"
  | .latestHeight => "cosmos_relayer_chain_latest_height"
  | .walletBalance => "cosmos_relayer_wallet_balance"
  | .feesSpent => "cosmos_relayer_fees_spent"
  | .blockQueryFailure => "cosmos_relayer_block_query_errors_total"
  | .clientExpiration => "cosmos_relayer_client_expiration_seconds"

/-- What one successful call leaves behind: the registry and the descriptors are untouched,
the label values passed validation, the series `(instrument, labels)` of the call exists
afterwards, and every other series is as before. -/
def StepSpec (m m1 : PrometheusMetrics) (c : Call) : Prop :=
    m1.Registry = m.Registry ∧
    (∀ i, m1.desc i = m.desc i) ∧
    validateLabelValues c.labels (m.desc c.instrument).variableLabels.length = .ok () ∧
    (∀ i, m1.seriesKeys i =
      if i = c.instrument ∧ c.labels ∉ m.seriesKeys i then m.seriesKeys i ++ [c.labels]
      else m.seriesKeys i) ∧
    (∀ i L, ¬ (i = c.instrument ∧ L = c.labels) →
      m1.value i L = m.value i L ∧ m1.counter i L = m.counter i L) ∧
    (c.instrument.isCounter = false → m1.value c.instrument c.labels = some c.setValue) ∧
    (c.instrument.isCounter = true → ∃ ch1,
      m1.counter c.instrument c.labels = some ch1 ∧
      c.counterOp ((m.counter c.instrument c.labels).getD newCounter) = .ok ch1)

/-- The struct `NewPrometheusMetrics` returns, written out (see `new_eq`). -/
def freshMetrics : PrometheusMetrics :=
  { Registry :=
      { descs :=
          [NewDesc "cosmos_relayer_observed_packets" "The total number of observed packets"
             packetLabels,
           NewDesc "cosmos_relayer_relayed_packets" "The total number of relayed packets"
             packetLabels,
           NewDesc "cosmos_relayer_chain_latest_height" "The current height of the chain"
             heightLabels,
           NewDesc "cosmos_relayer_wallet_balance"
             "The current balance for the relayer's wallet" walletLabels,
           NewDesc "cosmos_relayer_fees_spent"
             "The amount of fees spent from the relayer's wallet" walletLabels,
           NewDesc "cosmos_relayer_block_query_errors_total"
             "The total number of block query failures. The failures are separated into two catagories: 'RPC Client' and 'IBC Header'"
             blockQueryFailureLabels,
           NewDesc "cosmos_relayer_client_expiration_seconds"
             "Seconds until the client expires" clientExpirationLables] },
    PacketObservedCounter :=
      NewCounterVec "cosmos_relayer_observed_packets" "The total number of observed packets"
        packetLabels,
    PacketRelayedCounter :=
      NewCounterVec "cosmos_relayer_relayed_packets" "The total number of relayed packets"
        packetLabels,
    LatestHeightGauge :=
      NewGaugeVec "cosmos_relayer_chain_latest_height" "The current height of the chain"
        heightLabels,
    WalletBalance :=
      NewGaugeVec "cosmos_relayer_wallet_balance"
        "The current balance for the relayer's wallet" walletLabels,
    FeesSpent :=
      NewGaugeVec "cosmos_relayer_fees_spent"
        "The amount of fees spent from the relayer's wallet" walletLabels,
    BlockQueryFailure :=
      NewCounterVec "cosmos_relayer_block_query_errors_total"
        "The total number of block query failures. The failures are separated into two catagories: 'RPC Client' and 'IBC Header'"
        blockQueryFailureLabels,
    ClientExpiration :=
      NewGaugeVec "cosmos_relayer_client_expiration_seconds"
        "Seconds until the client expires" clientExpirationLables }

/-- The binding the catalog of the specification prescribes for the label values of a call:
the i-th declared label name with the i-th positional parameter. -/
def Call.binding : Call → List (String × GoString)
  | .AddPacketsObserved path chain channel port eventType _ =>
    [("path", path), ("chain", chain), ("channel", channel), ("port", port),
     ("type", eventType)]
  | .IncPacketsRelayed path chain channel port eventType =>
    [("path", path), ("chain", chain), ("channel", channel), ("port", port),
     ("type", eventType)]
  | .SetLatestHeight chain _ => [("chain", chain)]
  | .SetWalletBalance chain gasPrice key address denom _ =>
    [("chain", chain), ("gas_price", gasPrice), ("key", key), ("address", address),
     ("denom", denom)]
  | .SetFeesSpent chain gasPrice key address denom _ =>
    [("chain", chain), ("gas_price", gasPrice), ("key", key), ("address", address),
     ("denom", denom)]
  | .SetClientExpiration pathName chain clientID trustingPeriod _ =>
    [("path_name", pathName), ("chain", chain), ("client_id", clientID),
     ("trusting_period", trustingPeriod)]
  | .IncBlockQueryFailure chain err => [("chain", chain), ("type", err)]

/-- What a call adds to the `uint64` accumulator of the counter series `(i, lvs)`: its
`added` when it records on that series, nothing otherwise. -/
def Call.addedTo (i : Instrument) (lvs : List GoString) (c : Call) : Nat :=
  if c.instrument = i ∧ c.labels = lvs then c.added else 0

/-- The argument of the most recent set call on the gauge series `(i, lvs)` in a sequence of
calls, scanning the calls in order; `none` when no call sets that series. -/
def lastSet (i : Instrument) (lvs : List GoString) (cs : List Call) : Option Float64 :=
  cs.foldl (fun acc c => if c.instrument = i ∧ c.labels = lvs then some c.setValue else acc)
    none

/-- The accumulator of a counter series, `0` for a series that does not exist. -/
def valIntOf (o : Option Counter) : Nat := (o.map Counter.valInt).getD 0

/-- Every counter child holds `+0` in `valBits` and a `uint64` in `valInt`. -/
def CountersClean (m : PrometheusMetrics) : Prop :=
  ∀ i L ch, m.counter i L = some ch → ch.valBits = Float64.zero ∧ ch.valInt < 2 ^ 64

/-! ## The scenarios of the specification -/

/-- The label values of scenario S1. -/
def labelsS1 : List GoString :=
  [ascii "path-ab", ascii "chainA", ascii "channel-0", ascii "transfer", ascii "recv_packet"]

/-- Scenario S1: `AddPacketsObserved` with the counts 3 and 2 on one label tuple. -/
def scenarioS1 : List Call :=
  [.AddPacketsObserved (ascii "path-ab") (ascii "chainA") (ascii "channel-0")
     (ascii "transfer") (ascii "recv_packet") 3,
   .AddPacketsObserved (ascii "path-ab") (ascii "chainA") (ascii "channel-0")
     (ascii "transfer") (ascii "recv_packet") 2]

/-- The label values of scenario S2. -/
def labelsS2 : List GoString :=
  [ascii "path-ab", ascii "chainB", ascii "channel-1", ascii "transfer",
   ascii "acknowledge_packet"]

/-- Scenario S2: four `IncPacketsRelayed` on one label tuple. -/
def scenarioS2 : List Call :=
  List.replicate 4 (.IncPacketsRelayed (ascii "path-ab") (ascii "chainB") (ascii "channel-1")
    (ascii "transfer") (ascii "acknowledge_packet"))

/-- Scenario S3: `SetLatestHeight` with 12345, then with 12400, for one chain. -/
def scenarioS3 : List Call :=
  [.SetLatestHeight (ascii "osmosis-1") 12345, .SetLatestHeight (ascii "osmosis-1") 12400]

/-- The label values of scenario S4. -/
def labelsS4 : List GoString :=
  [ascii "cosmoshub-4", ascii "0.025uatom", ascii "relayer", ascii "cosmos1xyz", ascii "uatom"]

/-- Scenario S4: `SetWalletBalance` with 1000000 and `SetFeesSpent` with 250 under the same
label values. -/
def scenarioS4 : List Call :=
  [.SetWalletBalance (ascii "cosmoshub-4") (ascii "0.025uatom") (ascii "relayer")
     (ascii "cosmos1xyz") (ascii "uatom") (Float64.ofInt 1000000),
   .SetFeesSpent (ascii "cosmoshub-4") (ascii "0.025uatom") (ascii "relayer")
     (ascii "cosmos1xyz") (ascii "uatom") (Float64.ofInt 250)]

/-- Scenario S5: `IncBlockQueryFailure` twice for `RPC Client` and once for `IBC Header`. -/
def scenarioS5 : List Call :=
  [.IncBlockQueryFailure (ascii "chainA") (ascii "RPC Client"),
   .IncBlockQueryFailure (ascii "chainA") (ascii "RPC Client"),
   .IncBlockQueryFailure (ascii "chainA") (ascii "IBC Header")]

/-- The call of scenario S6: `SetClientExpiration` with a duration of one hour. -/
def callS6 : Call :=
  .SetClientExpiration (ascii "path-ab") (ascii "chainA") (ascii "07-tendermint-0")
    (ascii "336h0m0s") 3600000000000

/-- The label pairs of the series of a call listed by label name: each label name of the
catalog with the positional parameter `Call.binding` binds it to. -/
def Call.sortedBinding : Call → List (String × GoString)
  | .AddPacketsObserved path chain channel port eventType _ =>
    [("chain", chain), ("channel", channel), ("path", path), ("port", port),
     ("type", eventType)]
  | .IncPacketsRelayed path chain channel port eventType =>
    [("chain", chain), ("channel", channel), ("path", path), ("port", port),
     ("type", eventType)]
  | .SetLatestHeight chain _ => [("chain", chain)]
  | .SetWalletBalance chain gasPrice key address denom _ =>
    [("address", address), ("chain", chain), ("denom", denom), ("gas_price", gasPrice),
     ("key", key)]
  | .SetFeesSpent chain gasPrice key address denom _ =>
    [("address", address), ("chain", chain), ("denom", denom), ("gas_price", gasPrice),
     ("key", key)]
  | .SetClientExpiration pathName chain clientID trustingPeriod _ =>
    [("chain", chain), ("client_id", clientID), ("path_name", pathName),
     ("trusting_period", trustingPeriod)]
  | .IncBlockQueryFailure chain err => [("chain", chain), ("type", err)]

end processor

/-! ## Facts about the `float64` model -/

namespace Go

theorem bitLenAux_spec : ∀ (fuel n : Nat), n ≤ fuel → n ≠ 0 →
    2 ^ (bitLenAux fuel n - 1) ≤ n ∧ n < 2 ^ bitLenAux fuel n := by
  intro fuel
  induction fuel with
  | zero => intro n h h0; omega
  | succ f ih =>
    intro n h h0
    simp only [bitLenAux, if_neg h0]
    by_cases h2 : n / 2 = 0
    · have hn1 : n = 1 := by omega
      subst hn1
      cases f <;> simp [bitLenAux]
    · have hle : n / 2 ≤ f := by omega
      obtain ⟨h1, h3⟩ := ih (n / 2) hle h2
      have hpos : 1 ≤ bitLenAux f (n / 2) := by
        cases f with
        | zero => omega
        | succ g => simp only [bitLenAux, if_neg h2]; omega
      constructor
      · have : bitLenAux f (n / 2) + 1 - 1 = (bitLenAux f (n / 2) - 1) + 1 := by omega
        rw [this, pow_succ]
        omega
      · rw [pow_succ]
        omega

theorem bitLen_spec (n : Nat) (h0 : n ≠ 0) :
    2 ^ (bitLen n - 1) ≤ n ∧ n < 2 ^ bitLen n :=
  bitLenAux_spec n n le_rfl h0

theorem bitLen_pos (n : Nat) (h0 : n ≠ 0) : 1 ≤ bitLen n := by
  by_contra h
  have h1 : bitLen n = 0 := by omega
  have := (bitLen_spec n h0).2
  rw [h1] at this
  omega

/-- the number of binary digits is determined by the binade -/
theorem bitLen_eq (n k : Nat) (h1 : 2 ^ k ≤ n) (h2 : n < 2 ^ (k + 1)) : bitLen n = k + 1 := by
  have h0 : n ≠ 0 := by
    have : 0 < 2 ^ k := by positivity
    omega
  obtain ⟨a, b⟩ := bitLen_spec n h0
  have hp := bitLen_pos n h0
  have c1 : bitLen n - 1 < k + 1 := by
    by_contra hc
    have : 2 ^ (k + 1) ≤ 2 ^ (bitLen n - 1) := Nat.pow_le_pow_right (by norm_num) (by omega)
    omega
  have c2 : k < bitLen n := by
    by_contra hc
    have : 2 ^ bitLen n ≤ 2 ^ k := Nat.pow_le_pow_right (by norm_num) (by omega)
    omega
  omega


namespace Float64

theorem two_zpow_split (k : Int) :
    (2 : ℚ) ^ k = (2 : ℚ) ^ k.toNat / (2 : ℚ) ^ (-k).toNat := by
  rcases le_or_lt 0 k with h | h
  · have h1 : (-k).toNat = 0 := by omega
    have h2 : ((k.toNat : ℕ) : ℤ) = k := Int.toNat_of_nonneg h
    rw [h1, pow_zero, div_one, ← zpow_natCast, h2]
  · have h1 : k.toNat = 0 := by omega
    have h2 : (((-k).toNat : ℕ) : ℤ) = -k := Int.toNat_of_nonneg (by omega)
    rw [h1, pow_zero, ← zpow_natCast, h2, zpow_neg, one_div, inv_inv]

/-- bounds of a positive natural by its digit count, in `ℚ` -/
theorem bitLen_bounds_rat (n : Nat) (h0 : n ≠ 0) :
    (2 : ℚ) ^ ((bitLen n : ℤ) - 1) ≤ n ∧ (n : ℚ) < (2 : ℚ) ^ (bitLen n : ℤ) := by
  obtain ⟨a, b⟩ := bitLen_spec n h0
  have hp := bitLen_pos n h0
  constructor
  · have : ((bitLen n : ℤ) - 1) = ((bitLen n - 1 : ℕ) : ℤ) := by omega
    rw [this, zpow_natCast]
    exact_mod_cast a
  · rw [zpow_natCast]
    exact_mod_cast b

theorem ilog2Ratio_spec (n d : Nat) (hn : n ≠ 0) (hd : d ≠ 0) :
    (2 : ℚ) ^ (ilog2Ratio n d) * d ≤ n ∧ (n : ℚ) < (2 : ℚ) ^ (ilog2Ratio n d + 1) * d := by
  obtain ⟨n1, n2⟩ := bitLen_bounds_rat n hn
  obtain ⟨d1, d2⟩ := bitLen_bounds_rat d hd
  have hdpos : (0 : ℚ) < d := by exact_mod_cast Nat.pos_of_ne_zero hd
  have hnpos : (0 : ℚ) < n := by exact_mod_cast Nat.pos_of_ne_zero hn
  set e0 : ℤ := (bitLen n : ℤ) - (bitLen d : ℤ) with he0
  have hcond : (d * 2 ^ e0.toNat ≤ n * 2 ^ (-e0).toNat) ↔ ((2 : ℚ) ^ e0 * d ≤ n) := by
    rw [two_zpow_split e0]
    have hb : (0 : ℚ) < (2 : ℚ) ^ (-e0).toNat := by positivity
    rw [div_mul_eq_mul_div, div_le_iff₀ hb]
    constructor
    · intro h
      have h' : ((d * 2 ^ e0.toNat : ℕ) : ℚ) ≤ ((n * 2 ^ (-e0).toNat : ℕ) : ℚ) := by
        exact_mod_cast h
      push_cast at h'
      linarith
    · intro h
      have h' : ((d * 2 ^ e0.toNat : ℕ) : ℚ) ≤ ((n * 2 ^ (-e0).toNat : ℕ) : ℚ) := by
        push_cast
        linarith
      exact_mod_cast h'
  have two_pos : ∀ k : ℤ, (0 : ℚ) < (2 : ℚ) ^ k := fun k => by positivity
  unfold ilog2Ratio
  simp only []
  rw [← he0]
  by_cases hc : d * 2 ^ e0.toNat ≤ n * 2 ^ (-e0).toNat
  · rw [if_pos hc]
    refine ⟨hcond.mp hc, ?_⟩
    -- n < 2^bl n = 2^(e0+1) * 2^(bl d - 1) ≤ 2^(e0+1) * d
    have : (2 : ℚ) ^ (bitLen n : ℤ) = (2 : ℚ) ^ (e0 + 1) * (2 : ℚ) ^ ((bitLen d : ℤ) - 1) := by
      rw [← zpow_add₀ (by norm_num : (2 : ℚ) ≠ 0)]
      congr 1
      omega
    calc (n : ℚ) < (2 : ℚ) ^ (bitLen n : ℤ) := n2
      _ = (2 : ℚ) ^ (e0 + 1) * (2 : ℚ) ^ ((bitLen d : ℤ) - 1) := this
      _ ≤ (2 : ℚ) ^ (e0 + 1) * d := by
        apply mul_le_mul_of_nonneg_left d1 (le_of_lt (two_pos _))
  · rw [if_neg hc]
    have hlt : (n : ℚ) < (2 : ℚ) ^ e0 * d := by
      by_contra hh
      exact hc (hcond.mpr (not_lt.mp hh))
    constructor
    · have : (2 : ℚ) ^ ((bitLen n : ℤ) - 1) = (2 : ℚ) ^ (e0 - 1) * (2 : ℚ) ^ (bitLen d : ℤ) := by
        rw [← zpow_add₀ (by norm_num : (2 : ℚ) ≠ 0)]
        congr 1
        omega
      calc (2 : ℚ) ^ (e0 - 1) * d ≤ (2 : ℚ) ^ (e0 - 1) * (2 : ℚ) ^ (bitLen d : ℤ) := by
            apply mul_le_mul_of_nonneg_left (le_of_lt d2) (le_of_lt (two_pos _))
        _ = (2 : ℚ) ^ ((bitLen n : ℤ) - 1) := this.symm
        _ ≤ n := n1
    · have : e0 - 1 + 1 = e0 := by omega
      rw [this]
      exact hlt


/-- the ties-to-even quotient is within one half of the exact quotient -/
theorem rneDiv_spec (num den : Nat) (hden : 0 < den) :
    2 * (rneDiv num den * den) ≤ 2 * num + den ∧ 2 * num ≤ 2 * (rneDiv num den * den) + den := by
  have hdm := Nat.div_add_mod num den
  have hr := Nat.mod_lt num hden
  have hmul : den * (num / den) = num / den * den := Nat.mul_comm _ _
  unfold rneDiv
  split_ifs with h
  · rw [Nat.add_mul, Nat.one_mul]
    rcases h with h | ⟨h, _⟩ <;> constructor <;> omega
  · have h1 : ¬ den < 2 * (num % den) := fun hh => h (Or.inl hh)
    constructor <;> omega

theorem rneDiv_bounds (num den : Nat) :
    num / den ≤ rneDiv num den ∧ rneDiv num den ≤ num / den + 1 := by
  unfold rneDiv
  split_ifs <;> constructor <;> omega

theorem rneDiv_exact (k den : Nat) (hden : 0 < den) : rneDiv (k * den) den = k := by
  unfold rneDiv
  have h1 : k * den % den = 0 := Nat.mul_mod_left k den
  have h2 : k * den / den = k := Nat.mul_div_cancel k hden
  rw [h1, h2]
  have : ¬ (den < 2 * 0 ∨ 2 * 0 = den ∧ k % 2 = 1) := by omega
  rw [if_neg this]

theorem rneDiv_mono (a b den : Nat) (hden : 0 < den) (hab : a ≤ b) :
    rneDiv a den ≤ rneDiv b den := by
  rcases Nat.eq_or_lt_of_le hab with h | h
  · rw [h]
  · obtain ⟨a1, _⟩ := rneDiv_spec a den hden
    obtain ⟨_, b2⟩ := rneDiv_spec b den hden
    by_contra hc
    have hk : rneDiv b den + 1 ≤ rneDiv a den := by omega
    have : (rneDiv b den + 1) * den ≤ rneDiv a den * den := Nat.mul_le_mul_right den hk
    rw [Nat.add_mul, Nat.one_mul] at this
    omega

/-- scaled numerator and denominator for the quantum `2^t` stay in the significand range -/
theorem scaled_range (n d : Nat) (hn : n ≠ 0) (hd : d ≠ 0) (t : ℤ)
    (ht : t = ilog2Ratio n d - 52) :
    2 ^ 52 * (d * 2 ^ t.toNat) ≤ n * 2 ^ (-t).toNat ∧
      n * 2 ^ (-t).toNat < 2 ^ 53 * (d * 2 ^ t.toNat) := by
  obtain ⟨h1, h2⟩ := ilog2Ratio_spec n d hn hd
  have hE : ilog2Ratio n d = t + 52 := by omega
  rw [hE] at h1 h2
  have e1 : (2 : ℚ) ^ (t + 52) = (2 : ℚ) ^ 52 * ((2 : ℚ) ^ t.toNat / (2 : ℚ) ^ (-t).toNat) := by
    rw [zpow_add₀ (by norm_num : (2 : ℚ) ≠ 0), two_zpow_split t, mul_comm]
    norm_num
  have e2 : (2 : ℚ) ^ (t + 52 + 1) =
      (2 : ℚ) ^ 53 * ((2 : ℚ) ^ t.toNat / (2 : ℚ) ^ (-t).toNat) := by
    have : t + 52 + 1 = t + 53 := by ring
    rw [this, zpow_add₀ (by norm_num : (2 : ℚ) ≠ 0), two_zpow_split t, mul_comm]
    norm_num
  rw [e1] at h1
  rw [e2] at h2
  have hb : (0 : ℚ) < (2 : ℚ) ^ (-t).toNat := by positivity
  constructor
  · have h : ((2 ^ 52 * (d * 2 ^ t.toNat) : ℕ) : ℚ) ≤ ((n * 2 ^ (-t).toNat : ℕ) : ℚ) := by
      push_cast
      have := mul_le_mul_of_nonneg_right h1 (le_of_lt hb)
      calc (2 : ℚ) ^ 52 * ((d : ℚ) * 2 ^ t.toNat)
          = (2 : ℚ) ^ 52 * ((2 : ℚ) ^ t.toNat / (2 : ℚ) ^ (-t).toNat) * d
              * (2 : ℚ) ^ (-t).toNat := by field_simp; ring
        _ ≤ n * (2 : ℚ) ^ (-t).toNat := this
    exact_mod_cast h
  · have h : ((n * 2 ^ (-t).toNat : ℕ) : ℚ) < ((2 ^ 53 * (d * 2 ^ t.toNat) : ℕ) : ℚ) := by
      push_cast
      have := mul_lt_mul_of_pos_right h2 hb
      calc (n : ℚ) * (2 : ℚ) ^ (-t).toNat
          < (2 : ℚ) ^ 53 * ((2 : ℚ) ^ t.toNat / (2 : ℚ) ^ (-t).toNat) * d
              * (2 : ℚ) ^ (-t).toNat := this
        _ = (2 : ℚ) ^ 53 * ((d : ℚ) * 2 ^ t.toNat) := by field_simp; ring
    exact_mod_cast h

/-- the rounded significand before renormalisation lies in `[2^52, 2^53]` -/
theorem rneDiv_range (num den : Nat) (hden : 0 < den) (h1 : 2 ^ 52 * den ≤ num)
    (h2 : num < 2 ^ 53 * den) :
    2 ^ 52 ≤ rneDiv num den ∧ rneDiv num den ≤ 2 ^ 53 := by
  obtain ⟨a, b⟩ := rneDiv_bounds num den
  have hq1 : 2 ^ 52 ≤ num / den := (Nat.le_div_iff_mul_le hden).mpr h1
  have hq2 : num / den < 2 ^ 53 := (Nat.div_lt_iff_lt_mul hden).mpr h2
  constructor <;> omega

/-- Shape of a rounding result in the normal range. -/
theorem round_normal (neg : Bool) (n d : Nat) (hn : n ≠ 0) (hd : d ≠ 0) (t : ℤ)
    (ht : t = ilog2Ratio n d - 52) (hlo : -1074 ≤ t) (hhi : t ≤ 970) :
    ∃ M T, round neg n d = .finite neg M T ∧ 2 ^ 52 ≤ M ∧ M < 2 ^ 53 ∧ -1074 ≤ T ∧ T ≤ 971 ∧
      (M : ℚ) * (2 : ℚ) ^ T =
        (rneDiv (n * 2 ^ (-t).toNat) (d * 2 ^ t.toNat) : ℚ) * (2 : ℚ) ^ t := by
  obtain ⟨s1, s2⟩ := scaled_range n d hn hd t ht
  have hden : 0 < d * 2 ^ t.toNat := Nat.mul_pos (Nat.pos_of_ne_zero hd) (by positivity)
  obtain ⟨k1, k2⟩ := rneDiv_range _ _ hden s1 s2
  have hmax : max (ilog2Ratio n d) (-1022) - 52 = t := by
    rw [max_eq_left (by omega)]; omega
  unfold round
  rw [if_neg hn]
  simp only [hmax]
  rw [if_neg (by omega : ¬ (971 : ℤ) < t)]
  by_cases hk : rneDiv (n * 2 ^ (-t).toNat) (d * 2 ^ t.toNat) = 2 ^ 53
  · rw [if_pos hk, if_neg (by omega : ¬ t = 971)]
    refine ⟨2 ^ 52, t + 1, rfl, le_rfl, by norm_num, by omega, by omega, ?_⟩
    rw [hk, zpow_add₀ (by norm_num : (2 : ℚ) ≠ 0)]
    push_cast
    ring
  · rw [if_neg hk, if_neg (by omega)]
    exact ⟨_, t, rfl, k1, by omega, hlo, by omega, rfl⟩

/-- the value of the rounded significand differs from the exact ratio by at most half a
quantum, and stays inside the closed binade -/
theorem rneDiv_value (n d : Nat) (hn : n ≠ 0) (hd : d ≠ 0) (t : ℤ)
    (ht : t = ilog2Ratio n d - 52) (V : ℚ)
    (hV : V = (rneDiv (n * 2 ^ (-t).toNat) (d * 2 ^ t.toNat) : ℚ) * (2 : ℚ) ^ t) :
    2 * (V * d - n) ≤ (2 : ℚ) ^ t * d ∧ 2 * (n - V * d) ≤ (2 : ℚ) ^ t * d ∧
      (2 : ℚ) ^ (t + 52) ≤ V ∧ V ≤ (2 : ℚ) ^ (t + 53) := by
  obtain ⟨s1, s2⟩ := scaled_range n d hn hd t ht
  have hden : 0 < d * 2 ^ t.toNat := Nat.mul_pos (Nat.pos_of_ne_zero hd) (by positivity)
  obtain ⟨k1, k2⟩ := rneDiv_range _ _ hden s1 s2
  obtain ⟨r1, r2⟩ := rneDiv_spec (n * 2 ^ (-t).toNat) (d * 2 ^ t.toNat) hden
  set k := rneDiv (n * 2 ^ (-t).toNat) (d * 2 ^ t.toNat) with hk
  have q1 : (2 : ℚ) * ((k : ℚ) * ((d : ℚ) * (2 : ℚ) ^ t.toNat))
      ≤ 2 * ((n : ℚ) * (2 : ℚ) ^ (-t).toNat) + (d : ℚ) * (2 : ℚ) ^ t.toNat := by
    exact_mod_cast r1
  have q2 : (2 : ℚ) * ((n : ℚ) * (2 : ℚ) ^ (-t).toNat)
      ≤ 2 * ((k : ℚ) * ((d : ℚ) * (2 : ℚ) ^ t.toNat)) + (d : ℚ) * (2 : ℚ) ^ t.toNat := by
    exact_mod_cast r2
  have hA : (0 : ℚ) < (2 : ℚ) ^ (-t).toNat := by positivity
  have hB : (0 : ℚ) < (2 : ℚ) ^ t.toNat := by positivity
  have k1q : ((2 : ℚ) ^ 52) ≤ k := by exact_mod_cast k1
  have k2q : (k : ℚ) ≤ (2 : ℚ) ^ 53 := by exact_mod_cast k2
  have hpos : (0 : ℚ) < (2 : ℚ) ^ t := by positivity
  rw [hV]
  refine ⟨?_, ?_, ?_, ?_⟩
  · rw [two_zpow_split t]
    have e : 2 * ((k : ℚ) * ((2 : ℚ) ^ t.toNat / (2 : ℚ) ^ (-t).toNat) * d - n)
        = (2 * ((k : ℚ) * ((d : ℚ) * (2 : ℚ) ^ t.toNat))
            - 2 * ((n : ℚ) * (2 : ℚ) ^ (-t).toNat)) / (2 : ℚ) ^ (-t).toNat := by
      field_simp; ring
    have e2 : (2 : ℚ) ^ t.toNat / (2 : ℚ) ^ (-t).toNat * d
        = ((d : ℚ) * (2 : ℚ) ^ t.toNat) / (2 : ℚ) ^ (-t).toNat := by
      field_simp; ring
    rw [e, e2, div_le_div_iff_of_pos_right hA]
    linarith
  · rw [two_zpow_split t]
    have e : 2 * ((n : ℚ) - (k : ℚ) * ((2 : ℚ) ^ t.toNat / (2 : ℚ) ^ (-t).toNat) * d)
        = (2 * ((n : ℚ) * (2 : ℚ) ^ (-t).toNat)
            - 2 * ((k : ℚ) * ((d : ℚ) * (2 : ℚ) ^ t.toNat))) / (2 : ℚ) ^ (-t).toNat := by
      field_simp; ring
    have e2 : (2 : ℚ) ^ t.toNat / (2 : ℚ) ^ (-t).toNat * d
        = ((d : ℚ) * (2 : ℚ) ^ t.toNat) / (2 : ℚ) ^ (-t).toNat := by
      field_simp; ring
    rw [e, e2, div_le_div_iff_of_pos_right hA]
    linarith
  · rw [zpow_add₀ (by norm_num : (2 : ℚ) ≠ 0), mul_comm]
    have : (2 : ℚ) ^ (52 : ℤ) = (2 : ℚ) ^ 52 := by norm_num
    rw [this]
    exact mul_le_mul_of_nonneg_right k1q (le_of_lt hpos)
  · rw [zpow_add₀ (by norm_num : (2 : ℚ) ≠ 0), mul_comm ((2 : ℚ) ^ t)]
    have : (2 : ℚ) ^ (53 : ℤ) = (2 : ℚ) ^ 53 := by norm_num
    rw [this]
    exact mul_le_mul_of_nonneg_right k2q (le_of_lt hpos)

/-- the binade is determined by the ratio -/
theorem ilog2Ratio_unique (n d : Nat) (hn : n ≠ 0) (hd : d ≠ 0) (E : ℤ)
    (h1 : (2 : ℚ) ^ E * d ≤ n) (h2 : (n : ℚ) < (2 : ℚ) ^ (E + 1) * d) :
    ilog2Ratio n d = E := by
  obtain ⟨a, b⟩ := ilog2Ratio_spec n d hn hd
  have hdpos : (0 : ℚ) < d := by exact_mod_cast Nat.pos_of_ne_zero hd
  have c1 : (2 : ℚ) ^ E < (2 : ℚ) ^ (ilog2Ratio n d + 1) := by
    have := lt_of_le_of_lt h1 b
    exact lt_of_mul_lt_mul_right this (le_of_lt hdpos)
  have c2 : (2 : ℚ) ^ (ilog2Ratio n d) < (2 : ℚ) ^ (E + 1) := by
    have := lt_of_le_of_lt a h2
    exact lt_of_mul_lt_mul_right this (le_of_lt hdpos)
  have d1 := (zpow_lt_zpow_iff_right₀ (by norm_num : (1 : ℚ) < 2)).mp c1
  have d2 := (zpow_lt_zpow_iff_right₀ (by norm_num : (1 : ℚ) < 2)).mp c2
  omega

/-- a ratio that is a canonical normal `float64` rounds to itself -/
theorem round_exact (neg : Bool) (n d : Nat) (hn : n ≠ 0) (hd : d ≠ 0) (M : Nat) (T : ℤ)
    (hM1 : 2 ^ 52 ≤ M) (hM2 : M < 2 ^ 53) (hT1 : -1074 ≤ T) (hT2 : T ≤ 971)
    (hval : (n : ℚ) = (M : ℚ) * (2 : ℚ) ^ T * d) :
    round neg n d = .finite neg M T := by
  have hdpos : (0 : ℚ) < d := by exact_mod_cast Nat.pos_of_ne_zero hd
  have hpos : (0 : ℚ) < (2 : ℚ) ^ T := by positivity
  have m1q : ((2 : ℚ) ^ 52) ≤ M := by exact_mod_cast hM1
  have m2q : (M : ℚ) < (2 : ℚ) ^ 53 := by exact_mod_cast hM2
  have hE : ilog2Ratio n d = T + 52 := by
    apply ilog2Ratio_unique n d hn hd
    · rw [hval, zpow_add₀ (by norm_num : (2 : ℚ) ≠ 0), mul_comm ((2 : ℚ) ^ T)]
      have : (2 : ℚ) ^ (52 : ℤ) = (2 : ℚ) ^ 52 := by norm_num
      rw [this]
      exact mul_le_mul_of_nonneg_right
        (mul_le_mul_of_nonneg_right m1q (le_of_lt hpos)) (le_of_lt hdpos)
    · have e : T + 52 + 1 = T + 53 := by ring
      rw [hval, e, zpow_add₀ (by norm_num : (2 : ℚ) ≠ 0), mul_comm ((2 : ℚ) ^ T)]
      have : (2 : ℚ) ^ (53 : ℤ) = (2 : ℚ) ^ 53 := by norm_num
      rw [this]
      exact mul_lt_mul_of_pos_right (mul_lt_mul_of_pos_right m2q hpos) hdpos
  have hmax : max (ilog2Ratio n d) (-1022) - 52 = T := by
    rw [hE, max_eq_left (by omega)]; omega
  have hnum : n * 2 ^ (-T).toNat = M * (d * 2 ^ T.toNat) := by
    have hA : (0 : ℚ) < (2 : ℚ) ^ (-T).toNat := by positivity
    have h : ((n * 2 ^ (-T).toNat : ℕ) : ℚ) = ((M * (d * 2 ^ T.toNat) : ℕ) : ℚ) := by
      push_cast
      rw [hval, two_zpow_split T]
      field_simp
      ring
    exact_mod_cast h
  have hden : 0 < d * 2 ^ T.toNat := Nat.mul_pos (Nat.pos_of_ne_zero hd) (by positivity)
  unfold round
  rw [if_neg hn]
  simp only [hmax]
  rw [if_neg (by omega : ¬ (971 : ℤ) < T), hnum, rneDiv_exact M _ hden,
    if_neg (by omega : ¬ M = 2 ^ 53), if_neg (by omega : ¬ M = 0)]

theorem bitLen_mono (a b : Nat) (ha : a ≠ 0) (hab : a ≤ b) : bitLen a ≤ bitLen b := by
  have hb : b ≠ 0 := by omega
  obtain ⟨a1, _⟩ := bitLen_spec a ha
  obtain ⟨_, b2⟩ := bitLen_spec b hb
  by_contra hc
  have : 2 ^ bitLen b ≤ 2 ^ (bitLen a - 1) := Nat.pow_le_pow_right (by norm_num) (by omega)
  omega

theorem ilog2Ratio_one (n : Nat) (hn : n ≠ 0) : ilog2Ratio n 1 = (bitLen n : ℤ) - 1 := by
  obtain ⟨a, b⟩ := bitLen_bounds_rat n hn
  apply ilog2Ratio_unique n 1 hn (by norm_num)
  · simpa using a
  · have : (bitLen n : ℤ) - 1 + 1 = bitLen n := by ring
    rw [this]
    simpa using b

theorem ofInt_natCast (n : Nat) : ofInt (n : ℤ) = round false n 1 := by
  unfold ofInt
  have h1 : ¬ ((n : ℤ) < 0) := by omega
  simp [h1]

theorem ofInt_zero : ofInt 0 = zero := by decide

/-- Shape of `float64(n)` for a positive integer below `2^64`. -/
theorem ofInt_nat_shape (n : Nat) (hn : n ≠ 0) (hlt : n < 2 ^ 64) (t : ℤ)
    (ht : t = (bitLen n : ℤ) - 53) :
    ∃ M T, ofInt (n : ℤ) = .finite false M T ∧ 2 ^ 52 ≤ M ∧ M < 2 ^ 53 ∧ t ≤ T ∧ T ≤ 971 ∧
      (M : ℚ) * (2 : ℚ) ^ T = (rneDiv (n * 2 ^ (-t).toNat) (2 ^ t.toNat) : ℚ) * (2 : ℚ) ^ t := by
  have hbl : bitLen n ≤ 64 := by
    obtain ⟨a, _⟩ := bitLen_spec n hn
    by_contra hc
    have : 2 ^ 64 ≤ 2 ^ (bitLen n - 1) := Nat.pow_le_pow_right (by norm_num) (by omega)
    omega
  have hp := bitLen_pos n hn
  have ht2 : t = ilog2Ratio n 1 - 52 := by rw [ilog2Ratio_one n hn]; omega
  obtain ⟨M, T, h1, h2, h3, h4, h5, h6⟩ :=
    round_normal false n 1 hn (by norm_num) t ht2 (by omega) (by omega)
  rw [Nat.one_mul] at h6
  refine ⟨M, T, by rw [ofInt_natCast]; exact h1, h2, h3, ?_, h5, h6⟩
  -- t ≤ T : compare values
  by_contra hc
  have hTt : T + 1 ≤ t := by omega
  obtain ⟨_, _, v3, _⟩ := rneDiv_value n 1 hn (by norm_num) t ht2 _ rfl
  rw [Nat.one_mul, ← h6] at v3
  have m2q : (M : ℚ) < (2 : ℚ) ^ 53 := by exact_mod_cast h3
  have hpos : (0 : ℚ) < (2 : ℚ) ^ T := by positivity
  have : (M : ℚ) * (2 : ℚ) ^ T < (2 : ℚ) ^ (t + 52) := by
    calc (M : ℚ) * (2 : ℚ) ^ T < (2 : ℚ) ^ 53 * (2 : ℚ) ^ T := mul_lt_mul_of_pos_right m2q hpos
      _ = (2 : ℚ) ^ (T + 53) := by
        rw [zpow_add₀ (by norm_num : (2 : ℚ) ≠ 0), mul_comm]; norm_num
      _ ≤ (2 : ℚ) ^ (t + 52) := zpow_le_zpow_right₀ (by norm_num) (by omega)
  linarith

/-- `float64(n)` is exact for `0 < n ≤ 2^53`. -/
theorem ofInt_nat_exact (neg : Bool) (n : Nat) (hn : n ≠ 0) (hle : n ≤ 2 ^ 53) :
    ∃ M T, round neg n 1 = .finite neg M T ∧ 2 ^ 52 ≤ M ∧ M < 2 ^ 53 ∧ -52 ≤ T ∧ T ≤ 1 ∧
      (M : ℚ) * (2 : ℚ) ^ T = n := by
  obtain ⟨a, b⟩ := bitLen_spec n hn
  have hp := bitLen_pos n hn
  by_cases h53 : n = 2 ^ 53
  · subst h53
    refine ⟨2 ^ 52, 1, ?_, le_rfl, by norm_num, by norm_num, le_rfl, by norm_num⟩
    cases neg <;> decide
  · have hbl : bitLen n ≤ 53 := by
      by_contra hc
      have : 2 ^ 53 ≤ 2 ^ (bitLen n - 1) := Nat.pow_le_pow_right (by norm_num) (by omega)
      omega
    have e1 : 2 ^ (bitLen n - 1) * 2 ^ (53 - bitLen n) = 2 ^ 52 := by
      rw [← pow_add]; congr 1; omega
    have e2 : 2 ^ bitLen n * 2 ^ (53 - bitLen n) = 2 ^ 53 := by
      rw [← pow_add]; congr 1; omega
    have hpos : 0 < 2 ^ (53 - bitLen n) := by positivity
    have hval : (n : ℚ) = ((n * 2 ^ (53 - bitLen n) : ℕ) : ℚ) * (2 : ℚ) ^ ((bitLen n : ℤ) - 53) := by
      have : ((bitLen n : ℤ) - 53) = -((53 - bitLen n : ℕ) : ℤ) := by omega
      rw [this, zpow_neg, zpow_natCast]
      push_cast
      field_simp
    refine ⟨n * 2 ^ (53 - bitLen n), (bitLen n : ℤ) - 53, ?_, ?_, ?_, by omega, by omega,
      hval.symm⟩
    · apply round_exact neg n 1 hn (by norm_num)
      · calc 2 ^ 52 = 2 ^ (bitLen n - 1) * 2 ^ (53 - bitLen n) := e1.symm
          _ ≤ n * 2 ^ (53 - bitLen n) := Nat.mul_le_mul_right _ a
      · calc n * 2 ^ (53 - bitLen n) < 2 ^ bitLen n * 2 ^ (53 - bitLen n) :=
            Nat.mul_lt_mul_of_pos_right b hpos
          _ = 2 ^ 53 := e2
      · omega
      · omega
      · rw [Nat.cast_one, mul_one]; exact hval
    · calc 2 ^ 52 = 2 ^ (bitLen n - 1) * 2 ^ (53 - bitLen n) := e1.symm
        _ ≤ n * 2 ^ (53 - bitLen n) := Nat.mul_le_mul_right _ a
    · calc n * 2 ^ (53 - bitLen n) < 2 ^ bitLen n * 2 ^ (53 - bitLen n) :=
          Nat.mul_lt_mul_of_pos_right b hpos
        _ = 2 ^ 53 := e2

/-- `float64(i)` denotes `i` itself when `|i| ≤ 2^53`. -/
theorem ofInt_toRat_exact (i : ℤ) (h : i.natAbs ≤ 2 ^ 53) :
    (ofInt i).toRat? = some (i : ℚ) := by
  by_cases h0 : i = 0
  · subst h0
    simp [ofInt_zero, zero, toRat?]
  · have hn : i.natAbs ≠ 0 := by omega
    obtain ⟨M, T, h1, _, _, _, _, h6⟩ := ofInt_nat_exact (decide (i < 0)) i.natAbs hn h
    unfold ofInt
    rw [h1]
    simp only [toRat?]
    congr 1
    rw [mul_assoc, h6]
    obtain ⟨k, hk | hk⟩ := Int.eq_nat_or_neg i
    · subst hk
      have hneg : ¬ ((k : ℤ) < 0) := by omega
      simp [hneg]
    · subst hk
      have hneg : (-(k : ℤ) < 0) := by omega
      simp [hneg]

/-- `uint64(v)` of a `float64` that denotes the natural number `N` -/
theorem toUint64_of_nat (M : Nat) (T : ℤ) (N : Nat) (h : (M : ℚ) * (2 : ℚ) ^ T = N) :
    toUint64 (.finite false M T) = N % 2 ^ 64 := by
  have hA : (0 : ℚ) < (2 : ℚ) ^ (-T).toNat := by positivity
  have hnat : M * 2 ^ T.toNat = N * 2 ^ (-T).toNat := by
    have e : ((M * 2 ^ T.toNat : ℕ) : ℚ) = ((N * 2 ^ (-T).toNat : ℕ) : ℚ) := by
      push_cast
      rw [← h, two_zpow_split T]
      field_simp
    exact_mod_cast e
  unfold toUint64
  simp only []
  rw [hnat, Nat.mul_div_cancel _ (by positivity)]

/-- Properties of `float64(n)` for `0 < n < 2^64`: it denotes a natural number `N` of the
same binade (closed above), which converts back to the same `float64`. -/
theorem ofInt_nat_props (n : Nat) (hn : n ≠ 0) (hlt : n < 2 ^ 64) :
    ∃ (M : ℕ) (T : ℤ) (N : ℕ), ofInt (n : ℤ) = .finite false M T ∧ M ≠ 0 ∧ (M : ℚ) * (2 : ℚ) ^ T = (N : ℚ) ∧
      ofInt (N : ℤ) = .finite false M T ∧ 2 ^ (bitLen n - 1) ≤ N ∧ N ≤ 2 ^ bitLen n ∧
      (n ≤ 2 ^ 53 → N = n) := by
  obtain ⟨b1, b2⟩ := bitLen_spec n hn
  by_cases hsmall : n ≤ 2 ^ 53
  · obtain ⟨M, T, h1, h2, _, _, _, h6⟩ := ofInt_nat_exact false n hn hsmall
    refine ⟨M, T, n, by rw [ofInt_natCast]; exact h1, by omega, h6, by
      rw [ofInt_natCast]; exact h1, b1, le_of_lt b2, fun _ => rfl⟩
  · have hbl : 54 ≤ bitLen n := by
      by_contra hc
      have : 2 ^ bitLen n ≤ 2 ^ 53 := Nat.pow_le_pow_right (by norm_num) (by omega)
      omega
    obtain ⟨M, T, h1, h2, h3, h4, h5, h6⟩ :=
      ofInt_nat_shape n hn hlt ((bitLen n : ℤ) - 53) rfl
    have hT : 0 ≤ T := by omega
    have hTn : ((T.toNat : ℕ) : ℤ) = T := Int.toNat_of_nonneg hT
    have hval : (M : ℚ) * (2 : ℚ) ^ T = ((M * 2 ^ T.toNat : ℕ) : ℚ) := by
      push_cast
      rw [← zpow_natCast, hTn]
    have hN0 : M * 2 ^ T.toNat ≠ 0 := by
      have : 0 < 2 ^ T.toNat := by positivity
      have : 0 < M := by omega
      positivity
    have ht2 : ((bitLen n : ℤ) - 53) = ilog2Ratio n 1 - 52 := by
      rw [ilog2Ratio_one n hn]; omega
    obtain ⟨_, _, v3, v4⟩ := rneDiv_value n 1 hn (by norm_num) _ ht2 _ rfl
    rw [Nat.one_mul, ← h6, hval] at v3 v4
    have e3 : ((bitLen n : ℤ) - 53 + 52) = ((bitLen n - 1 : ℕ) : ℤ) := by omega
    have e4 : ((bitLen n : ℤ) - 53 + 53) = ((bitLen n : ℕ) : ℤ) := by omega
    rw [e3, zpow_natCast] at v3
    rw [e4, zpow_natCast] at v4
    refine ⟨M, T, M * 2 ^ T.toNat, h1, by omega, hval, ?_, by exact_mod_cast v3,
      by exact_mod_cast v4, fun h => absurd h hsmall⟩
    rw [ofInt_natCast]
    apply round_exact false _ 1 hN0 (by norm_num) M T h2 h3 (by omega) h5
    rw [Nat.cast_one, mul_one]
    exact hval.symm

/-- a `float64` converted from a non-negative integer is not `< 0` -/
theorem round_not_lt_zero (n d : Nat) : (round false n d).lt zero = false := by
  unfold round
  have key : ∀ (m : Nat) (e : ℤ), (Float64.finite false m e).lt zero = false := by
    intro m e
    simp only [lt, zero, signed, Bool.false_eq_true, if_false, decide_eq_false_iff_not, not_lt]
    simp
  simp only []
  split_ifs <;> first | exact key _ _ | rfl

theorem ofInt_not_lt_zero (i : ℤ) (h : 0 ≤ i) : (ofInt i).lt zero = false := by
  unfold ofInt
  have : ¬ (i < 0) := by omega
  simp only [this, decide_False]
  exact round_not_lt_zero _ _

/-- a negative integer converts to a `float64` that is `< 0` -/
theorem ofInt_lt_zero (i : ℤ) (h : i < 0) (h2 : i.natAbs < 2 ^ 64) :
    (ofInt i).lt zero = true := by
  have hn : i.natAbs ≠ 0 := by omega
  have ht2 : ((bitLen i.natAbs : ℤ) - 53) = ilog2Ratio i.natAbs 1 - 52 := by
    rw [ilog2Ratio_one _ hn]; omega
  have hbl : bitLen i.natAbs ≤ 64 := by
    obtain ⟨a, _⟩ := bitLen_spec _ hn
    by_contra hc
    have : 2 ^ 64 ≤ 2 ^ (bitLen i.natAbs - 1) := Nat.pow_le_pow_right (by norm_num) (by omega)
    omega
  have hp := bitLen_pos _ hn
  obtain ⟨M, T, h1, h2, _⟩ :=
    round_normal true i.natAbs 1 hn (by norm_num) _ ht2 (by omega) (by omega)
  unfold ofInt
  simp only [h, decide_True]
  rw [h1]
  simp only [lt, zero, signed, if_true, Bool.false_eq_true, if_false, decide_eq_true_eq]
  have : 0 < M * 2 ^ (T - min T (-1074)).toNat := by
    have : 0 < M := by omega
    positivity
  simp
  omega

theorem eq_self (neg : Bool) (M : Nat) (T : ℤ) :
    (Float64.finite neg M T).eq (.finite neg M T) = true := by
  simp [eq]

/-- `+0 + float64(n)` is `float64(n)` -/
theorem zero_add_ofInt_nat (n : Nat) (hlt : n < 2 ^ 64) :
    zero.add (ofInt (n : ℤ)) = ofInt (n : ℤ) := by
  by_cases hn : n = 0
  · subst hn; decide
  · obtain ⟨M, T, N, h1, h2, _⟩ := ofInt_nat_props n hn hlt
    rw [h1]
    simp [zero, add, h2]

/-- the number `float64(n)` denotes, for `0 < n < 2^64`, in terms of the rounded significand -/
theorem ofInt_nat_toRat (n : Nat) (hn : n ≠ 0) (hlt : n < 2 ^ 64) (t : ℤ)
    (ht : t = (bitLen n : ℤ) - 53) :
    ∃ V : ℚ, (ofInt (n : ℤ)).toRat? = some V ∧
      V = (rneDiv (n * 2 ^ (-t).toNat) (2 ^ t.toNat) : ℚ) * (2 : ℚ) ^ t ∧
      (2 : ℚ) ^ (t + 52) ≤ V ∧ V ≤ (2 : ℚ) ^ (t + 53) := by
  obtain ⟨M, T, h1, _, _, _, _, h6⟩ := ofInt_nat_shape n hn hlt t ht
  have ht2 : t = ilog2Ratio n 1 - 52 := by rw [ilog2Ratio_one n hn]; omega
  obtain ⟨_, _, v3, v4⟩ := rneDiv_value n 1 hn (by norm_num) t ht2 _ rfl
  rw [Nat.one_mul] at v3 v4
  refine ⟨_, ?_, rfl, v3, v4⟩
  rw [h1]
  simp only [toRat?, Bool.false_eq_true, if_false, one_mul]
  rw [h6]

/-- Integer to `float64` conversion is monotone on `uint64` values. -/
theorem ofInt_nat_mono (a b : Nat) (hab : a ≤ b) (hb : b < 2 ^ 64) :
    ∃ va vb : ℚ, (ofInt (a : ℤ)).toRat? = some va ∧ (ofInt (b : ℤ)).toRat? = some vb ∧
      0 ≤ va ∧ va ≤ vb := by
  by_cases ha : a = 0
  · subst ha
    by_cases hb0 : b = 0
    · subst hb0
      exact ⟨0, 0, by simp [ofInt_zero, zero, toRat?], by simp [ofInt_zero, zero, toRat?],
        le_rfl, le_rfl⟩
    · obtain ⟨V, h1, _, h3, _⟩ := ofInt_nat_toRat b hb0 hb _ rfl
      have : (0 : ℚ) < (2 : ℚ) ^ ((bitLen b : ℤ) - 53 + 52) := by positivity
      exact ⟨0, V, by simp [ofInt_zero, zero, toRat?], h1, le_rfl, by linarith⟩
  · have hb0 : b ≠ 0 := by omega
    obtain ⟨Va, a1, a2, a3, a4⟩ := ofInt_nat_toRat a ha (by omega) _ rfl
    obtain ⟨Vb, b1, b2, b3, b4⟩ := ofInt_nat_toRat b hb0 hb _ rfl
    have hpa : (0 : ℚ) < (2 : ℚ) ^ ((bitLen a : ℤ) - 53 + 52) := by positivity
    refine ⟨Va, Vb, a1, b1, by linarith, ?_⟩
    have hbl := bitLen_mono a b ha hab
    rcases Nat.eq_or_lt_of_le hbl with h | h
    · rw [a2, b2, h]
      have hpos : (0 : ℚ) < (2 : ℚ) ^ ((bitLen b : ℤ) - 53) := by positivity
      apply mul_le_mul_of_nonneg_right _ (le_of_lt hpos)
      have := rneDiv_mono (a * 2 ^ (-((bitLen b : ℤ) - 53)).toNat)
        (b * 2 ^ (-((bitLen b : ℤ) - 53)).toNat) (2 ^ ((bitLen b : ℤ) - 53).toNat)
        (by positivity) (Nat.mul_le_mul_right _ hab)
      exact_mod_cast this
    · calc Va ≤ (2 : ℚ) ^ ((bitLen a : ℤ) - 53 + 53) := a4
        _ ≤ (2 : ℚ) ^ ((bitLen b : ℤ) - 53 + 52) :=
          zpow_le_zpow_right₀ (by norm_num) (by omega)
        _ ≤ Vb := b3

/-- In the normal range a rounding result is a canonical number within a relative `2^-53` of
the exact ratio. -/
theorem round_near (neg : Bool) (n d : Nat) (hn : n ≠ 0) (hd : d ≠ 0) (t : ℤ)
    (ht : t = ilog2Ratio n d - 52) (hlo : -1074 ≤ t) (hhi : t ≤ 970) :
    ∃ (M : ℕ) (T : ℤ) (V : ℚ), round neg n d = .finite neg M T ∧ M ≠ 0 ∧
      V = (M : ℚ) * (2 : ℚ) ^ T ∧ 0 < V ∧ |V * d - n| * 2 ^ 53 ≤ n := by
  obtain ⟨M, T, h1, h2, _, _, _, h6⟩ := round_normal neg n d hn hd t ht hlo hhi
  obtain ⟨v1, v2, v3, _⟩ := rneDiv_value n d hn hd t ht _ rfl
  obtain ⟨s1, _⟩ := ilog2Ratio_spec n d hn hd
  have hE : ilog2Ratio n d = t + 52 := by omega
  rw [hE] at s1
  rw [← h6] at v1 v2 v3
  have hpos : (0 : ℚ) < (2 : ℚ) ^ (t + 52) := by positivity
  have e52 : (2 : ℚ) ^ (t + 52) = (2 : ℚ) ^ t * 2 ^ 52 := by
    rw [zpow_add₀ (by norm_num : (2 : ℚ) ≠ 0)]; norm_num
  refine ⟨M, T, _, h1, by omega, rfl, by linarith, ?_⟩
  have habs : |(M : ℚ) * (2 : ℚ) ^ T * d - n| ≤ (2 : ℚ) ^ t * d / 2 := by
    rw [abs_le]
    constructor <;> linarith
  have h53 : (2 : ℚ) ^ 53 = 2 * 2 ^ 52 := by norm_num
  calc |(M : ℚ) * (2 : ℚ) ^ T * d - n| * 2 ^ 53 ≤ ((2 : ℚ) ^ t * d / 2) * 2 ^ 53 :=
        mul_le_mul_of_nonneg_right habs (by positivity)
    _ = (2 : ℚ) ^ (t + 52) * d := by rw [e52, h53]; ring
    _ ≤ n := s1

/-- the binade lies between any bounds of the ratio by powers of two -/
theorem ilog2Ratio_bounds (n d : Nat) (hn : n ≠ 0) (hd : d ≠ 0) (a b : ℤ)
    (h1 : (2 : ℚ) ^ a * d ≤ n) (h2 : (n : ℚ) < (2 : ℚ) ^ b * d) :
    a ≤ ilog2Ratio n d ∧ ilog2Ratio n d < b := by
  obtain ⟨s1, s2⟩ := ilog2Ratio_spec n d hn hd
  have hdpos : (0 : ℚ) < d := by exact_mod_cast Nat.pos_of_ne_zero hd
  have c1 : (2 : ℚ) ^ a < (2 : ℚ) ^ (ilog2Ratio n d + 1) :=
    lt_of_mul_lt_mul_right (lt_of_le_of_lt h1 s2) (le_of_lt hdpos)
  have c2 : (2 : ℚ) ^ (ilog2Ratio n d) < (2 : ℚ) ^ b :=
    lt_of_mul_lt_mul_right (lt_of_le_of_lt s1 h2) (le_of_lt hdpos)
  have d1 := (zpow_lt_zpow_iff_right₀ (by norm_num : (1 : ℚ) < 2)).mp c1
  have d2 := (zpow_lt_zpow_iff_right₀ (by norm_num : (1 : ℚ) < 2)).mp c2
  omega

/-- `float64(i)` of a 64-bit integer is a finite number within a relative `2^-53` of `i`. -/
theorem ofInt_toRat_near (i : ℤ) (h : i.natAbs < 2 ^ 64) :
    ∃ v : ℚ, (ofInt i).toRat? = some v ∧ |v - i| * 2 ^ 53 ≤ |(i : ℚ)| := by
  by_cases h0 : i = 0
  · subst h0
    exact ⟨0, by simp [ofInt_zero, zero, toRat?], by simp⟩
  · have hn : i.natAbs ≠ 0 := by omega
    have hbl : bitLen i.natAbs ≤ 64 := by
      obtain ⟨a, _⟩ := bitLen_spec _ hn
      by_contra hc
      have : 2 ^ 64 ≤ 2 ^ (bitLen i.natAbs - 1) :=
        Nat.pow_le_pow_right (by norm_num) (by omega)
      omega
    have hp := bitLen_pos _ hn
    have ht2 : ((bitLen i.natAbs : ℤ) - 53) = ilog2Ratio i.natAbs 1 - 52 := by
      rw [ilog2Ratio_one _ hn]; omega
    obtain ⟨M, T, V, e1, _, eV, _, e3⟩ :=
      round_near (decide (i < 0)) i.natAbs 1 hn (by norm_num) _ ht2 (by omega) (by omega)
    rw [Nat.cast_one, mul_one] at e3
    refine ⟨(if decide (i < 0) = true then -1 else 1) * V, ?_, ?_⟩
    · unfold ofInt
      rw [e1, eV]
      simp only [toRat?, mul_assoc]
    · obtain ⟨k, hk | hk⟩ := Int.eq_nat_or_neg i
      · subst hk
        have hneg : ¬ ((k : ℤ) < 0) := by omega
        simp only [hneg, decide_False, Bool.false_eq_true, if_false, one_mul, Int.natAbs_ofNat,
          Int.cast_natCast] at e3 ⊢
        rw [abs_of_nonneg (by positivity : (0 : ℚ) ≤ (k : ℚ))]
        exact e3
      · subst hk
        have hneg : (-(k : ℤ) < 0) := by omega
        simp only [hneg, decide_True, if_true, Int.natAbs_neg, Int.natAbs_ofNat, Int.cast_neg,
          Int.cast_natCast, abs_neg] at e3 ⊢
        rw [abs_of_nonneg (by positivity : (0 : ℚ) ≤ (k : ℚ))]
        have : -1 * V - -(k : ℚ) = -(V - k) := by ring
        rw [this, abs_neg]
        exact e3

/-- Quotient of two non-zero finite numbers: the rounding of the exact quotient of what they
denote. -/
theorem div_finite (sa sb : Bool) (Ma Mb : ℕ) (Ta Tb : ℤ) (ha : Ma ≠ 0) (hb : Mb ≠ 0) :
    div (.finite sa Ma Ta) (.finite sb Mb Tb) =
      round (xor sa sb) (Ma * 2 ^ (Ta - Tb).toNat) (Mb * 2 ^ (Tb - Ta).toNat) ∧
    ((Ma * 2 ^ (Ta - Tb).toNat : ℕ) : ℚ) * ((Mb : ℚ) * (2 : ℚ) ^ Tb) =
      ((Ma : ℚ) * (2 : ℚ) ^ Ta) * ((Mb * 2 ^ (Tb - Ta).toNat : ℕ) : ℚ) := by
  constructor
  · simp [div, ha, hb]
  · push_cast
    have e1 : (2 : ℚ) ^ Ta = (2 : ℚ) ^ Tb * (2 : ℚ) ^ (Ta - Tb) := by
      rw [← zpow_add₀ (by norm_num : (2 : ℚ) ≠ 0)]; congr 1; ring
    have e2 : (2 : ℚ) ^ (Ta - Tb) = (2 : ℚ) ^ (Ta - Tb).toNat / (2 : ℚ) ^ (-(Ta - Tb)).toNat :=
      two_zpow_split _
    have e3 : (-(Ta - Tb)) = Tb - Ta := by ring
    rw [e3] at e2
    rw [e1, e2]
    have hA : (2 : ℚ) ^ (Tb - Ta).toNat ≠ 0 := by positivity
    field_simp
    ring

/-- Sum of two non-zero finite numbers of the same sign: the rounding of the exact sum of
what they denote. -/
theorem add_same_sign (s : Bool) (Ma Mb : ℕ) (Ta Tb : ℤ) (ha : Ma ≠ 0) (hb : Mb ≠ 0) :
    ∃ n : ℕ, n ≠ 0 ∧
      add (.finite s Ma Ta) (.finite s Mb Tb) =
        round s (n * 2 ^ (min Ta Tb).toNat) (2 ^ (-(min Ta Tb)).toNat) ∧
      ((n * 2 ^ (min Ta Tb).toNat : ℕ) : ℚ) =
        ((Ma : ℚ) * (2 : ℚ) ^ Ta + (Mb : ℚ) * (2 : ℚ) ^ Tb) *
          ((2 ^ (-(min Ta Tb)).toNat : ℕ) : ℚ) := by
  set e := min Ta Tb with he
  have hea : e ≤ Ta := min_le_left _ _
  have heb : e ≤ Tb := min_le_right _ _
  refine ⟨Ma * 2 ^ (Ta - e).toNat + Mb * 2 ^ (Tb - e).toNat, ?_, ?_, ?_⟩
  · have : 0 < Ma * 2 ^ (Ta - e).toNat := by
      have : 0 < Ma := Nat.pos_of_ne_zero ha
      positivity
    omega
  · have hpos : 0 < Ma * 2 ^ (Ta - e).toNat + Mb * 2 ^ (Tb - e).toNat := by
      have : 0 < Ma := Nat.pos_of_ne_zero ha
      positivity
    cases s
    · simp only [add, ha, hb, false_and, if_false, signed, Bool.false_eq_true, one_mul, ← he]
      have hs : ((Ma * 2 ^ (Ta - e).toNat : ℕ) : ℤ) + ((Mb * 2 ^ (Tb - e).toNat : ℕ) : ℤ)
          = ((Ma * 2 ^ (Ta - e).toNat + Mb * 2 ^ (Tb - e).toNat : ℕ) : ℤ) := by push_cast; ring
      rw [hs]
      have h0 : ¬ (((Ma * 2 ^ (Ta - e).toNat + Mb * 2 ^ (Tb - e).toNat : ℕ) : ℤ) = 0) := by
        omega
      have h1 : ¬ (((Ma * 2 ^ (Ta - e).toNat + Mb * 2 ^ (Tb - e).toNat : ℕ) : ℤ) < 0) := by
        omega
      rw [if_neg h0]
      simp only [h1, decide_False, Int.natAbs_ofNat]
    · simp only [add, ha, hb, false_and, if_false, signed, if_true, ← he]
      have hs : -1 * ((Ma * 2 ^ (Ta - e).toNat : ℕ) : ℤ) + -1 * ((Mb * 2 ^ (Tb - e).toNat : ℕ) : ℤ)
          = -((Ma * 2 ^ (Ta - e).toNat + Mb * 2 ^ (Tb - e).toNat : ℕ) : ℤ) := by push_cast; ring
      rw [hs]
      have h0 : ¬ (-((Ma * 2 ^ (Ta - e).toNat + Mb * 2 ^ (Tb - e).toNat : ℕ) : ℤ) = 0) := by
        omega
      have h1 : (-((Ma * 2 ^ (Ta - e).toNat + Mb * 2 ^ (Tb - e).toNat : ℕ) : ℤ) < 0) := by
        omega
      rw [if_neg h0]
      simp only [h1, decide_True, Int.natAbs_neg, Int.natAbs_ofNat]
  · push_cast
    have ea : (2 : ℚ) ^ Ta = (2 : ℚ) ^ (Ta - e).toNat * (2 : ℚ) ^ e := by
      rw [← zpow_natCast, Int.toNat_of_nonneg (by omega), ← zpow_add₀ (by norm_num : (2 : ℚ) ≠ 0)]
      congr 1; ring
    have eb : (2 : ℚ) ^ Tb = (2 : ℚ) ^ (Tb - e).toNat * (2 : ℚ) ^ e := by
      rw [← zpow_natCast, Int.toNat_of_nonneg (by omega), ← zpow_add₀ (by norm_num : (2 : ℚ) ≠ 0)]
      congr 1; ring
    rw [ea, eb, two_zpow_split e]
    have hA : (2 : ℚ) ^ (-e).toNat ≠ 0 := by positivity
    field_simp
    ring

/-- the two rounding errors of `Duration.Seconds` add up to at most a relative `2^-52` -/
theorem seconds_error_sum (N x Vq a b : ℚ) (hN1 : 1 ≤ N) (hx0 : 0 < x) (hx1 : x < 1)
    (t2 : Vq ≤ x + x / 2 ^ 53) (t3 : a ≤ (N + Vq) / 2 ^ 53) (t4 : b ≤ x / 2 ^ 53) :
    a + b ≤ (N + x) / 2 ^ 52 := by
  have h1 : (N + Vq) / 2 ^ 53 ≤ (N + x + x / 2 ^ 53) / 2 ^ 53 := by
    apply div_le_div_of_nonneg_right _ (by norm_num)
    linarith
  have h2 : (N + x + x / 2 ^ 53) / 2 ^ 53 + x / 2 ^ 53 ≤ (N + x) / 2 ^ 52 := by
    have e : (N + x) / 2 ^ 52 = (2 * N + 2 * x) / 2 ^ 53 := by
      have h53 : (2 : ℚ) ^ 53 = 2 * 2 ^ 52 := by norm_num
      rw [h53]
      field_simp
      ring
    rw [e, ← add_div]
    apply div_le_div_of_nonneg_right _ (by norm_num)
    have : x / 2 ^ 53 ≤ x := div_le_self (le_of_lt hx0) (by norm_num)
    linarith
  linarith

theorem ofInt_1e9 : ofInt 1000000000 = .finite false 8388608000000000 (-23) := by decide

/-- The core of `Duration.Seconds` for a duration of `N` whole seconds and `K` further
nanoseconds with the sign `s`. -/
theorem seconds_core (s : Bool) (N K : ℕ) (hK : K < 10 ^ 9) (hN : N < 2 ^ 34) :
    ∃ v : ℚ,
      (add (if N = 0 then zero else round s N 1)
        (div (if K = 0 then zero else round s K 1) (ofInt 1000000000))).toRat? =
          some ((if s then -1 else 1) * v) ∧
      |v - ((N : ℚ) + (K : ℚ) / 10 ^ 9)| * 2 ^ 52 ≤ (N : ℚ) + (K : ℚ) / 10 ^ 9 := by
  rw [ofInt_1e9]
  have hNq : (0 : ℚ) ≤ N := by positivity
  by_cases hK0 : K = 0
  · subst hK0
    have hdiv : div zero (.finite false 8388608000000000 (-23)) = .finite false 0 0 := by decide
    simp only [if_true, hdiv]
    by_cases hN0 : N = 0
    · subst hN0
      refine ⟨0, ?_, by simp⟩
      simp [zero, add, toRat?]
    · obtain ⟨M, T, e1, e2, _, _, _, e6⟩ := ofInt_nat_exact s N hN0 (by omega)
      have hM : M ≠ 0 := by omega
      refine ⟨N, ?_, by simp⟩
      rw [if_neg hN0, e1]
      simp only [add, hM, false_and, if_false, and_true, if_true, toRat?]
      rw [mul_assoc, e6]
  · obtain ⟨Mk, Tk, k1, k2, _, _, _, k6⟩ := ofInt_nat_exact s K hK0 (by omega)
    have hMk : Mk ≠ 0 := by omega
    obtain ⟨dv1, dv2⟩ := div_finite s false Mk 8388608000000000 Tk (-23) hMk (by norm_num)
    rw [Bool.xor_false] at dv1
    rw [if_neg hK0, k1, dv1]
    set n1 := Mk * 2 ^ (Tk - -23).toNat with hn1
    set d1 := 8388608000000000 * 2 ^ (-23 - Tk).toNat with hd1
    have hd1pos : 0 < d1 := by positivity
    have hn1pos : 0 < n1 := by
      have : 0 < Mk := Nat.pos_of_ne_zero hMk
      positivity
    have hd1q : (0 : ℚ) < d1 := by exact_mod_cast hd1pos
    have hKq : (1 : ℚ) ≤ K := by exact_mod_cast Nat.one_le_iff_ne_zero.mpr hK0
    have hKq2 : (K : ℚ) < 10 ^ 9 := by exact_mod_cast hK
    -- the exact quotient is K / 10^9
    have hratio : (n1 : ℚ) * 10 ^ 9 = (K : ℚ) * d1 := by
      have e9 : ((8388608000000000 : ℕ) : ℚ) * (2 : ℚ) ^ (-23 : ℤ) = 10 ^ 9 := by norm_num
      rw [e9, k6] at dv2
      exact dv2
    have hx : (n1 : ℚ) = (K : ℚ) / 10 ^ 9 * d1 := by
      field_simp
      linarith
    have hb := ilog2Ratio_bounds n1 d1 (by omega) (by omega) (-30) 0
      (by
        rw [hx]
        apply mul_le_mul_of_nonneg_right _ (le_of_lt hd1q)
        rw [le_div_iff₀ (by norm_num)]
        norm_num
        linarith)
      (by
        rw [hx]
        apply mul_lt_mul_of_pos_right _ hd1q
        rw [zpow_zero, div_lt_one (by norm_num)]
        exact hKq2)
    obtain ⟨Mq, Tq, Vq, q1, q2, q3, q4, q5⟩ := round_near s n1 d1 (by omega)
      (by omega) _ rfl (by omega) (by omega)
    have hVq : |Vq - (K : ℚ) / 10 ^ 9| * 2 ^ 53 ≤ (K : ℚ) / 10 ^ 9 := by
      have e : Vq * d1 - n1 = (Vq - (K : ℚ) / 10 ^ 9) * d1 := by rw [hx]; ring
      rw [e, abs_mul, abs_of_pos hd1q, hx] at q5
      have h3 : (|Vq - (K : ℚ) / 10 ^ 9| * 2 ^ 53) * (d1 : ℚ) ≤ ((K : ℚ) / 10 ^ 9) * (d1 : ℚ) := by
        linarith
      exact le_of_mul_le_mul_right h3 hd1q
    rw [q1]
    by_cases hN0 : N = 0
    · subst hN0
      refine ⟨Vq, ?_, ?_⟩
      · simp only [if_true, zero, add, q2, and_false, if_false, toRat?]
        rw [q3, mul_assoc]
      · simp only [Nat.cast_zero, zero_add]
        have h52 : (2 : ℚ) ^ 52 ≤ 2 ^ 53 := by norm_num
        calc |Vq - (K : ℚ) / 10 ^ 9| * 2 ^ 52 ≤ |Vq - (K : ℚ) / 10 ^ 9| * 2 ^ 53 :=
              mul_le_mul_of_nonneg_left h52 (abs_nonneg _)
          _ ≤ (K : ℚ) / 10 ^ 9 := hVq
    · obtain ⟨Ms, Ts, s1, s2, _, _, _, s6⟩ := ofInt_nat_exact s N hN0 (by omega)
      have hMs : Ms ≠ 0 := by omega
      rw [if_neg hN0, s1]
      obtain ⟨n2, hn2, a1, a2⟩ := add_same_sign s Ms Mq Ts Tq hMs q2
      rw [a1]
      rw [s6, ← q3] at a2
      set e := min Ts Tq with he
      set n3 := n2 * 2 ^ e.toNat with hn3
      set d3 := 2 ^ (-e).toNat with hd3
      have hd3pos : 0 < d3 := by positivity
      have hd3q : (0 : ℚ) < d3 := by exact_mod_cast hd3pos
      have hN1 : (1 : ℚ) ≤ N := by exact_mod_cast Nat.one_le_iff_ne_zero.mpr hN0
      have hN2 : (N : ℚ) < 2 ^ 34 := by exact_mod_cast hN
      have hxlt : (K : ℚ) / 10 ^ 9 < 1 := by rw [div_lt_one (by norm_num)]; exact hKq2
      have hxpos : (0 : ℚ) < (K : ℚ) / 10 ^ 9 := by positivity
      have hVq2 : Vq < 2 := by
        have h1 := (abs_le.mp (le_trans (le_mul_of_one_le_right (abs_nonneg _)
          (by norm_num : (1 : ℚ) ≤ 2 ^ 53)) hVq)).2
        linarith
      have hn3pos : 0 < n3 := by
        have : 0 < n2 := Nat.pos_of_ne_zero hn2
        positivity
      have hb2 := ilog2Ratio_bounds n3 d3 (by omega) (by omega) 0 35
        (by
          rw [a2, zpow_zero, one_mul]
          exact le_mul_of_one_le_left (le_of_lt hd3q) (by linarith))
        (by
          rw [a2]
          apply mul_lt_mul_of_pos_right _ hd3q
          have : (2 : ℚ) ^ (35 : ℤ) = 2 ^ 34 + 2 ^ 34 := by norm_num
          rw [this]
          have : (2 : ℚ) < 2 ^ 34 := by norm_num
          linarith)
      obtain ⟨Mw, Tw, W, w1, _, w3, _, w5⟩ := round_near s n3 d3 (by omega) (by omega) _ rfl
        (by omega) (by omega)
      have hW : |W - ((N : ℚ) + Vq)| * 2 ^ 53 ≤ (N : ℚ) + Vq := by
        have e : W * d3 - n3 = (W - ((N : ℚ) + Vq)) * d3 := by rw [a2]; ring
        rw [e, abs_mul, abs_of_pos hd3q, a2] at w5
        have h3 : (|W - ((N : ℚ) + Vq)| * 2 ^ 53) * (d3 : ℚ) ≤ ((N : ℚ) + Vq) * (d3 : ℚ) := by
          linarith
        exact le_of_mul_le_mul_right h3 hd3q
      refine ⟨W, ?_, ?_⟩
      · rw [w1]
        simp only [toRat?]
        rw [w3, mul_assoc]
      · have t1 : |W - ((N : ℚ) + (K : ℚ) / 10 ^ 9)| ≤
            |W - ((N : ℚ) + Vq)| + |Vq - (K : ℚ) / 10 ^ 9| := by
          have : W - ((N : ℚ) + (K : ℚ) / 10 ^ 9) =
              (W - ((N : ℚ) + Vq)) + (Vq - (K : ℚ) / 10 ^ 9) := by ring
          rw [this]
          exact abs_add _ _
        have t2 : Vq ≤ (K : ℚ) / 10 ^ 9 + (K : ℚ) / 10 ^ 9 / 2 ^ 53 := by
          have h1 := (abs_le.mp (le_trans (le_refl _)
            ((le_div_iff₀ (by norm_num : (0 : ℚ) < 2 ^ 53)).mpr hVq))).2
          linarith
        have t3 : |W - ((N : ℚ) + Vq)| ≤ ((N : ℚ) + Vq) / 2 ^ 53 :=
          (le_div_iff₀ (by norm_num : (0 : ℚ) < 2 ^ 53)).mpr hW
        have t4 : |Vq - (K : ℚ) / 10 ^ 9| ≤ (K : ℚ) / 10 ^ 9 / 2 ^ 53 :=
          (le_div_iff₀ (by norm_num : (0 : ℚ) < 2 ^ 53)).mpr hVq
        have t5 : |W - ((N : ℚ) + (K : ℚ) / 10 ^ 9)| ≤
            ((N : ℚ) + (K : ℚ) / 10 ^ 9) / 2 ^ 52 :=
          le_trans t1 (seconds_error_sum _ _ _ _ _ hN1 hxpos hxlt t2 t3 t4)
        exact (le_div_iff₀ (by norm_num : (0 : ℚ) < 2 ^ 52)).mp t5

end Float64

theorem round_zero (neg : Bool) (d : ℕ) : Float64.round neg 0 d = .finite neg 0 0 := by
  simp [Float64.round]

theorem ofInt_nat_if (N : ℕ) :
    Float64.ofInt (N : ℤ) = if N = 0 then Float64.zero else Float64.round false N 1 := by
  rw [Float64.ofInt_natCast]
  split_ifs with h
  · subst h; rfl
  · rfl

theorem ofInt_neg_nat_if (N : ℕ) :
    Float64.ofInt (-(N : ℤ)) = if N = 0 then Float64.zero else Float64.round true N 1 := by
  split_ifs with h
  · subst h; rfl
  · unfold Float64.ofInt
    have : (-(N : ℤ) < 0) := by omega
    simp [this]

/-- `Duration.Seconds` of a 64-bit duration is a finite number within a relative `2^-52` of
the duration in seconds. -/
theorem Seconds_near (d : ℤ) (h1 : -(2 ^ 63) ≤ d) (h2 : d < 2 ^ 63) :
    ∃ v : ℚ, (Duration.Seconds d).toRat? = some v ∧
      |v - (d : ℚ) / 10 ^ 9| * 2 ^ 52 ≤ |(d : ℚ)| / 10 ^ 9 := by
  obtain ⟨p, hp | hp⟩ := Int.eq_nat_or_neg d
  · subst hp
    have hdiv : Int.tdiv (p : ℤ) 1000000000 = ((p / 1000000000 : ℕ) : ℤ) := by
      rw [Int.tdiv_eq_ediv (by omega) (by norm_num)]; omega
    have hmod : Int.tmod (p : ℤ) 1000000000 = ((p % 1000000000 : ℕ) : ℤ) := by
      rw [Int.tmod_eq_emod (by omega) (by norm_num)]; omega
    have hK : p % 1000000000 < 10 ^ 9 := by omega
    have hN : p / 1000000000 < 2 ^ 34 := by omega
    obtain ⟨v, e1, e2⟩ := Float64.seconds_core false (p / 1000000000) (p % 1000000000) hK hN
    refine ⟨v, ?_, ?_⟩
    · unfold Duration.Seconds
      simp only [hdiv, hmod, ofInt_nat_if]
      rw [e1]
      simp
    · have hsum : ((p / 1000000000 : ℕ) : ℚ) + ((p % 1000000000 : ℕ) : ℚ) / 10 ^ 9
          = (p : ℚ) / 10 ^ 9 := by
        have := Nat.div_add_mod p 1000000000
        have hq : (p : ℚ) = 1000000000 * ((p / 1000000000 : ℕ) : ℚ)
            + ((p % 1000000000 : ℕ) : ℚ) := by exact_mod_cast this.symm
        rw [hq]
        field_simp
        ring
      rw [hsum] at e2
      rw [Int.cast_natCast, abs_of_nonneg (by positivity : (0 : ℚ) ≤ (p : ℚ))]
      exact e2
  · subst hp
    have hdiv : Int.tdiv (-(p : ℤ)) 1000000000 = -((p / 1000000000 : ℕ) : ℤ) := by
      rw [Int.neg_tdiv, Int.tdiv_eq_ediv (by omega) (by norm_num)]; omega
    have hmod : Int.tmod (-(p : ℤ)) 1000000000 = -((p % 1000000000 : ℕ) : ℤ) := by
      have a1 := Int.tdiv_add_tmod (-(p : ℤ)) 1000000000
      have a2 := Int.ediv_add_emod (p : ℤ) 1000000000
      rw [hdiv] at a1
      omega
    have hK : p % 1000000000 < 10 ^ 9 := by omega
    have hN : p / 1000000000 < 2 ^ 34 := by omega
    obtain ⟨v, e1, e2⟩ := Float64.seconds_core true (p / 1000000000) (p % 1000000000) hK hN
    refine ⟨-1 * v, ?_, ?_⟩
    · unfold Duration.Seconds
      simp only [hdiv, hmod, ofInt_neg_nat_if]
      rw [e1]
      simp
    · have hsum : ((p / 1000000000 : ℕ) : ℚ) + ((p % 1000000000 : ℕ) : ℚ) / 10 ^ 9
          = (p : ℚ) / 10 ^ 9 := by
        have := Nat.div_add_mod p 1000000000
        have hq : (p : ℚ) = 1000000000 * ((p / 1000000000 : ℕ) : ℚ)
            + ((p % 1000000000 : ℕ) : ℚ) := by exact_mod_cast this.symm
        rw [hq]
        field_simp
        ring
      rw [hsum] at e2
      have e3 : -1 * v - ((-(p : ℤ) : ℤ) : ℚ) / 10 ^ 9 = -(v - (p : ℚ) / 10 ^ 9) := by
        push_cast; ring
      rw [e3, abs_neg]
      have e4 : |((-(p : ℤ) : ℤ) : ℚ)| = (p : ℚ) := by
        push_cast
        rw [abs_neg, abs_of_nonneg (by positivity : (0 : ℚ) ≤ (p : ℚ))]
      rw [e4]
      exact e2

end Go

/-! ## Facts about the vectors -/

namespace prometheus

open Go

theorem lookup_append_single {α : Type} (K lvs : List GoString) (a : α)
    (ms : List (List GoString × α)) :
    lookup K (ms ++ [(lvs, a)]) =
      match lookup K ms with
      | some x => some x
      | none => if lvs = K then some a else none := by
  induction ms with
  | nil => simp [lookup]
  | cons p rest ih =>
    obtain ⟨k, b⟩ := p
    by_cases hk : k = K
    · simp [lookup, hk]
    · simp [lookup, hk, ih]

theorem lookup_replace {α : Type} (K lvs : List GoString) (a : α)
    (ms : List (List GoString × α)) :
    lookup K (replace lvs a ms) =
      if K = lvs then (lookup lvs ms).map (fun _ => a) else lookup K ms := by
  induction ms with
  | nil => simp [lookup, replace]
  | cons p rest ih =>
    obtain ⟨k, b⟩ := p
    by_cases hk : k = lvs
    · subst hk
      by_cases hK : K = k
      · subst hK; simp [lookup, replace]
      · have hK2 : ¬ k = K := fun h => hK h.symm
        simp [lookup, replace, hK, hK2]
    · by_cases hK : K = lvs
      · subst hK
        simp [lookup, replace, hk, ih]
      · by_cases hkK : k = K
        · simp [lookup, replace, hk, hK, hkK]
        · simp [lookup, replace, hk, hK, hkK, ih]

theorem keys_replace {α : Type} (lvs : List GoString) (a : α)
    (ms : List (List GoString × α)) :
    (replace lvs a ms).map Prod.fst = ms.map Prod.fst := by
  induction ms with
  | nil => simp [replace]
  | cons p rest ih =>
    obtain ⟨k, b⟩ := p
    by_cases hk : k = lvs
    · simp [replace, hk]
    · simp [replace, hk, ih]

theorem lookup_eq_none_iff {α : Type} (lvs : List GoString)
    (ms : List (List GoString × α)) :
    lookup lvs ms = none ↔ lvs ∉ ms.map Prod.fst := by
  induction ms with
  | nil => simp [lookup]
  | cons p rest ih =>
    obtain ⟨k, b⟩ := p
    by_cases hk : k = lvs
    · simp [lookup, hk]
    · have hk2 : ¬ lvs = k := fun h => hk h.symm
      simp [lookup, hk, hk2, ih]

/-- Effect of `WithLabelValues(lvs...)` followed by a mutation of the returned child. -/
theorem withLabelValues_store {α : Type} (new : α) (v : MetricVec α) (lvs : List GoString)
    (v1 : MetricVec α) (ch : α) (h : v.WithLabelValues new lvs = .ok (v1, ch)) :
    validateLabelValues lvs v.desc.variableLabels.length = .ok () ∧
      ch = (lookup lvs v.metrics).getD new ∧
      ∀ c1, (v1.store lvs c1).desc = v.desc ∧
        (∀ K, lookup K (v1.store lvs c1).metrics = if K = lvs then some c1 else lookup K v.metrics) ∧
        (v1.store lvs c1).metrics.map Prod.fst =
          if lvs ∈ v.metrics.map Prod.fst then v.metrics.map Prod.fst
          else v.metrics.map Prod.fst ++ [lvs] := by
  unfold MetricVec.WithLabelValues at h
  cases hv : validateLabelValues lvs v.desc.variableLabels.length with
  | error e => rw [hv] at h; cases h
  | ok u =>
    rw [hv] at h
    cases hl : lookup lvs v.metrics with
    | some child =>
      rw [hl] at h
      simp only [Except.ok.injEq, Prod.mk.injEq] at h
      obtain ⟨rfl, rfl⟩ := h
      have hmem : lvs ∈ v.metrics.map Prod.fst := by
        by_contra hc
        rw [← lookup_eq_none_iff] at hc
        rw [hc] at hl; cases hl
      refine ⟨rfl, by simp, fun c1 => ⟨rfl, fun K => ?_, ?_⟩⟩
      · simp only [MetricVec.store, lookup_replace, hl]
        split_ifs <;> simp
      · simp only [MetricVec.store, keys_replace, if_pos hmem]
    | none =>
      rw [hl] at h
      simp only [Except.ok.injEq, Prod.mk.injEq] at h
      obtain ⟨rfl, rfl⟩ := h
      have hmem : lvs ∉ v.metrics.map Prod.fst := (lookup_eq_none_iff lvs v.metrics).mp hl
      refine ⟨rfl, by simp, fun c1 => ⟨rfl, fun K => ?_, ?_⟩⟩
      · simp only [MetricVec.store, lookup_replace, lookup_append_single, hl]
        by_cases hK : K = lvs
        · subst hK; simp [hl]
        · have hK2 : ¬ lvs = K := fun h => hK h.symm
          simp only [if_neg hK, hK2, if_false]
          cases lookup K v.metrics <;> rfl
      · simp only [MetricVec.store, keys_replace, if_neg hmem]
        simp

/-- `WithLabelValues` succeeds exactly when the label values pass validation. -/
theorem withLabelValues_ok {α : Type} (new : α) (v : MetricVec α) (lvs : List GoString)
    (h : validateLabelValues lvs v.desc.variableLabels.length = .ok ()) :
    ∃ v1 ch, v.WithLabelValues new lvs = .ok (v1, ch) := by
  unfold MetricVec.WithLabelValues
  rw [h]
  cases lookup lvs v.metrics with
  | some child => exact ⟨_, _, rfl⟩
  | none => exact ⟨_, _, rfl⟩

theorem withLabelValues_error {α : Type} (new : α) (v : MetricVec α) (lvs : List GoString)
    (e : PanicValue) (h : v.WithLabelValues new lvs = .error e) :
    validateLabelValues lvs v.desc.variableLabels.length = .error e := by
  unfold MetricVec.WithLabelValues at h
  cases hv : validateLabelValues lvs v.desc.variableLabels.length with
  | error e2 => rw [hv] at h; simpa using h
  | ok u =>
    rw [hv] at h
    cases hl : lookup lvs v.metrics <;> rw [hl] at h <;> cases h

end prometheus

/-! ## One call -/

namespace processor

open Go prometheus

theorem value_eq_counter (m : PrometheusMetrics) (i : Instrument) (L : List GoString)
    (hi : i.isCounter = true) : m.value i L = (m.counter i L).map Counter.get := by
  cases i <;> first | rfl | cases hi

theorem stepSpec_AddPacketsObserved (m m1 : PrometheusMetrics) (path chain channel port eventType : GoString) (count : ℤ)
    (h : m.AddPacketsObserved path chain channel port eventType count = .ok m1) :
    StepSpec m m1 (.AddPacketsObserved path chain channel port eventType count) := by
  unfold StepSpec
  simp only [PrometheusMetrics.AddPacketsObserved] at h
  cases hw : m.PacketObservedCounter.WithLabelValues newCounter [path, chain, channel, port, eventType] with
  | error e => rw [hw] at h; cases h
  | ok r =>
    obtain ⟨v1, ch⟩ := r
    rw [hw] at h
    simp only [] at h
    obtain ⟨hval, hch, hst⟩ := withLabelValues_store _ _ _ _ _ hw
    cases ha : ch.Add (Float64.ofInt count) with
    | error e => rw [ha] at h; cases h
    | ok ch1 =>
      rw [ha] at h
      simp only [Except.ok.injEq] at h
      subst h
      obtain ⟨hd, hlk, hks⟩ := hst _
      refine ⟨rfl, ?_, hval, ?_, ?_, ?_, ?_⟩
      · intro i; cases i <;> first | rfl | exact hd
      · intro i
        cases i <;> simp [PrometheusMetrics.seriesKeys, Call.instrument, Call.labels]
        rw [hks]
        split_ifs <;> simp_all
      · intro i L hne
        cases i <;> simp [PrometheusMetrics.value, PrometheusMetrics.counter]
        all_goals (
          have hL : ¬ L = [path, chain, channel, port, eventType] := by
            intro hh; exact hne ⟨rfl, hh⟩
          rw [hlk L, if_neg hL]
          try simp)
      · intro hi; cases hi
      · intro _
        refine ⟨ch1, ?_, ?_⟩
        · simp [PrometheusMetrics.counter, Call.instrument, Call.labels, hlk]
        · simp only [Call.counterOp, PrometheusMetrics.counter, Call.instrument, Call.labels]
          rw [← hch]; exact ha

theorem stepSpec_IncPacketsRelayed (m m1 : PrometheusMetrics) (path chain channel port eventType : GoString)
    (h : m.IncPacketsRelayed path chain channel port eventType = .ok m1) :
    StepSpec m m1 (.IncPacketsRelayed path chain channel port eventType) := by
  unfold StepSpec
  simp only [PrometheusMetrics.IncPacketsRelayed] at h
  cases hw : m.PacketRelayedCounter.WithLabelValues newCounter [path, chain, channel, port, eventType] with
  | error e => rw [hw] at h; cases h
  | ok r =>
    obtain ⟨v1, ch⟩ := r
    rw [hw] at h
    simp only [] at h
    obtain ⟨hval, hch, hst⟩ := withLabelValues_store _ _ _ _ _ hw
    simp only [Except.ok.injEq] at h
    subst h
    obtain ⟨hd, hlk, hks⟩ := hst _
    refine ⟨rfl, ?_, hval, ?_, ?_, ?_, ?_⟩
    · intro i; cases i <;> first | rfl | exact hd
    · intro i
      cases i <;> simp [PrometheusMetrics.seriesKeys, Call.instrument, Call.labels]
      rw [hks]
      split_ifs <;> simp_all
    · intro i L hne
      cases i <;> simp [PrometheusMetrics.value, PrometheusMetrics.counter]
      all_goals (
        have hL : ¬ L = [path, chain, channel, port, eventType] := by
          intro hh; exact hne ⟨rfl, hh⟩
        rw [hlk L, if_neg hL]
        try simp)
    · intro hi; cases hi
    · intro _
      refine ⟨ch.Inc, ?_, ?_⟩
      · simp [PrometheusMetrics.counter, Call.instrument, Call.labels, hlk]
      · simp only [Call.counterOp, PrometheusMetrics.counter, Call.instrument, Call.labels]
        rw [← hch]

theorem stepSpec_SetLatestHeight (m m1 : PrometheusMetrics) (chain : GoString) (height : ℤ)
    (h : m.SetLatestHeight chain height = .ok m1) :
    StepSpec m m1 (.SetLatestHeight chain height) := by
  unfold StepSpec
  simp only [PrometheusMetrics.SetLatestHeight] at h
  cases hw : m.LatestHeightGauge.WithLabelValues newGauge [chain] with
  | error e => rw [hw] at h; cases h
  | ok r =>
    obtain ⟨v1, ch⟩ := r
    rw [hw] at h
    simp only [] at h
    obtain ⟨hval, hch, hst⟩ := withLabelValues_store _ _ _ _ _ hw
    simp only [Except.ok.injEq] at h
    subst h
    obtain ⟨hd, hlk, hks⟩ := hst _
    refine ⟨rfl, ?_, hval, ?_, ?_, ?_, ?_⟩
    · intro i; cases i <;> first | rfl | exact hd
    · intro i
      cases i <;> simp [PrometheusMetrics.seriesKeys, Call.instrument, Call.labels]
      rw [hks]
      split_ifs <;> simp_all
    · intro i L hne
      cases i <;> simp [PrometheusMetrics.value, PrometheusMetrics.counter]
      all_goals (
        have hL : ¬ L = [chain] := by
          intro hh; exact hne ⟨rfl, hh⟩
        rw [hlk L, if_neg hL]
        try simp)
    · intro _
      simp only [PrometheusMetrics.value, Call.instrument, Call.labels, Call.setValue]
      rw [hlk]
      simp [Gauge.Set]
    · intro hi; cases hi

theorem stepSpec_SetWalletBalance (m m1 : PrometheusMetrics) (chain gasPrice key address denom : GoString) (balance : Float64)
    (h : m.SetWalletBalance chain gasPrice key address denom balance = .ok m1) :
    StepSpec m m1 (.SetWalletBalance chain gasPrice key address denom balance) := by
  unfold StepSpec
  simp only [PrometheusMetrics.SetWalletBalance] at h
  cases hw : m.WalletBalance.WithLabelValues newGauge [chain, gasPrice, key, address, denom] with
  | error e => rw [hw] at h; cases h
  | ok r =>
    obtain ⟨v1, ch⟩ := r
    rw [hw] at h
    simp only [] at h
    obtain ⟨hval, hch, hst⟩ := withLabelValues_store _ _ _ _ _ hw
    simp only [Except.ok.injEq] at h
    subst h
    obtain ⟨hd, hlk, hks⟩ := hst _
    refine ⟨rfl, ?_, hval, ?_, ?_, ?_, ?_⟩
    · intro i; cases i <;> first | rfl | exact hd
    · intro i
      cases i <;> simp [PrometheusMetrics.seriesKeys, Call.instrument, Call.labels]
      rw [hks]
      split_ifs <;> simp_all
    · intro i L hne
      cases i <;> simp [PrometheusMetrics.value, PrometheusMetrics.counter]
      all_goals (
        have hL : ¬ L = [chain, gasPrice, key, address, denom] := by
          intro hh; exact hne ⟨rfl, hh⟩
        rw [hlk L, if_neg hL]
        try simp)
    · intro _
      simp only [PrometheusMetrics.value, Call.instrument, Call.labels, Call.setValue]
      rw [hlk]
      simp [Gauge.Set]
    · intro hi; cases hi

theorem stepSpec_SetFeesSpent (m m1 : PrometheusMetrics) (chain gasPrice key address denom : GoString) (amount : Float64)
    (h : m.SetFeesSpent chain gasPrice key address denom amount = .ok m1) :
    StepSpec m m1 (.SetFeesSpent chain gasPrice key address denom amount) := by
  unfold StepSpec
  simp only [PrometheusMetrics.SetFeesSpent] at h
  cases hw : m.FeesSpent.WithLabelValues newGauge [chain, gasPrice, key, address, denom] with
  | error e => rw [hw] at h; cases h
  | ok r =>
    obtain ⟨v1, ch⟩ := r
    rw [hw] at h
    simp only [] at h
    obtain ⟨hval, hch, hst⟩ := withLabelValues_store _ _ _ _ _ hw
    simp only [Except.ok.injEq] at h
    subst h
    obtain ⟨hd, hlk, hks⟩ := hst _
    refine ⟨rfl, ?_, hval, ?_, ?_, ?_, ?_⟩
    · intro i; cases i <;> first | rfl | exact hd
    · intro i
      cases i <;> simp [PrometheusMetrics.seriesKeys, Call.instrument, Call.labels]
      rw [hks]
      split_ifs <;> simp_all
    · intro i L hne
      cases i <;> simp [PrometheusMetrics.value, PrometheusMetrics.counter]
      all_goals (
        have hL : ¬ L = [chain, gasPrice, key, address, denom] := by
          intro hh; exact hne ⟨rfl, hh⟩
        rw [hlk L, if_neg hL]
        try simp)
    · intro _
      simp only [PrometheusMetrics.value, Call.instrument, Call.labels, Call.setValue]
      rw [hlk]
      simp [Gauge.Set]
    · intro hi; cases hi

theorem stepSpec_SetClientExpiration (m m1 : PrometheusMetrics) (pathName chain clientID trustingPeriod : GoString) (timeToExpiration : ℤ)
    (h : m.SetClientExpiration pathName chain clientID trustingPeriod timeToExpiration = .ok m1) :
    StepSpec m m1 (.SetClientExpiration pathName chain clientID trustingPeriod timeToExpiration) := by
  unfold StepSpec
  simp only [PrometheusMetrics.SetClientExpiration] at h
  cases hw : m.ClientExpiration.WithLabelValues newGauge [pathName, chain, clientID, trustingPeriod] with
  | error e => rw [hw] at h; cases h
  | ok r =>
    obtain ⟨v1, ch⟩ := r
    rw [hw] at h
    simp only [] at h
    obtain ⟨hval, hch, hst⟩ := withLabelValues_store _ _ _ _ _ hw
    simp only [Except.ok.injEq] at h
    subst h
    obtain ⟨hd, hlk, hks⟩ := hst _
    refine ⟨rfl, ?_, hval, ?_, ?_, ?_, ?_⟩
    · intro i; cases i <;> first | rfl | exact hd
    · intro i
      cases i <;> simp [PrometheusMetrics.seriesKeys, Call.instrument, Call.labels]
      rw [hks]
      split_ifs <;> simp_all
    · intro i L hne
      cases i <;> simp [PrometheusMetrics.value, PrometheusMetrics.counter]
      all_goals (
        have hL : ¬ L = [pathName, chain, clientID, trustingPeriod] := by
          intro hh; exact hne ⟨rfl, hh⟩
        rw [hlk L, if_neg hL]
        try simp)
    · intro _
      simp only [PrometheusMetrics.value, Call.instrument, Call.labels, Call.setValue]
      rw [hlk]
      simp [Gauge.Set]
    · intro hi; cases hi

theorem stepSpec_IncBlockQueryFailure (m m1 : PrometheusMetrics) (chain err : GoString)
    (h : m.IncBlockQueryFailure chain err = .ok m1) :
    StepSpec m m1 (.IncBlockQueryFailure chain err) := by
  unfold StepSpec
  simp only [PrometheusMetrics.IncBlockQueryFailure] at h
  cases hw : m.BlockQueryFailure.WithLabelValues newCounter [chain, err] with
  | error e => rw [hw] at h; cases h
  | ok r =>
    obtain ⟨v1, ch⟩ := r
    rw [hw] at h
    simp only [] at h
    obtain ⟨hval, hch, hst⟩ := withLabelValues_store _ _ _ _ _ hw
    simp only [Except.ok.injEq] at h
    subst h
    obtain ⟨hd, hlk, hks⟩ := hst _
    refine ⟨rfl, ?_, hval, ?_, ?_, ?_, ?_⟩
    · intro i; cases i <;> first | rfl | exact hd
    · intro i
      cases i <;> simp [PrometheusMetrics.seriesKeys, Call.instrument, Call.labels]
      rw [hks]
      split_ifs <;> simp_all
    · intro i L hne
      cases i <;> simp [PrometheusMetrics.value, PrometheusMetrics.counter]
      all_goals (
        have hL : ¬ L = [chain, err] := by
          intro hh; exact hne ⟨rfl, hh⟩
        rw [hlk L, if_neg hL]
        try simp)
    · intro hi; cases hi
    · intro _
      refine ⟨ch.Inc, ?_, ?_⟩
      · simp [PrometheusMetrics.counter, Call.instrument, Call.labels, hlk]
      · simp only [Call.counterOp, PrometheusMetrics.counter, Call.instrument, Call.labels]
        rw [← hch]

/-- Effect of one successful call on the registry, the descriptors and the series. -/
theorem apply_spec (m m1 : PrometheusMetrics) (c : Call) (h : c.apply m = .ok m1) :
    StepSpec m m1 c := by
  cases c with
  | AddPacketsObserved path chain channel port eventType count => exact stepSpec_AddPacketsObserved m m1 path chain channel port eventType count h
  | IncPacketsRelayed path chain channel port eventType => exact stepSpec_IncPacketsRelayed m m1 path chain channel port eventType h
  | SetLatestHeight chain height => exact stepSpec_SetLatestHeight m m1 chain height h
  | SetWalletBalance chain gasPrice key address denom balance => exact stepSpec_SetWalletBalance m m1 chain gasPrice key address denom balance h
  | SetFeesSpent chain gasPrice key address denom amount => exact stepSpec_SetFeesSpent m m1 chain gasPrice key address denom amount h
  | SetClientExpiration pathName chain clientID trustingPeriod timeToExpiration => exact stepSpec_SetClientExpiration m m1 pathName chain clientID trustingPeriod timeToExpiration h
  | IncBlockQueryFailure chain err => exact stepSpec_IncBlockQueryFailure m m1 chain err h

end processor

/-! ## Calls and runs -/

namespace processor

open Go prometheus

theorem new_eq : NewPrometheusMetrics = .ok freshMetrics := by rfl

theorem fresh_desc (i : Instrument) :
    (freshMetrics.desc i).variableLabels = i.catalogLabels ∧
    (freshMetrics.desc i).fqName = i.catalogName ∧ (freshMetrics.desc i).err = none := by
  cases i <;> decide

theorem validate_ok (lvs : List GoString) (n : Nat) (h1 : lvs.length = n)
    (h2 : lvs.all utf8ValidString = true) : validateLabelValues lvs n = .ok () := by
  unfold validateLabelValues
  rw [if_neg (by simpa using h1)]
  simp [h2]

theorem validate_ok_iff (lvs : List GoString) (n : Nat) :
    validateLabelValues lvs n = .ok () ↔ lvs.length = n ∧ lvs.all utf8ValidString = true := by
  constructor
  · intro h
    unfold validateLabelValues at h
    by_cases h1 : lvs.length = n
    · rw [if_neg (by simpa using h1)] at h
      by_cases h2 : lvs.all utf8ValidString = true
      · exact ⟨h1, h2⟩
      · simp [h2] at h
    · rw [if_pos h1] at h; cases h
  · rintro ⟨h1, h2⟩; exact validate_ok lvs n h1 h2

theorem validate_error_cardinality (lvs : List GoString) (n a b : Nat)
    (h : validateLabelValues lvs n = .error (.inconsistentCardinality a b)) : lvs.length ≠ n := by
  unfold validateLabelValues at h
  intro h1
  rw [if_neg (by simpa using h1)] at h
  split_ifs at h
  cases h

theorem counter_add_ok (ch : Counter) (count : ℤ) (h : 0 ≤ count) :
    ∃ c1, ch.Add (Float64.ofInt count) = .ok c1 := by
  unfold Counter.Add
  rw [Float64.ofInt_not_lt_zero count h]
  simp only [Bool.false_eq_true, if_false]
  split_ifs
  · exact ⟨_, rfl⟩
  · exact ⟨_, rfl⟩

theorem counter_add_error (ch : Counter) (v : Float64) (e : PanicValue)
    (h : ch.Add v = .error e) : e = .counterCannotDecrease := by
  unfold Counter.Add at h
  by_cases h1 : v.lt Float64.zero = true
  · rw [if_pos h1] at h
    simp only [Except.error.injEq] at h
    exact h.symm
  · rw [if_neg h1] at h
    simp only [] at h
    split_ifs at h

theorem labels_length (c : Call) : c.labels.length = c.instrument.catalogLabels.length := by
  cases c <;> rfl

/-- A call with admissible arguments completes on a struct that has the declared schemas. -/
theorem apply_ok (m : PrometheusMetrics) (c : Call)
    (hd : ∀ i, (m.desc i).variableLabels.length = i.catalogLabels.length)
    (hadm : c.admissible = true) : ∃ m1, c.apply m = .ok m1 := by
  have hval : validateLabelValues c.labels (m.desc c.instrument).variableLabels.length
      = .ok () := by
    apply validate_ok
    · rw [hd, labels_length]
    · unfold Call.admissible at hadm
      simp only [Bool.and_eq_true] at hadm
      exact hadm.1
  cases c with
  | AddPacketsObserved path chain channel port eventType count =>
    obtain ⟨v1, ch, hw⟩ := withLabelValues_ok newCounter m.PacketObservedCounter _ hval
    have hc : 0 ≤ count := by
      simp [Call.admissible] at hadm
      exact hadm.2.1
    obtain ⟨c1, hc1⟩ := counter_add_ok ch count hc
    simp only [Call.labels] at hw
    simp only [Call.apply, PrometheusMetrics.AddPacketsObserved, hw, hc1]
    exact ⟨_, rfl⟩
  | IncPacketsRelayed path chain channel port eventType =>
    obtain ⟨v1, ch, hw⟩ := withLabelValues_ok newCounter m.PacketRelayedCounter _ hval
    simp only [Call.labels] at hw
    simp only [Call.apply, PrometheusMetrics.IncPacketsRelayed, hw]
    exact ⟨_, rfl⟩
  | SetLatestHeight chain height =>
    obtain ⟨v1, ch, hw⟩ := withLabelValues_ok newGauge m.LatestHeightGauge _ hval
    simp only [Call.labels] at hw
    simp only [Call.apply, PrometheusMetrics.SetLatestHeight, hw]
    exact ⟨_, rfl⟩
  | SetWalletBalance chain gasPrice key address denom balance =>
    obtain ⟨v1, ch, hw⟩ := withLabelValues_ok newGauge m.WalletBalance _ hval
    simp only [Call.labels] at hw
    simp only [Call.apply, PrometheusMetrics.SetWalletBalance, hw]
    exact ⟨_, rfl⟩
  | SetFeesSpent chain gasPrice key address denom amount =>
    obtain ⟨v1, ch, hw⟩ := withLabelValues_ok newGauge m.FeesSpent _ hval
    simp only [Call.labels] at hw
    simp only [Call.apply, PrometheusMetrics.SetFeesSpent, hw]
    exact ⟨_, rfl⟩
  | SetClientExpiration pathName chain clientID trustingPeriod timeToExpiration =>
    obtain ⟨v1, ch, hw⟩ := withLabelValues_ok newGauge m.ClientExpiration _ hval
    simp only [Call.labels] at hw
    simp only [Call.apply, PrometheusMetrics.SetClientExpiration, hw]
    exact ⟨_, rfl⟩
  | IncBlockQueryFailure chain err =>
    obtain ⟨v1, ch, hw⟩ := withLabelValues_ok newCounter m.BlockQueryFailure _ hval
    simp only [Call.labels] at hw
    simp only [Call.apply, PrometheusMetrics.IncBlockQueryFailure, hw]
    exact ⟨_, rfl⟩

/-- A call can only panic in the validation of its label values or in `counter.Add`. -/
theorem apply_error (m : PrometheusMetrics) (c : Call) (e : PanicValue)
    (h : c.apply m = .error e) :
    e = .counterCannotDecrease ∨
      validateLabelValues c.labels (m.desc c.instrument).variableLabels.length = .error e := by
  cases c with
  | AddPacketsObserved path chain channel port eventType count =>
    simp only [Call.apply, PrometheusMetrics.AddPacketsObserved] at h
    cases hw : m.PacketObservedCounter.WithLabelValues newCounter
        [path, chain, channel, port, eventType] with
    | error e2 =>
      rw [hw] at h
      simp only [Except.error.injEq] at h
      subst h
      exact Or.inr (withLabelValues_error _ _ _ _ hw)
    | ok r =>
      obtain ⟨v1, ch⟩ := r
      rw [hw] at h
      simp only [] at h
      cases ha : ch.Add (Float64.ofInt count) with
      | error e2 =>
        rw [ha] at h
        simp only [Except.error.injEq] at h
        subst h
        exact Or.inl (counter_add_error _ _ _ ha)
      | ok c1 => rw [ha] at h; cases h
  | IncPacketsRelayed path chain channel port eventType =>
    simp only [Call.apply, PrometheusMetrics.IncPacketsRelayed] at h
    cases hw : m.PacketRelayedCounter.WithLabelValues newCounter
        [path, chain, channel, port, eventType] with
    | error e2 =>
      rw [hw] at h
      simp only [Except.error.injEq] at h
      subst h
      exact Or.inr (withLabelValues_error _ _ _ _ hw)
    | ok r => rw [hw] at h; cases h
  | SetLatestHeight chain height =>
    simp only [Call.apply, PrometheusMetrics.SetLatestHeight] at h
    cases hw : m.LatestHeightGauge.WithLabelValues newGauge [chain] with
    | error e2 =>
      rw [hw] at h
      simp only [Except.error.injEq] at h
      subst h
      exact Or.inr (withLabelValues_error _ _ _ _ hw)
    | ok r => rw [hw] at h; cases h
  | SetWalletBalance chain gasPrice key address denom balance =>
    simp only [Call.apply, PrometheusMetrics.SetWalletBalance] at h
    cases hw : m.WalletBalance.WithLabelValues newGauge
        [chain, gasPrice, key, address, denom] with
    | error e2 =>
      rw [hw] at h
      simp only [Except.error.injEq] at h
      subst h
      exact Or.inr (withLabelValues_error _ _ _ _ hw)
    | ok r => rw [hw] at h; cases h
  | SetFeesSpent chain gasPrice key address denom amount =>
    simp only [Call.apply, PrometheusMetrics.SetFeesSpent] at h
    cases hw : m.FeesSpent.WithLabelValues newGauge
        [chain, gasPrice, key, address, denom] with
    | error e2 =>
      rw [hw] at h
      simp only [Except.error.injEq] at h
      subst h
      exact Or.inr (withLabelValues_error _ _ _ _ hw)
    | ok r => rw [hw] at h; cases h
  | SetClientExpiration pathName chain clientID trustingPeriod timeToExpiration =>
    simp only [Call.apply, PrometheusMetrics.SetClientExpiration] at h
    cases hw : m.ClientExpiration.WithLabelValues newGauge
        [pathName, chain, clientID, trustingPeriod] with
    | error e2 =>
      rw [hw] at h
      simp only [Except.error.injEq] at h
      subst h
      exact Or.inr (withLabelValues_error _ _ _ _ hw)
    | ok r => rw [hw] at h; cases h
  | IncBlockQueryFailure chain err =>
    simp only [Call.apply, PrometheusMetrics.IncBlockQueryFailure] at h
    cases hw : m.BlockQueryFailure.WithLabelValues newCounter [chain, err] with
    | error e2 =>
      rw [hw] at h
      simp only [Except.error.injEq] at h
      subst h
      exact Or.inr (withLabelValues_error _ _ _ _ hw)
    | ok r => rw [hw] at h; cases h

/-- A run leaves the registry and the descriptors as they were. -/
theorem run_desc (cs : List Call) : ∀ (m m1 : PrometheusMetrics), run m cs = .ok m1 →
    m1.Registry = m.Registry ∧ ∀ i, m1.desc i = m.desc i := by
  induction cs with
  | nil =>
    intro m m1 h
    simp only [run, Except.ok.injEq] at h
    subst h
    exact ⟨rfl, fun _ => rfl⟩
  | cons c cs ih =>
    intro m m1 h
    simp only [run] at h
    cases hc : c.apply m with
    | error e => rw [hc] at h; cases h
    | ok m2 =>
      rw [hc] at h
      simp only [] at h
      obtain ⟨r1, d1⟩ := ih m2 m1 h
      obtain ⟨r2, d2, _⟩ := apply_spec m m2 c hc
      exact ⟨r1.trans r2, fun i => (d1 i).trans (d2 i)⟩

/-- A sequence of admissible calls runs to completion. -/
theorem run_ok (cs : List Call) : ∀ (m : PrometheusMetrics),
    (∀ i, (m.desc i).variableLabels.length = i.catalogLabels.length) →
    (∀ c ∈ cs, c.admissible = true) → ∃ m1, run m cs = .ok m1 := by
  induction cs with
  | nil => intro m _ _; exact ⟨m, rfl⟩
  | cons c cs ih =>
    intro m hd hadm
    obtain ⟨m2, h2⟩ := apply_ok m c hd (hadm c (List.mem_cons_self c cs))
    obtain ⟨_, d2, _⟩ := apply_spec m m2 c h2
    obtain ⟨m1, h1⟩ := ih m2 (fun i => by rw [d2 i]; exact hd i)
      (fun x hx => hadm x (List.mem_cons_of_mem c hx))
    exact ⟨m1, by simp only [run, h2, h1]⟩

theorem fresh_lengths (i : Instrument) :
    (freshMetrics.desc i).variableLabels.length = i.catalogLabels.length := by
  rw [(fresh_desc i).1]

theorem withLabelValues_of_validate_error {α : Type} (new : α) (v : MetricVec α)
    (lvs : List GoString) (e : PanicValue)
    (h : validateLabelValues lvs v.desc.variableLabels.length = .error e) :
    v.WithLabelValues new lvs = .error e := by
  unfold MetricVec.WithLabelValues
  rw [h]

/-- A call whose label values fail validation panics with the validation error. -/
theorem apply_of_validate_error (m : PrometheusMetrics) (c : Call) (e : PanicValue)
    (h : validateLabelValues c.labels (m.desc c.instrument).variableLabels.length = .error e) :
    c.apply m = .error e := by
  cases c with
  | AddPacketsObserved path chain channel port eventType count =>
    have hw := withLabelValues_of_validate_error newCounter m.PacketObservedCounter _ e h
    simp only [Call.labels] at hw
    simp only [Call.apply, PrometheusMetrics.AddPacketsObserved, hw]
  | IncPacketsRelayed path chain channel port eventType =>
    have hw := withLabelValues_of_validate_error newCounter m.PacketRelayedCounter _ e h
    simp only [Call.labels] at hw
    simp only [Call.apply, PrometheusMetrics.IncPacketsRelayed, hw]
  | SetLatestHeight chain height =>
    have hw := withLabelValues_of_validate_error newGauge m.LatestHeightGauge _ e h
    simp only [Call.labels] at hw
    simp only [Call.apply, PrometheusMetrics.SetLatestHeight, hw]
  | SetWalletBalance chain gasPrice key address denom balance =>
    have hw := withLabelValues_of_validate_error newGauge m.WalletBalance _ e h
    simp only [Call.labels] at hw
    simp only [Call.apply, PrometheusMetrics.SetWalletBalance, hw]
  | SetFeesSpent chain gasPrice key address denom amount =>
    have hw := withLabelValues_of_validate_error newGauge m.FeesSpent _ e h
    simp only [Call.labels] at hw
    simp only [Call.apply, PrometheusMetrics.SetFeesSpent, hw]
  | SetClientExpiration pathName chain clientID trustingPeriod timeToExpiration =>
    have hw := withLabelValues_of_validate_error newGauge m.ClientExpiration _ e h
    simp only [Call.labels] at hw
    simp only [Call.apply, PrometheusMetrics.SetClientExpiration, hw]
  | IncBlockQueryFailure chain err =>
    have hw := withLabelValues_of_validate_error newCounter m.BlockQueryFailure _ e h
    simp only [Call.labels] at hw
    simp only [Call.apply, PrometheusMetrics.IncBlockQueryFailure, hw]

theorem validate_invalid (lvs : List GoString) (n : Nat) (h1 : lvs.length = n)
    (h2 : lvs.all utf8ValidString = false) :
    validateLabelValues lvs n = .error .invalidLabelValue := by
  unfold validateLabelValues
  rw [if_neg (by simpa using h1)]
  simp [h2]

/-- `AddPacketsObserved` with a negative `int` count and valid label values panics in
`counter.Add`. -/
theorem addPacketsObserved_negative (m : PrometheusMetrics)
    (hd : ∀ i, (m.desc i).variableLabels.length = i.catalogLabels.length)
    (path chain channel port eventType : GoString) (count : ℤ)
    (hl : [path, chain, channel, port, eventType].all utf8ValidString = true)
    (h1 : -(2 ^ 63) ≤ count) (h2 : count < 0) :
    m.AddPacketsObserved path chain channel port eventType count
      = .error .counterCannotDecrease := by
  have hlen := hd .observedPackets
  simp only [PrometheusMetrics.desc] at hlen
  have hval : validateLabelValues [path, chain, channel, port, eventType]
      m.PacketObservedCounter.desc.variableLabels.length = .ok () :=
    validate_ok _ _ (by rw [hlen]; rfl) hl
  obtain ⟨v1, ch, hw⟩ := withLabelValues_ok newCounter m.PacketObservedCounter _ hval
  have hlt := Float64.ofInt_lt_zero count h2 (by omega)
  simp only [PrometheusMetrics.AddPacketsObserved, hw, Counter.Add, hlt, if_true]

end processor

/-! ## Scrapes -/

namespace prometheus

open Go

theorem mem_insertByName (f g : MetricFamily) (fs : List MetricFamily) :
    g ∈ insertByName f fs ↔ g = f ∨ g ∈ fs := by
  induction fs with
  | nil => simp [insertByName]
  | cons h rest ih =>
    simp only [insertByName]
    split_ifs
    · simp
    · simp only [List.mem_cons, ih]
      tauto

theorem mem_foldr_insertByName (g : MetricFamily) (fs : List MetricFamily) :
    g ∈ fs.foldr insertByName [] ↔ g ∈ fs := by
  induction fs with
  | nil => simp
  | cons h rest ih => simp only [List.foldr_cons, mem_insertByName, ih, List.mem_cons]

/-- The families of a normalised scrape are those that have a metric. -/
theorem mem_normalize (g : MetricFamily) (fs : List MetricFamily) :
    g ∈ NormalizeMetricFamilies fs ↔ g ∈ fs ∧ g.metric ≠ [] := by
  unfold NormalizeMetricFamilies
  rw [mem_foldr_insertByName, List.mem_filter]
  simp [List.isEmpty_iff]

end prometheus

namespace processor

open Go prometheus

theorem gather_eq (m : PrometheusMetrics) (hR : m.Registry = freshMetrics.Registry)
    (hd : ∀ i, m.desc i = freshMetrics.desc i) :
    m.Gather = NormalizeMetricFamilies m.families := by
  have h1 := hd .observedPackets
  have h2 := hd .relayedPackets
  have h3 := hd .latestHeight
  have h4 := hd .walletBalance
  have h5 := hd .feesSpent
  have h6 := hd .blockQueryFailure
  have h7 := hd .clientExpiration
  simp only [PrometheusMetrics.desc] at h1 h2 h3 h4 h5 h6 h7
  unfold PrometheusMetrics.Gather PrometheusMetrics.families
  congr 1
  rw [hR]
  simp only [CounterVec.family, GaugeVec.family, h1, h2, h3, h4, h5, h6, h7]
  rfl

/-- The names in a scrape are those of the instruments that have a series. -/
theorem snapshot_names (m : PrometheusMetrics) (hR : m.Registry = freshMetrics.Registry)
    (hd : ∀ i, m.desc i = freshMetrics.desc i) (name : String) :
    name ∈ m.Gather.map (fun f => f.name) ↔
      ∃ i : Instrument, i.catalogName = name ∧ m.seriesKeys i ≠ [] := by
  have hn : ∀ i, (m.desc i).fqName = i.catalogName := fun i => by
    rw [hd i]; exact (fresh_desc i).2.1
  have h1 := hn .observedPackets
  have h2 := hn .relayedPackets
  have h3 := hn .latestHeight
  have h4 := hn .walletBalance
  have h5 := hn .feesSpent
  have h6 := hn .blockQueryFailure
  have h7 := hn .clientExpiration
  simp only [PrometheusMetrics.desc] at h1 h2 h3 h4 h5 h6 h7
  rw [gather_eq m hR hd, List.mem_map]
  constructor
  · rintro ⟨g, hg, rfl⟩
    rw [mem_normalize] at hg
    obtain ⟨hmem, hne⟩ := hg
    simp only [PrometheusMetrics.families, List.mem_cons, List.mem_singleton,
      List.not_mem_nil, or_false] at hmem
    rcases hmem with h | h | h | h | h | h | h
    · subst h
      exact ⟨.observedPackets, h1.symm, by
        simpa [CounterVec.family, PrometheusMetrics.seriesKeys] using hne⟩
    · subst h
      exact ⟨.relayedPackets, h2.symm, by
        simpa [CounterVec.family, PrometheusMetrics.seriesKeys] using hne⟩
    · subst h
      exact ⟨.latestHeight, h3.symm, by
        simpa [GaugeVec.family, PrometheusMetrics.seriesKeys] using hne⟩
    · subst h
      exact ⟨.walletBalance, h4.symm, by
        simpa [GaugeVec.family, PrometheusMetrics.seriesKeys] using hne⟩
    · subst h
      exact ⟨.feesSpent, h5.symm, by
        simpa [GaugeVec.family, PrometheusMetrics.seriesKeys] using hne⟩
    · subst h
      exact ⟨.blockQueryFailure, h6.symm, by
        simpa [CounterVec.family, PrometheusMetrics.seriesKeys] using hne⟩
    · subst h
      exact ⟨.clientExpiration, h7.symm, by
        simpa [GaugeVec.family, PrometheusMetrics.seriesKeys] using hne⟩
  · rintro ⟨i, rfl, hne⟩
    cases i
    · refine ⟨CounterVec.family m.PacketObservedCounter, ?_, h1⟩
      rw [mem_normalize]
      exact ⟨by simp [PrometheusMetrics.families], by
        simpa [CounterVec.family, PrometheusMetrics.seriesKeys] using hne⟩
    · refine ⟨CounterVec.family m.PacketRelayedCounter, ?_, h2⟩
      rw [mem_normalize]
      exact ⟨by simp [PrometheusMetrics.families], by
        simpa [CounterVec.family, PrometheusMetrics.seriesKeys] using hne⟩
    · refine ⟨GaugeVec.family m.LatestHeightGauge, ?_, h3⟩
      rw [mem_normalize]
      exact ⟨by simp [PrometheusMetrics.families], by
        simpa [GaugeVec.family, PrometheusMetrics.seriesKeys] using hne⟩
    · refine ⟨GaugeVec.family m.WalletBalance, ?_, h4⟩
      rw [mem_normalize]
      exact ⟨by simp [PrometheusMetrics.families], by
        simpa [GaugeVec.family, PrometheusMetrics.seriesKeys] using hne⟩
    · refine ⟨GaugeVec.family m.FeesSpent, ?_, h5⟩
      rw [mem_normalize]
      exact ⟨by simp [PrometheusMetrics.families], by
        simpa [GaugeVec.family, PrometheusMetrics.seriesKeys] using hne⟩
    · refine ⟨CounterVec.family m.BlockQueryFailure, ?_, h6⟩
      rw [mem_normalize]
      exact ⟨by simp [PrometheusMetrics.families], by
        simpa [CounterVec.family, PrometheusMetrics.seriesKeys] using hne⟩
    · refine ⟨GaugeVec.family m.ClientExpiration, ?_, h7⟩
      rw [mem_normalize]
      exact ⟨by simp [PrometheusMetrics.families], by
        simpa [GaugeVec.family, PrometheusMetrics.seriesKeys] using hne⟩

/-- Every series of a reachable struct has one label value per declared label name. -/
theorem run_keys (cs : List Call) : ∀ (m m1 : PrometheusMetrics), run m cs = .ok m1 →
    (∀ i L, L ∈ m.seriesKeys i → L.length = (m.desc i).variableLabels.length) →
    ∀ i L, L ∈ m1.seriesKeys i → L.length = (m1.desc i).variableLabels.length := by
  induction cs with
  | nil =>
    intro m m1 h hk
    simp only [run, Except.ok.injEq] at h
    subst h
    exact hk
  | cons c cs ih =>
    intro m m1 h hk
    simp only [run] at h
    cases hc : c.apply m with
    | error e => rw [hc] at h; cases h
    | ok m2 =>
      rw [hc] at h
      simp only [] at h
      obtain ⟨_, d2, hv, hkeys, _⟩ := apply_spec m m2 c hc
      apply ih m2 m1 h
      intro i L hL
      rw [d2 i]
      rw [hkeys i] at hL
      split_ifs at hL with hcond
      · rw [List.mem_append, List.mem_singleton] at hL
        rcases hL with hL | hL
        · exact hk i L hL
        · rw [hL, hcond.1]
          exact ((validate_ok_iff _ _).mp hv).1
      · exact hk i L hL

end processor
/-! ## Label pairs of a scrape -/

namespace prometheus

open Go

theorem insertLabelPair_perm (p : String × GoString) (l : List (String × GoString)) :
    (insertLabelPair p l).Perm (p :: l) := by
  induction l with
  | nil => exact List.Perm.refl _
  | cons q rest ih =>
    simp only [insertLabelPair]
    split_ifs
    · exact List.Perm.refl _
    · exact ((List.Perm.cons q ih).trans (List.Perm.swap p q rest))

theorem sortLabelPairs_perm (l : List (String × GoString)) : (sortLabelPairs l).Perm l := by
  induction l with
  | nil => exact List.Perm.refl _
  | cons p rest ih =>
    exact (insertLabelPair_perm p _).trans (List.Perm.cons p ih)

/-- Sorting rearranges the label pairs and nothing else. -/
theorem makeLabelPairs_perm (d : Desc) (L : List GoString) :
    (MakeLabelPairs d L).Perm (d.variableLabels.zip L) :=
  sortLabelPairs_perm _

end prometheus

namespace processor

open Go prometheus

/-- The label pairs the library makes for the series of a call, under the descriptor of the
instrument of the call, are the pairs of `Call.sortedBinding`. -/
theorem makeLabelPairs_call (c : Call) :
    MakeLabelPairs (freshMetrics.desc c.instrument) c.labels = c.sortedBinding := by
  cases c <;> rfl

/-- The label names of `Call.sortedBinding` are the sorted names of the instrument. -/
theorem sortedBinding_names (c : Call) :
    c.sortedBinding.map Prod.fst = c.instrument.sortedLabels := by
  cases c <;> rfl

/-- The lists of `Instrument.sortedLabels` are strictly increasing in the order of Go. -/
theorem sortedLabels_increasing (i : Instrument) :
    i.sortedLabels.Pairwise (fun a b => stringLess a b = true) := by
  cases i <;> decide

/-- The struct `NewPrometheusMetrics` returns has no series. -/
theorem fresh_keys (i : Instrument) : freshMetrics.seriesKeys i = [] := by
  cases i <;> rfl

/-- The series of a reachable struct are those it started with and those of the calls. -/
theorem run_keys_calls (cs : List Call) : ∀ (m m1 : PrometheusMetrics), run m cs = .ok m1 →
    ∀ i L, L ∈ m1.seriesKeys i ↔
      (L ∈ m.seriesKeys i ∨ ∃ c ∈ cs, c.instrument = i ∧ c.labels = L) := by
  induction cs with
  | nil =>
    intro m m1 h i L
    simp only [run, Except.ok.injEq] at h
    subst h
    simp
  | cons c cs ih =>
    intro m m1 h i L
    simp only [run] at h
    cases hc : c.apply m with
    | error e => rw [hc] at h; cases h
    | ok m2 =>
      rw [hc] at h
      simp only [] at h
      obtain ⟨_, _, _, hkeys, _⟩ := apply_spec m m2 c hc
      rw [ih m2 m1 h i L, hkeys i]
      constructor
      · rintro (hL | ⟨x, hx, hxi, hxL⟩)
        · split_ifs at hL with hcond
          · rw [List.mem_append, List.mem_singleton] at hL
            rcases hL with hL | hL
            · exact Or.inl hL
            · exact Or.inr ⟨c, List.mem_cons_self c cs, hcond.1.symm, hL.symm⟩
          · exact Or.inl hL
        · exact Or.inr ⟨x, List.mem_cons_of_mem c hx, hxi, hxL⟩
      · rintro (hL | ⟨x, hx, hxi, hxL⟩)
        · left
          split_ifs
          · exact List.mem_append_left _ hL
          · exact hL
        · rcases List.mem_cons.mp hx with hxc | hx
          · subst hxc
            left
            split_ifs with hcond
            · rw [← hxL]; exact List.mem_append_right _ (List.mem_singleton_self _)
            · rw [not_and_or, not_not] at hcond
              rcases hcond with hcond | hcond
              · exact absurd hxi.symm hcond
              · rw [← hxL]; exact hcond
          · exact Or.inr ⟨x, hx, hxi, hxL⟩

/-- The family a vector sends has the name of its descriptor and, per series, the label pairs
made from the descriptor and the label values of the series. -/
theorem mem_families (m : PrometheusMetrics) (f : MetricFamily) (hf : f ∈ m.families) :
    ∃ i, f.name = (m.desc i).fqName ∧
      f.metric.map Prod.fst = (m.seriesKeys i).map (MakeLabelPairs (m.desc i)) := by
  simp only [PrometheusMetrics.families, List.mem_cons, List.mem_singleton, List.not_mem_nil,
    or_false] at hf
  rcases hf with h | h | h | h | h | h | h
  · exact ⟨.observedPackets, by rw [h]; rfl, by
      rw [h]; simp [CounterVec.family, PrometheusMetrics.seriesKeys, PrometheusMetrics.desc]⟩
  · exact ⟨.relayedPackets, by rw [h]; rfl, by
      rw [h]; simp [CounterVec.family, PrometheusMetrics.seriesKeys, PrometheusMetrics.desc]⟩
  · exact ⟨.latestHeight, by rw [h]; rfl, by
      rw [h]; simp [GaugeVec.family, PrometheusMetrics.seriesKeys, PrometheusMetrics.desc]⟩
  · exact ⟨.walletBalance, by rw [h]; rfl, by
      rw [h]; simp [GaugeVec.family, PrometheusMetrics.seriesKeys, PrometheusMetrics.desc]⟩
  · exact ⟨.feesSpent, by rw [h]; rfl, by
      rw [h]; simp [GaugeVec.family, PrometheusMetrics.seriesKeys, PrometheusMetrics.desc]⟩
  · exact ⟨.blockQueryFailure, by rw [h]; rfl, by
      rw [h]; simp [CounterVec.family, PrometheusMetrics.seriesKeys, PrometheusMetrics.desc]⟩
  · exact ⟨.clientExpiration, by rw [h]; rfl, by
      rw [h]; simp [GaugeVec.family, PrometheusMetrics.seriesKeys, PrometheusMetrics.desc]⟩

/-- Each instrument has its family among those collected. -/
theorem family_of (m : PrometheusMetrics) (i : Instrument) :
    ∃ f ∈ m.families, f.name = (m.desc i).fqName ∧
      f.metric.map Prod.fst = (m.seriesKeys i).map (MakeLabelPairs (m.desc i)) := by
  cases i
  · exact ⟨CounterVec.family m.PacketObservedCounter, by simp [PrometheusMetrics.families], rfl,
      by simp [CounterVec.family, PrometheusMetrics.seriesKeys, PrometheusMetrics.desc]⟩
  · exact ⟨CounterVec.family m.PacketRelayedCounter, by simp [PrometheusMetrics.families], rfl,
      by simp [CounterVec.family, PrometheusMetrics.seriesKeys, PrometheusMetrics.desc]⟩
  · exact ⟨GaugeVec.family m.LatestHeightGauge, by simp [PrometheusMetrics.families], rfl,
      by simp [GaugeVec.family, PrometheusMetrics.seriesKeys, PrometheusMetrics.desc]⟩
  · exact ⟨GaugeVec.family m.WalletBalance, by simp [PrometheusMetrics.families], rfl,
      by simp [GaugeVec.family, PrometheusMetrics.seriesKeys, PrometheusMetrics.desc]⟩
  · exact ⟨GaugeVec.family m.FeesSpent, by simp [PrometheusMetrics.families], rfl,
      by simp [GaugeVec.family, PrometheusMetrics.seriesKeys, PrometheusMetrics.desc]⟩
  · exact ⟨CounterVec.family m.BlockQueryFailure, by simp [PrometheusMetrics.families], rfl,
      by simp [CounterVec.family, PrometheusMetrics.seriesKeys, PrometheusMetrics.desc]⟩
  · exact ⟨GaugeVec.family m.ClientExpiration, by simp [PrometheusMetrics.families], rfl,
      by simp [GaugeVec.family, PrometheusMetrics.seriesKeys, PrometheusMetrics.desc]⟩


/-- The families of the scrape of a reachable struct. -/
theorem mem_gather (m : PrometheusMetrics) (hR : m.Registry = freshMetrics.Registry)
    (hd : ∀ i, m.desc i = freshMetrics.desc i) (f : MetricFamily) :
    f ∈ m.Gather ↔ f ∈ m.families ∧ f.metric ≠ [] := by
  rw [gather_eq m hR hd, mem_normalize]

end processor


/-! ## Counters and gauges along a run -/

namespace processor

open Go prometheus

/-- `counter.Add(float64(count))` for `0 ≤ count < 2^63` takes the integer path. -/
theorem counter_add_int (ch : Counter) (count : ℤ) (h0 : 0 ≤ count) (h1 : count < 2 ^ 63) :
    ch.Add (Float64.ofInt count) =
      .ok { ch with valInt := (ch.valInt + (Float64.ofInt count).toUint64) % 2 ^ 64 } := by
  unfold Counter.Add
  rw [Float64.ofInt_not_lt_zero count h0]
  simp only [Bool.false_eq_true, if_false]
  have key : (Float64.ofInt ((Float64.ofInt count).toUint64 : ℤ)).eq (Float64.ofInt count)
      = true := by
    obtain ⟨n, rfl⟩ := Int.eq_ofNat_of_zero_le h0
    by_cases hn : n = 0
    · subst hn; decide
    · have hlt : n < 2 ^ 63 := by exact_mod_cast h1
      obtain ⟨M, T, N, e1, _, e3, e4, _, e6, _⟩ := Float64.ofInt_nat_props n hn (by omega)
      have hbl : bitLen n ≤ 63 := by
        obtain ⟨a, _⟩ := bitLen_spec n hn
        by_contra hc
        have : 2 ^ 63 ≤ 2 ^ (bitLen n - 1) := Nat.pow_le_pow_right (by norm_num) (by omega)
        omega
      have hN : N < 2 ^ 64 := by
        have : 2 ^ bitLen n ≤ 2 ^ 63 := Nat.pow_le_pow_right (by norm_num) hbl
        omega
      rw [e1, Float64.toUint64_of_nat M T N e3, Nat.mod_eq_of_lt hN, e4]
      exact Float64.eq_self _ _ _
  rw [if_pos key]

/-- The value a scrape reports for a clean counter child. -/
theorem counter_get_clean (ch : Counter) (h1 : ch.valBits = Float64.zero)
    (h2 : ch.valInt < 2 ^ 64) : ch.get = Float64.ofInt (ch.valInt : ℤ) := by
  unfold Counter.get
  rw [h1]
  exact Float64.zero_add_ofInt_nat _ h2

theorem fresh_clean : CountersClean freshMetrics := by
  intro i L ch h
  cases i <;> simp [PrometheusMetrics.counter, freshMetrics, NewCounterVec, lookup] at h

theorem added_of_admissible_counter (c : Call) (hadm : c.admissible = true) (ch : Counter) :
    c.instrument.isCounter = true →
    c.counterOp ch = .ok { ch with valInt := (ch.valInt + c.added) % 2 ^ 64 } := by
  intro hi
  cases c with
  | AddPacketsObserved path chain channel port eventType count =>
    simp [Call.admissible] at hadm
    simp only [Call.counterOp, Call.added]
    exact counter_add_int ch count hadm.2.1 hadm.2.2
  | IncPacketsRelayed path chain channel port eventType => rfl
  | IncBlockQueryFailure chain err => rfl
  | SetLatestHeight chain height => cases hi
  | SetWalletBalance chain gasPrice key address denom balance => cases hi
  | SetFeesSpent chain gasPrice key address denom amount => cases hi
  | SetClientExpiration pathName chain clientID trustingPeriod timeToExpiration => cases hi

/-- One admissible call on clean counters: the counter series of the call gets its `added`
added modulo `2^64`, the other counter series are untouched. -/
theorem counter_step (m m1 : PrometheusMetrics) (c : Call) (hclean : CountersClean m)
    (hadm : c.admissible = true) (h : c.apply m = .ok m1) :
    CountersClean m1 ∧ ∀ i L, i.isCounter = true →
      (m1.counter i L).isSome =
        ((m.counter i L).isSome || decide (c.instrument = i ∧ c.labels = L)) ∧
      valIntOf (m1.counter i L) = (valIntOf (m.counter i L) + c.addedTo i L) % 2 ^ 64 := by
  obtain ⟨_, _, _, _, hframe, _, hcnt⟩ := apply_spec m m1 c h
  have hval : ∀ i L, valIntOf (m.counter i L) < 2 ^ 64 := by
    intro i L
    unfold valIntOf
    cases hc : m.counter i L with
    | none => simp
    | some ch => simpa using (hclean i L ch hc).2
  have htarget : c.instrument.isCounter = true →
      m1.counter c.instrument c.labels =
        some { valBits := Float64.zero,
               valInt := (valIntOf (m.counter c.instrument c.labels) + c.added) % 2 ^ 64 } := by
    intro hi
    obtain ⟨ch1, e1, e2⟩ := hcnt hi
    rw [added_of_admissible_counter c hadm _ hi] at e2
    simp only [Except.ok.injEq] at e2
    rw [e1, ← e2]
    cases hc : m.counter c.instrument c.labels with
    | none => simp [valIntOf, newCounter]
    | some ch => simp [valIntOf, (hclean _ _ ch hc).1]
  constructor
  · intro i L ch hch
    by_cases ht : i = c.instrument ∧ L = c.labels
    · obtain ⟨rfl, rfl⟩ := ht
      have hi : c.instrument.isCounter = true := by
        cases hc : c.instrument <;> rw [hc] at hch <;>
          simp [PrometheusMetrics.counter] at hch <;> rfl
      rw [htarget hi] at hch
      simp only [Option.some.injEq] at hch
      subst hch
      exact ⟨rfl, Nat.mod_lt _ (by norm_num)⟩
    · rw [(hframe i L ht).2] at hch
      exact hclean i L ch hch
  · intro i L hi
    by_cases ht : i = c.instrument ∧ L = c.labels
    · obtain ⟨rfl, rfl⟩ := ht
      rw [htarget hi]
      simp [Call.addedTo, valIntOf]
    · rw [(hframe i L ht).2]
      have ht2 : ¬ (c.instrument = i ∧ c.labels = L) := fun hh => ht ⟨hh.1.symm, hh.2.symm⟩
      simp only [Call.addedTo, if_neg ht2, ht2, decide_False, Bool.or_false, Nat.add_zero,
        true_and]
      exact (Nat.mod_eq_of_lt (hval i L)).symm

/-- A run of admissible calls on clean counters: every counter series holds the sum, modulo
`2^64`, of what was there and what the calls added to it. -/
theorem counter_run (cs : List Call) : ∀ (m m1 : PrometheusMetrics), CountersClean m →
    (∀ c ∈ cs, c.admissible = true) → run m cs = .ok m1 →
    CountersClean m1 ∧ ∀ i L, i.isCounter = true →
      (m1.counter i L).isSome =
        ((m.counter i L).isSome || cs.any (fun c => decide (c.instrument = i ∧ c.labels = L))) ∧
      valIntOf (m1.counter i L) =
        (valIntOf (m.counter i L) + (cs.map (Call.addedTo i L)).sum) % 2 ^ 64 := by
  induction cs with
  | nil =>
    intro m m1 hclean _ h
    simp only [run, Except.ok.injEq] at h
    subst h
    refine ⟨hclean, fun i L _ => ⟨by simp, ?_⟩⟩
    simp only [List.map_nil, List.sum_nil, Nat.add_zero]
    unfold valIntOf
    cases hc : m.counter i L with
    | none => simp
    | some ch =>
      simp only [Option.map_some', Option.getD_some]
      exact (Nat.mod_eq_of_lt (hclean i L ch hc).2).symm
  | cons c cs ih =>
    intro m m1 hclean hadm h
    simp only [run] at h
    cases hc : c.apply m with
    | error e => rw [hc] at h; cases h
    | ok m2 =>
      rw [hc] at h
      simp only [] at h
      obtain ⟨hclean2, hstep⟩ :=
        counter_step m m2 c hclean (hadm c (List.mem_cons_self c cs)) hc
      obtain ⟨hclean1, hrest⟩ :=
        ih m2 m1 hclean2 (fun x hx => hadm x (List.mem_cons_of_mem c hx)) h
      refine ⟨hclean1, fun i L hi => ?_⟩
      obtain ⟨s1, s2⟩ := hstep i L hi
      obtain ⟨r1, r2⟩ := hrest i L hi
      constructor
      · rw [r1, s1, List.any_cons, Bool.or_assoc]
      · rw [r2, s2, List.map_cons, List.sum_cons, Nat.mod_add_mod, Nat.add_assoc]

/-- One call on a gauge series: the series of the call holds the value handed to `Set`, the
other gauge series are untouched. -/
theorem gauge_run (cs : List Call) : ∀ (m m1 : PrometheusMetrics), run m cs = .ok m1 →
    ∀ i L, i.isCounter = false →
      m1.value i L =
        cs.foldl (fun acc c => if c.instrument = i ∧ c.labels = L then some c.setValue else acc)
          (m.value i L) := by
  induction cs with
  | nil =>
    intro m m1 h i L _
    simp only [run, Except.ok.injEq] at h
    subst h
    rfl
  | cons c cs ih =>
    intro m m1 h i L hi
    simp only [run] at h
    cases hc : c.apply m with
    | error e => rw [hc] at h; cases h
    | ok m2 =>
      rw [hc] at h
      simp only [] at h
      obtain ⟨_, _, _, _, hframe, hset, _⟩ := apply_spec m m2 c hc
      rw [ih m2 m1 h i L hi, List.foldl_cons]
      congr 1
      by_cases ht : c.instrument = i ∧ c.labels = L
      · obtain ⟨rfl, rfl⟩ := ht
        simp only [true_and, and_self, if_true]
        exact hset hi
      · rw [if_neg ht]
        exact (hframe i L (fun hh => ht ⟨hh.1.symm, hh.2.symm⟩)).1

end processor

/-! ## Values after a run -/

namespace processor

open Go prometheus

theorem toUint64_ofInt_small (n : ℕ) (h : n ≤ 2 ^ 53) :
    (Float64.ofInt (n : ℤ)).toUint64 = n := by
  by_cases hn : n = 0
  · subst hn; decide
  · obtain ⟨M, T, N, e1, _, e3, _, _, _, e7⟩ := Float64.ofInt_nat_props n hn (by omega)
    rw [e1, Float64.toUint64_of_nat M T N e3, e7 h]
    exact Nat.mod_eq_of_lt (by omega)

/-- For an admissible call whose specified amount is at most `2^53` the accumulator receives
exactly that amount. -/
theorem addedTo_eq_amountTo (i : Instrument) (L : List GoString) (c : Call)
    (hadm : c.admissible = true) (hb : c.amountTo i L ≤ 2 ^ 53) :
    c.addedTo i L = c.amountTo i L := by
  unfold Call.addedTo Call.amountTo at *
  by_cases ht : c.instrument = i ∧ c.labels = L
  · rw [if_pos ht] at hb
    rw [if_pos ht, if_pos ht]
    cases c with
    | AddPacketsObserved path chain channel port eventType count =>
      simp [Call.admissible] at hadm
      simp only [Call.added] at hb ⊢
      obtain ⟨n, rfl⟩ := Int.eq_ofNat_of_zero_le hadm.2.1
      simp only [Int.toNat_ofNat] at hb ⊢
      exact toUint64_ofInt_small n hb
    | IncPacketsRelayed path chain channel port eventType => rfl
    | IncBlockQueryFailure chain err => rfl
    | SetLatestHeight chain height => rfl
    | SetWalletBalance chain gasPrice key address denom balance => rfl
    | SetFeesSpent chain gasPrice key address denom amount => rfl
    | SetClientExpiration pathName chain clientID trustingPeriod timeToExpiration => rfl
  · rw [if_neg ht, if_neg ht]

theorem sum_addedTo_eq (i : Instrument) (L : List GoString) (cs : List Call) :
    (∀ c ∈ cs, c.admissible = true) → (cs.map (Call.amountTo i L)).sum ≤ 2 ^ 53 →
    (cs.map (Call.addedTo i L)).sum = (cs.map (Call.amountTo i L)).sum := by
  induction cs with
  | nil => intro _ _; rfl
  | cons c cs ih =>
    intro hadm hb
    simp only [List.map_cons, List.sum_cons] at hb ⊢
    rw [addedTo_eq_amountTo i L c (hadm c (List.mem_cons_self c cs)) (by omega),
      ih (fun x hx => hadm x (List.mem_cons_of_mem c hx)) (by omega)]

theorem fresh_counter_none (i : Instrument) (L : List GoString) :
    freshMetrics.counter i L = none := by
  cases i <;> rfl

theorem fresh_value_none (i : Instrument) (L : List GoString) :
    freshMetrics.value i L = none := by
  cases i <;> rfl

/-- The value of a counter series after admissible calls on the struct `NewPrometheusMetrics`
returns: the `float64` of the sum, modulo `2^64`, of what the calls added to it. -/
theorem counter_value_run (cs : List Call) (m : PrometheusMetrics) (i : Instrument)
    (L : List GoString) (hi : i.isCounter = true) (hadm : ∀ c ∈ cs, c.admissible = true)
    (h : run freshMetrics cs = .ok m) :
    m.value i L =
      if cs.any (fun c => decide (c.instrument = i ∧ c.labels = L)) = true then
        some (Float64.ofInt (((cs.map (Call.addedTo i L)).sum % 2 ^ 64 : ℕ) : ℤ))
      else none := by
  obtain ⟨hclean, hall⟩ := counter_run cs freshMetrics m fresh_clean hadm h
  obtain ⟨h1, h2⟩ := hall i L hi
  rw [fresh_counter_none] at h1 h2
  simp only [Option.isSome_none, Bool.false_or, valIntOf, Option.map_none', Option.getD_none,
    Nat.zero_add] at h1 h2
  rw [value_eq_counter m i L hi]
  cases hc : m.counter i L with
  | none =>
    rw [hc] at h1
    simp only [Option.isSome_none] at h1
    rw [← h1]
    simp
  | some ch =>
    rw [hc] at h1 h2
    simp only [Option.isSome_some] at h1
    simp only [Option.map_some', Option.getD_some] at h2
    rw [← h1]
    simp only [if_true, Option.map_some']
    obtain ⟨c1, c2⟩ := hclean i L ch hc
    rw [counter_get_clean ch c1 c2, h2]

theorem run_append (cs : List Call) : ∀ (m : PrometheusMetrics) (c : Call),
    run m (cs ++ [c]) =
      match run m cs with
      | .error e => .error e
      | .ok m1 => c.apply m1 := by
  induction cs with
  | nil =>
    intro m c
    simp only [List.nil_append, run]
    cases c.apply m <;> rfl
  | cons x cs ih =>
    intro m c
    simp only [List.cons_append, run]
    cases x.apply m with
    | error e => rfl
    | ok m2 => exact ih m2 c

end processor

/-! ## The claims -/

namespace processor

open Go prometheus

/-- C1, as stated, fails: one `AddPacketsObserved` with the count `2^53 + 1` on the struct
`NewPrometheusMetrics` returns leaves the series at `2^53`, not at the count added. -/
theorem C1_large_count_is_rounded :
    ∃ m0 m : PrometheusMetrics, NewPrometheusMetrics = .ok m0 ∧
      run m0 [.AddPacketsObserved (ascii "path-ab") (ascii "chainA") (ascii "channel-0")
        (ascii "transfer") (ascii "recv_packet") 9007199254740993] = .ok m ∧
      m.value .observedPackets labelsS1 = some (.finite false 4503599627370496 1) ∧
      (Float64.finite false 4503599627370496 1).toRat? = some 9007199254740992 ∧
      (Float64.finite false 4503599627370496 1).toRat? ≠ some 9007199254740993 :=
  ⟨_, _, rfl, rfl, by decide, by norm_num [Float64.toRat?], by norm_num [Float64.toRat?]⟩

/-- C1, amended: for every counter instrument and label tuple, after any admissible calls on
the struct `NewPrometheusMetrics` returns, which all complete, the series exists exactly when
a call recorded on it, and as long as the amounts added to it (`count`, resp. 1 per `Inc`)
total at most `2^53` its value is that total; whatever the total, the value is the same for
every reordering of the calls. -/
theorem C1_counter_is_sum (cs : List Call) (i : Instrument) (L : List GoString)
    (hi : i.isCounter = true) (hcs : ∀ c ∈ cs, c.admissible = true) :
    ∃ m0 m : PrometheusMetrics, NewPrometheusMetrics = .ok m0 ∧ run m0 cs = .ok m ∧
      ((∃ c ∈ cs, c.instrument = i ∧ c.labels = L) → ∃ v, m.value i L = some v) ∧
      ((cs.map (Call.amountTo i L)).sum ≤ 2 ^ 53 → ∀ v, m.value i L = some v →
        v.toRat? = some (((cs.map (Call.amountTo i L)).sum : ℕ) : ℚ)) ∧
      ((∀ c ∈ cs, ¬ (c.instrument = i ∧ c.labels = L)) → m.value i L = none) ∧
      ∀ cs1 : List Call, cs1.Perm cs →
        ∃ m1, run m0 cs1 = .ok m1 ∧ m1.value i L = m.value i L := by
  obtain ⟨m, hm⟩ := run_ok cs freshMetrics fresh_lengths hcs
  have hv := counter_value_run cs m i L hi hcs hm
  refine ⟨freshMetrics, m, new_eq, hm, ?_, ?_, ?_, ?_⟩
  · intro hex
    have hany : cs.any (fun c => decide (c.instrument = i ∧ c.labels = L)) = true := by
      rw [List.any_eq_true]
      obtain ⟨c, hc, ht⟩ := hex
      exact ⟨c, hc, by simpa using ht⟩
    rw [if_pos hany] at hv
    exact ⟨_, hv⟩
  · intro hb v hval
    have hsum := sum_addedTo_eq i L cs hcs hb
    rw [hv] at hval
    split_ifs at hval with hany
    rw [hsum, Nat.mod_eq_of_lt (by omega)] at hval
    rw [← Option.some.inj hval]
    have := Float64.ofInt_toRat_exact (((cs.map (Call.amountTo i L)).sum : ℕ) : ℤ)
      (by rw [Int.natAbs_ofNat]; exact hb)
    rw [Int.cast_natCast] at this
    exact this
  · intro hnone
    have hany : ¬ cs.any (fun c => decide (c.instrument = i ∧ c.labels = L)) = true := by
      rw [List.any_eq_true]
      rintro ⟨c, hc, ht⟩
      exact hnone c hc (by simpa using ht)
    rw [if_neg hany] at hv
    exact hv
  · intro cs1 hperm
    have hcs1 : ∀ c ∈ cs1, c.admissible = true := fun c hc => hcs c (hperm.subset hc)
    obtain ⟨m1, hm1⟩ := run_ok cs1 freshMetrics fresh_lengths hcs1
    refine ⟨m1, hm1, ?_⟩
    rw [counter_value_run cs1 m1 i L hi hcs1 hm1, hv]
    have e1 : (cs1.map (Call.addedTo i L)).sum = (cs.map (Call.addedTo i L)).sum :=
      (hperm.map _).sum_eq
    have e2 : cs1.any (fun c => decide (c.instrument = i ∧ c.labels = L)) =
        cs.any (fun c => decide (c.instrument = i ∧ c.labels = L)) := by
      rw [Bool.eq_iff_iff, List.any_eq_true, List.any_eq_true]
      constructor
      · rintro ⟨c, hc, ht⟩; exact ⟨c, hperm.subset hc, ht⟩
      · rintro ⟨c, hc, ht⟩; exact ⟨c, hperm.symm.subset hc, ht⟩
    rw [e1, e2]

/-- C1 on scenarios S1 and S2 of the specification: counts 3 and 2 give 5, four `Inc` calls
give 4. -/
theorem C1_counter_is_sum_witness :
    (∃ m0 m : PrometheusMetrics, NewPrometheusMetrics = .ok m0 ∧ run m0 scenarioS1 = .ok m ∧
      ∃ v, m.value .observedPackets labelsS1 = some v ∧ v.toRat? = some 5) ∧
    (∃ m0 m : PrometheusMetrics, NewPrometheusMetrics = .ok m0 ∧ run m0 scenarioS2 = .ok m ∧
      ∃ v, m.value .relayedPackets labelsS2 = some v ∧ v.toRat? = some 4) := by
  constructor
  · obtain ⟨m0, m, h0, hm, hex, hsum, _, _⟩ :=
      C1_counter_is_sum scenarioS1 .observedPackets labelsS1 (by decide) (by decide)
    obtain ⟨v, hv⟩ := hex (by decide)
    have hq := hsum (by decide) v hv
    have hs : (scenarioS1.map (Call.amountTo .observedPackets labelsS1)).sum = 5 := by decide
    rw [hs] at hq
    exact ⟨m0, m, h0, hm, v, hv, by simpa using hq⟩
  · obtain ⟨m0, m, h0, hm, hex, hsum, _, _⟩ :=
      C1_counter_is_sum scenarioS2 .relayedPackets labelsS2 (by decide) (by decide)
    obtain ⟨v, hv⟩ := hex (by decide)
    have hq := hsum (by decide) v hv
    have hs : (scenarioS2.map (Call.amountTo .relayedPackets labelsS2)).sum = 4 := by decide
    rw [hs] at hq
    exact ⟨m0, m, h0, hm, v, hv, by simpa using hq⟩

/-- C2, as stated, fails for `SetLatestHeight`: with the height `2^53 + 1` the gauge holds
`float64(height)`, which is `2^53`, not the height itself. -/
theorem C2_large_height_is_rounded :
    ∃ m0 m : PrometheusMetrics, NewPrometheusMetrics = .ok m0 ∧
      m0.SetLatestHeight (ascii "osmosis-1") 9007199254740993 = .ok m ∧
      m.value .latestHeight [ascii "osmosis-1"] = some (.finite false 4503599627370496 1) ∧
      (Float64.finite false 4503599627370496 1).toRat? = some 9007199254740992 ∧
      (Float64.finite false 4503599627370496 1).toRat? ≠ some 9007199254740993 :=
  ⟨_, _, rfl, rfl, by decide, by norm_num [Float64.toRat?], by norm_num [Float64.toRat?]⟩

/-- C2, amended: for every gauge instrument and label tuple, after any admissible calls on the
struct `NewPrometheusMetrics` returns, the value of the series is what the most recent set
call on that series handed to `Set`, whatever was set before (the series does not exist when
no call set it); for `SetWalletBalance` and `SetFeesSpent` that is the `float64` argument
itself, for `SetLatestHeight` it is `float64(height)`, the double nearest to the height, which
is the height itself whenever `|height| ≤ 2^53`. -/
theorem C2_gauge_is_last_set (cs : List Call) (hcs : ∀ c ∈ cs, c.admissible = true) :
    ∃ m0 m : PrometheusMetrics, NewPrometheusMetrics = .ok m0 ∧ run m0 cs = .ok m ∧
      (∀ i L, i.isCounter = false → m.value i L = lastSet i L cs) ∧
      (∀ chain gasPrice key address denom balance,
        (Call.SetWalletBalance chain gasPrice key address denom balance).setValue = balance) ∧
      (∀ chain gasPrice key address denom amount,
        (Call.SetFeesSpent chain gasPrice key address denom amount).setValue = amount) ∧
      (∀ chain (height : ℤ), -(2 ^ 63) ≤ height → height < 2 ^ 63 →
        ∃ q : ℚ, (Call.SetLatestHeight chain height).setValue.toRat? = some q ∧
          |q - height| * 2 ^ 53 ≤ |(height : ℚ)| ∧
          (height.natAbs ≤ 2 ^ 53 → q = height)) := by
  obtain ⟨m, hm⟩ := run_ok cs freshMetrics fresh_lengths hcs
  refine ⟨freshMetrics, m, new_eq, hm, ?_, fun _ _ _ _ _ _ => rfl, fun _ _ _ _ _ _ => rfl, ?_⟩
  · intro i L hi
    rw [gauge_run cs freshMetrics m hm i L hi, fresh_value_none]
    rfl
  · intro chain height h1 h2
    obtain ⟨q, e1, e2⟩ := Float64.ofInt_toRat_near height (by omega)
    refine ⟨q, e1, e2, fun hsmall => ?_⟩
    have e3 := Float64.ofInt_toRat_exact height hsmall
    rw [e1] at e3
    exact Option.some.inj e3

/-- C2 on scenario S3 of the specification: 12345 then 12400 leaves 12400. -/
theorem C2_gauge_is_last_set_witness :
    ∃ m0 m : PrometheusMetrics, NewPrometheusMetrics = .ok m0 ∧ run m0 scenarioS3 = .ok m ∧
      m.value .latestHeight [ascii "osmosis-1"] = some (Float64.ofInt 12400) ∧
      (Float64.ofInt 12400).toRat? = some 12400 := by
  obtain ⟨m0, m, h0, hm, hlast, _, _, hh⟩ := C2_gauge_is_last_set scenarioS3 (by decide)
  refine ⟨m0, m, h0, hm, ?_, ?_⟩
  · rw [hlast .latestHeight [ascii "osmosis-1"] rfl]
    decide
  · obtain ⟨q, e1, _, e3⟩ := hh (ascii "osmosis-1") 12400 (by norm_num) (by norm_num)
    rw [e3 (by decide)] at e1
    simpa [Call.setValue] using e1

/-- C7, as stated, fails: for the duration of 4611686018 s and 1 ns the gauge holds exactly
4611686018, a whole number of seconds: the fractional part is lost and the value is not the
duration divided by `10^9`. -/
theorem C7_fraction_lost :
    ∃ m0 m : PrometheusMetrics, NewPrometheusMetrics = .ok m0 ∧
      m0.SetClientExpiration (ascii "path-ab") (ascii "chainA") (ascii "07-tendermint-0")
        (ascii "336h0m0s") 4611686018000000001 = .ok m ∧
      m.value .clientExpiration [ascii "path-ab", ascii "chainA", ascii "07-tendermint-0",
        ascii "336h0m0s"] = some (Duration.Seconds 4611686018000000001) ∧
      (Duration.Seconds 4611686018000000001).toRat? = some 4611686018 ∧
      (Duration.Seconds 4611686018000000001).toRat? ≠
        some ((4611686018000000001 : ℚ) / 10 ^ 9) := by
  have hs : Duration.Seconds 4611686018000000001 = .finite false 4835703278010368 (-20) := by
    set_option maxRecDepth 8000 in decide
  refine ⟨_, _, rfl, rfl, ?_, ?_, ?_⟩
  · set_option maxRecDepth 8000 in decide
  · rw [hs]; norm_num [Float64.toRat?]
  · rw [hs]; norm_num [Float64.toRat?]

/-- C7, amended: for every 64-bit duration `d` in nanoseconds, `SetClientExpiration` leaves
on the gauge of its label tuple the `float64` that `d.Seconds()` computes,
`float64(d / 10^9) + float64(d % 10^9) / 1e9`; it is a finite number within a relative `2^-52`
of `d / 10^9`, so the fractional part is kept to the precision of a double; 1500 ms gives
exactly 1.5 and one hour exactly 3600. -/
theorem C7_expiration_seconds (cs : List Call) (pathName chain clientID trustingPeriod : GoString)
    (d : ℤ) (hcs : ∀ c ∈ cs, c.admissible = true)
    (hc : (Call.SetClientExpiration pathName chain clientID trustingPeriod d).admissible = true) :
    ∃ m0 m m1 : PrometheusMetrics, NewPrometheusMetrics = .ok m0 ∧ run m0 cs = .ok m ∧
      m.SetClientExpiration pathName chain clientID trustingPeriod d = .ok m1 ∧
      m1.value .clientExpiration [pathName, chain, clientID, trustingPeriod] =
        some (Duration.Seconds d) ∧
      (∃ q : ℚ, (Duration.Seconds d).toRat? = some q ∧
        |q - (d : ℚ) / 10 ^ 9| * 2 ^ 52 ≤ |(d : ℚ)| / 10 ^ 9) ∧
      (Duration.Seconds 1500000000).toRat? = some (3 / 2) ∧
      (Duration.Seconds 3600000000000).toRat? = some 3600 := by
  obtain ⟨m, hm⟩ := run_ok cs freshMetrics fresh_lengths hcs
  obtain ⟨_, hd⟩ := run_desc cs freshMetrics m hm
  obtain ⟨m1, h1⟩ := apply_ok m _ (fun i => by rw [hd i]; exact fresh_lengths i) hc
  obtain ⟨_, _, _, _, _, hset, _⟩ := apply_spec m m1 _ h1
  have hrange : -(2 ^ 63) ≤ d ∧ d < 2 ^ 63 := by
    simp [Call.admissible] at hc
    exact hc.2
  have e1 : Duration.Seconds 1500000000 = .finite false 6755399441055744 (-52) := by
    set_option maxRecDepth 8000 in decide
  have e2 : Duration.Seconds 3600000000000 = .finite false 7916483719987200 (-41) := by
    set_option maxRecDepth 8000 in decide
  refine ⟨freshMetrics, m, m1, new_eq, hm, h1, hset rfl,
    Seconds_near d hrange.1 hrange.2, ?_, ?_⟩
  · rw [e1]; norm_num [Float64.toRat?]
  · rw [e2]; norm_num [Float64.toRat?]

/-- C7 for a duration of one nanosecond, set after the calls of scenario S3. -/
theorem C7_expiration_seconds_witness :
    ∃ m0 m m1 : PrometheusMetrics, NewPrometheusMetrics = .ok m0 ∧ run m0 scenarioS3 = .ok m ∧
      m.SetClientExpiration (ascii "path-ab") (ascii "chainA") (ascii "07-tendermint-0")
        (ascii "336h0m0s") 1 = .ok m1 ∧
      m1.value .clientExpiration [ascii "path-ab", ascii "chainA", ascii "07-tendermint-0",
        ascii "336h0m0s"] = some (Duration.Seconds 1) ∧
      (∃ q : ℚ, (Duration.Seconds 1).toRat? = some q ∧
        |q - ((1 : ℤ) : ℚ) / 10 ^ 9| * 2 ^ 52 ≤ |(((1 : ℤ)) : ℚ)| / 10 ^ 9) ∧
      (Duration.Seconds 1500000000).toRat? = some (3 / 2) ∧
      (Duration.Seconds 3600000000000).toRat? = some 3600 :=
  C7_expiration_seconds scenarioS3 _ _ _ _ 1 (by decide) (by decide)

/-- C8, as stated, fails: after three `AddPacketsObserved` with the count `2^62` the series is
at `3 * 2^62`, and a fourth such call, which completes, leaves it at 0: the `uint64`
accumulator of the counter has wrapped around. -/
theorem C8_counter_wraps :
    ∃ m0 m m1 : PrometheusMetrics, NewPrometheusMetrics = .ok m0 ∧
      run m0 (List.replicate 3 (.AddPacketsObserved (ascii "path-ab") (ascii "chainA")
        (ascii "channel-0") (ascii "transfer") (ascii "recv_packet") 4611686018427387904))
        = .ok m ∧
      m.AddPacketsObserved (ascii "path-ab") (ascii "chainA") (ascii "channel-0")
        (ascii "transfer") (ascii "recv_packet") 4611686018427387904 = .ok m1 ∧
      m.value .observedPackets labelsS1 = some (.finite false 6755399441055744 11) ∧
      (Float64.finite false 6755399441055744 11).toRat? = some 13835058055282163712 ∧
      m1.value .observedPackets labelsS1 = some (.finite false 0 0) ∧
      (Float64.finite false 0 0).toRat? = some 0 :=
  ⟨_, _, _, rfl, rfl, rfl, by decide, by norm_num [Float64.toRat?], by decide,
    by norm_num [Float64.toRat?]⟩

/-- C8, amended: on every struct reached from `NewPrometheusMetrics` by admissible calls, an
admissible recording call completes and leaves every counter series that existed with a value
greater than or equal to the one before, as long as what the calls so far and this one added
to the series totals less than `2^64`, the range of the counter's `uint64` accumulator. -/
theorem C8_counter_monotone (cs : List Call) (c : Call) (i : Instrument) (L : List GoString)
    (hi : i.isCounter = true) (hcs : ∀ x ∈ cs, x.admissible = true)
    (hc : c.admissible = true)
    (hw : ((cs ++ [c]).map (Call.addedTo i L)).sum < 2 ^ 64) :
    ∃ m0 m m1 : PrometheusMetrics, NewPrometheusMetrics = .ok m0 ∧ run m0 cs = .ok m ∧
      c.apply m = .ok m1 ∧
      ∀ v, m.value i L = some v →
        ∃ (v1 : Float64) (q q1 : ℚ), m1.value i L = some v1 ∧ v.toRat? = some q ∧
          v1.toRat? = some q1 ∧ q ≤ q1 := by
  obtain ⟨m, hm⟩ := run_ok cs freshMetrics fresh_lengths hcs
  obtain ⟨_, hd⟩ := run_desc cs freshMetrics m hm
  obtain ⟨m1, h1⟩ := apply_ok m c (fun i => by rw [hd i]; exact fresh_lengths i) hc
  have hcs2 : ∀ x ∈ cs ++ [c], x.admissible = true := by
    intro x hx
    rw [List.mem_append, List.mem_singleton] at hx
    rcases hx with hx | hx
    · exact hcs x hx
    · rw [hx]; exact hc
  have hm1 : run freshMetrics (cs ++ [c]) = .ok m1 := by
    rw [run_append, hm]; exact h1
  have hv := counter_value_run cs m i L hi hcs hm
  have hv1 := counter_value_run (cs ++ [c]) m1 i L hi hcs2 hm1
  simp only [List.map_append, List.sum_append, List.map_cons, List.map_nil, List.sum_cons,
    List.sum_nil, Nat.add_zero] at hw hv1
  refine ⟨freshMetrics, m, m1, new_eq, hm, h1, ?_⟩
  intro v hval
  by_cases hany : cs.any (fun c => decide (c.instrument = i ∧ c.labels = L)) = true
  · rw [if_pos hany] at hv
    have hany1 : (cs ++ [c]).any (fun c => decide (c.instrument = i ∧ c.labels = L)) = true := by
      rw [List.any_append, hany, Bool.true_or]
    rw [if_pos hany1, Nat.mod_eq_of_lt hw] at hv1
    rw [Nat.mod_eq_of_lt (by omega)] at hv
    rw [hv] at hval
    obtain ⟨q, q1, e1, e2, _, e4⟩ := Float64.ofInt_nat_mono
      (cs.map (Call.addedTo i L)).sum
      ((cs.map (Call.addedTo i L)).sum + c.addedTo i L) (by omega) hw
    refine ⟨_, q, q1, hv1, ?_, e2, e4⟩
    rw [← Option.some.inj hval]
    exact e1
  · rw [if_neg hany] at hv
    rw [hv] at hval
    cases hval

/-- C8 for a further `IncBlockQueryFailure` after the calls of scenario S5. -/
theorem C8_counter_monotone_witness :
    ∃ m0 m m1 : PrometheusMetrics, NewPrometheusMetrics = .ok m0 ∧ run m0 scenarioS5 = .ok m ∧
      (Call.IncBlockQueryFailure (ascii "chainA") (ascii "RPC Client")).apply m = .ok m1 ∧
      ∀ v, m.value .blockQueryFailure [ascii "chainA", ascii "RPC Client"] = some v →
        ∃ (v1 : Float64) (q q1 : ℚ),
          m1.value .blockQueryFailure [ascii "chainA", ascii "RPC Client"] = some v1 ∧
          v.toRat? = some q ∧ v1.toRat? = some q1 ∧ q ≤ q1 :=
  C8_counter_monotone scenarioS5 _ _ _ (by decide) (by decide) (by decide) (by decide)

/-- C10: the seven registered names are pairwise distinct, `NewPrometheusMetrics` returns a
struct, and so does a second call after it, each call registering against its own new
registry; the same seven registrations against the registry of the first struct would abort
with a duplicate registration. -/
theorem C10_construction_succeeds :
    ∃ m : PrometheusMetrics, NewPrometheusMetrics = .ok m ∧
      m.Registry.descs.map (fun d => d.fqName) =
        ["cosmos_relayer_observed_packets", "cosmos_relayer_relayed_packets",
         "cosmos_relayer_chain_latest_height", "cosmos_relayer_wallet_balance",
         "cosmos_relayer_fees_spent", "cosmos_relayer_block_query_errors_total",
         "cosmos_relayer_client_expiration_seconds"] ∧
      (m.Registry.descs.map (fun d => d.fqName)).Nodup ∧
      (∀ d ∈ m.Registry.descs, d.err = none) ∧
      (∃ m2, (NewPrometheusMetrics.bind fun _ => NewPrometheusMetrics) = .ok m2 ∧
        m2.Registry = m.Registry) ∧
      (∃ e, registerInstruments m.Registry = .error e ∧ e = .alreadyRegistered) :=
  ⟨freshMetrics, new_eq, by decide, by decide, by decide, ⟨freshMetrics, rfl, rfl⟩,
    ⟨_, rfl, rfl⟩⟩

/-- C3, as stated, fails: the scrape of the struct `NewPrometheusMetrics` returns, before any
recording call, has no metric family at all, so none of the seven names is in it. -/
theorem C3_fresh_snapshot_has_no_names :
    ∃ m : PrometheusMetrics, NewPrometheusMetrics = .ok m ∧
      m.Gather.map (fun f => f.name) = [] ∧
      "cosmos_relayer_observed_packets" ∉ m.Gather.map (fun f => f.name) :=
  ⟨freshMetrics, new_eq, by decide, by decide⟩

/-- C3, amended: after `NewPrometheusMetrics` exactly seven instruments are registered, under
the seven names of the catalog; the scrape before any recording call is empty, and after any
admissible calls the names in the scrape are exactly the names of those instruments that have
at least one series. -/
theorem C3_snapshot_names (cs : List Call) (hadm : ∀ c ∈ cs, c.admissible = true) :
    ∃ m0 m : PrometheusMetrics, NewPrometheusMetrics = .ok m0 ∧ run m0 cs = .ok m ∧
      m0.Registry.descs.map (fun d => d.fqName) =
        ["cosmos_relayer_observed_packets", "cosmos_relayer_relayed_packets",
         "cosmos_relayer_chain_latest_height", "cosmos_relayer_wallet_balance",
         "cosmos_relayer_fees_spent", "cosmos_relayer_block_query_errors_total",
         "cosmos_relayer_client_expiration_seconds"] ∧
      m0.Gather = [] ∧
      m.Registry = m0.Registry ∧
      ∀ name, name ∈ m.Gather.map (fun f => f.name) ↔
        ∃ i : Instrument, i.catalogName = name ∧ m.seriesKeys i ≠ [] := by
  obtain ⟨m, hm⟩ := run_ok cs freshMetrics fresh_lengths hadm
  obtain ⟨hR, hd⟩ := run_desc cs freshMetrics m hm
  exact ⟨freshMetrics, m, new_eq, hm, by decide, by decide, hR,
    fun name => snapshot_names m hR hd name⟩

/-- C3 after one `IncBlockQueryFailure` and one `SetLatestHeight`. -/
theorem C3_snapshot_names_witness :
    ∃ m0 m : PrometheusMetrics, NewPrometheusMetrics = .ok m0 ∧
      run m0 [.IncBlockQueryFailure (ascii "chainA") (ascii "RPC Client"),
              .SetLatestHeight (ascii "osmosis-1") 12345] = .ok m ∧
      m0.Registry.descs.map (fun d => d.fqName) =
        ["cosmos_relayer_observed_packets", "cosmos_relayer_relayed_packets",
         "cosmos_relayer_chain_latest_height", "cosmos_relayer_wallet_balance",
         "cosmos_relayer_fees_spent", "cosmos_relayer_block_query_errors_total",
         "cosmos_relayer_client_expiration_seconds"] ∧
      m0.Gather = [] ∧
      m.Registry = m0.Registry ∧
      ∀ name, name ∈ m.Gather.map (fun f => f.name) ↔
        ∃ i : Instrument, i.catalogName = name ∧ m.seriesKeys i ≠ [] :=
  C3_snapshot_names _ (by decide)

/-- C4, as stated, fails: on the struct `NewPrometheusMetrics` returns, `AddPacketsObserved`
with the count `-1` panics in `counter.Add`, and `SetLatestHeight` with the one-byte chain
name `0xff`, which is not valid UTF-8, panics in `WithLabelValues`. -/
theorem C4_recording_can_panic :
    ∃ m : PrometheusMetrics, NewPrometheusMetrics = .ok m ∧
      m.AddPacketsObserved (ascii "path-ab") (ascii "chainA") (ascii "channel-0")
        (ascii "transfer") (ascii "recv_packet") (-1) = .error .counterCannotDecrease ∧
      m.SetLatestHeight [0xff] 12345 = .error .invalidLabelValue :=
  ⟨freshMetrics, new_eq, by rfl, by rfl⟩

/-- C4, amended: on every struct reached from `NewPrometheusMetrics` by admissible calls,
every recording call whose label values are valid UTF-8 and whose `count`, for
`AddPacketsObserved`, is not negative completes without a panic; a call with a label value
that is not valid UTF-8 panics in `WithLabelValues`, and `AddPacketsObserved` with a negative
count panics in `counter.Add`. -/
theorem C4_admissible_calls_complete (cs : List Call) (c : Call)
    (hcs : ∀ x ∈ cs, x.admissible = true) (hc : c.admissible = true) :
    ∃ m0 m m1 : PrometheusMetrics, NewPrometheusMetrics = .ok m0 ∧ run m0 cs = .ok m ∧
      c.apply m = .ok m1 ∧
      (∀ x : Call, x.labels.all utf8ValidString = false →
        x.apply m = .error .invalidLabelValue) ∧
      (∀ (path chain channel port eventType : GoString) (count : ℤ),
        [path, chain, channel, port, eventType].all utf8ValidString = true →
        -(2 ^ 63) ≤ count → count < 0 →
        m.AddPacketsObserved path chain channel port eventType count =
          .error .counterCannotDecrease) := by
  obtain ⟨m, hm⟩ := run_ok cs freshMetrics fresh_lengths hcs
  obtain ⟨_, hd⟩ := run_desc cs freshMetrics m hm
  have hlen : ∀ i, (m.desc i).variableLabels.length = i.catalogLabels.length :=
    fun i => by rw [hd i]; exact fresh_lengths i
  obtain ⟨m1, h1⟩ := apply_ok m c hlen hc
  refine ⟨freshMetrics, m, m1, new_eq, hm, h1, ?_, ?_⟩
  · intro x hx
    exact apply_of_validate_error m x _
      (validate_invalid _ _ (by rw [hlen, labels_length]) hx)
  · intro path chain channel port eventType count hl h2 h3
    exact addPacketsObserved_negative m hlen path chain channel port eventType count hl h2 h3

/-- C4 on the calls of scenario S4 followed by an `AddPacketsObserved` with the count 0. -/
theorem C4_admissible_calls_complete_witness :
    ∃ m0 m m1 : PrometheusMetrics, NewPrometheusMetrics = .ok m0 ∧ run m0 scenarioS4 = .ok m ∧
      (Call.AddPacketsObserved (ascii "path-ab") (ascii "chainA") (ascii "channel-0")
        (ascii "transfer") (ascii "recv_packet") 0).apply m = .ok m1 ∧
      (∀ x : Call, x.labels.all utf8ValidString = false →
        x.apply m = .error .invalidLabelValue) ∧
      (∀ (path chain channel port eventType : GoString) (count : ℤ),
        [path, chain, channel, port, eventType].all utf8ValidString = true →
        -(2 ^ 63) ≤ count → count < 0 →
        m.AddPacketsObserved path chain channel port eventType count =
          .error .counterCannotDecrease) :=
  C4_admissible_calls_complete _ _ (by decide) (by decide)

/-- C5: on every struct reached from `NewPrometheusMetrics`, each recording call hands
`WithLabelValues` exactly as many label values as its instrument declares (5, 5, 1, 5, 5, 2
and 4 in the order of the struct fields), the i-th parameter paired with the i-th declared
label name; so no call, whatever its arguments, fails with the label-cardinality error, and a
call that completes leaves a series under exactly these label values. -/
theorem C5_label_count_matches (cs : List Call) (c : Call)
    (hcs : ∀ x ∈ cs, x.admissible = true) :
    ∃ m0 m : PrometheusMetrics, NewPrometheusMetrics = .ok m0 ∧ run m0 cs = .ok m ∧
      [Instrument.observedPackets, .relayedPackets, .latestHeight, .walletBalance, .feesSpent,
        .blockQueryFailure, .clientExpiration].map
          (fun i => (m.desc i).variableLabels.length) = [5, 5, 1, 5, 5, 2, 4] ∧
      c.labels.length = (m.desc c.instrument).variableLabels.length ∧
      (m.desc c.instrument).variableLabels.zip c.labels = c.binding ∧
      (∀ a b, c.apply m ≠ .error (.inconsistentCardinality a b)) ∧
      (∀ m1, c.apply m = .ok m1 → c.labels ∈ m1.seriesKeys c.instrument ∧
        ∀ L, L ∈ m1.seriesKeys c.instrument → L ∉ m.seriesKeys c.instrument → L = c.labels) := by
  obtain ⟨m, hm⟩ := run_ok cs freshMetrics fresh_lengths hcs
  obtain ⟨_, hd⟩ := run_desc cs freshMetrics m hm
  have hlab : ∀ i, (m.desc i).variableLabels = i.catalogLabels := fun i => by
    rw [hd i]; exact (fresh_desc i).1
  refine ⟨freshMetrics, m, new_eq, hm, ?_, ?_, ?_, ?_, ?_⟩
  · simp only [List.map, hlab]
    rfl
  · rw [hlab, labels_length]
  · rw [hlab]
    cases c <;> rfl
  · intro a b herr
    rcases apply_error m c _ herr with h | h
    · cases h
    · exact validate_error_cardinality _ _ _ _ h (by rw [hlab, labels_length])
  · intro m1 h1
    obtain ⟨_, _, _, hkeys, _⟩ := apply_spec m m1 c h1
    rw [hkeys c.instrument]
    constructor
    · split_ifs with hcond
      · simp
      · simp only [true_and, not_not] at hcond
        exact hcond
    · intro L hL hnot
      split_ifs at hL with hcond
      · rw [List.mem_append, List.mem_singleton] at hL
        rcases hL with hL | hL
        · exact absurd hL hnot
        · exact hL
      · exact absurd hL hnot

/-- C5 for an `IncBlockQueryFailure` after one `IncPacketsRelayed`. -/
theorem C5_label_count_matches_witness :
    ∃ m0 m : PrometheusMetrics, NewPrometheusMetrics = .ok m0 ∧
      run m0 [.IncPacketsRelayed (ascii "path-ab") (ascii "chainB") (ascii "channel-1")
                (ascii "transfer") (ascii "acknowledge_packet")] = .ok m ∧
      [Instrument.observedPackets, .relayedPackets, .latestHeight, .walletBalance, .feesSpent,
        .blockQueryFailure, .clientExpiration].map
          (fun i => (m.desc i).variableLabels.length) = [5, 5, 1, 5, 5, 2, 4] ∧
      (Call.IncBlockQueryFailure (ascii "chainA") (ascii "IBC Header")).labels.length =
        (m.desc (Call.IncBlockQueryFailure (ascii "chainA") (ascii "IBC Header")).instrument
          ).variableLabels.length ∧
      (m.desc (Call.IncBlockQueryFailure (ascii "chainA") (ascii "IBC Header")).instrument
          ).variableLabels.zip
          (Call.IncBlockQueryFailure (ascii "chainA") (ascii "IBC Header")).labels =
        (Call.IncBlockQueryFailure (ascii "chainA") (ascii "IBC Header")).binding ∧
      (∀ a b, (Call.IncBlockQueryFailure (ascii "chainA") (ascii "IBC Header")).apply m ≠
        .error (.inconsistentCardinality a b)) ∧
      (∀ m1, (Call.IncBlockQueryFailure (ascii "chainA") (ascii "IBC Header")).apply m = .ok m1 →
        (Call.IncBlockQueryFailure (ascii "chainA") (ascii "IBC Header")).labels ∈
          m1.seriesKeys (Call.IncBlockQueryFailure (ascii "chainA") (ascii "IBC Header")).instrument ∧
        ∀ L, L ∈ m1.seriesKeys
            (Call.IncBlockQueryFailure (ascii "chainA") (ascii "IBC Header")).instrument →
          L ∉ m.seriesKeys
            (Call.IncBlockQueryFailure (ascii "chainA") (ascii "IBC Header")).instrument →
          L = (Call.IncBlockQueryFailure (ascii "chainA") (ascii "IBC Header")).labels) :=
  C5_label_count_matches _ _ (by decide)

/-- C6, as stated, fails for the series: the vectors of the wallet balance and of the fees
spent declare the labels `chain, gas_price, key, address, denom`, and after the two calls of
scenario S4 each of the two series in the scrape lists its labels as
`address, chain, denom, gas_price, key`, sorted by name, not in the declared order. -/
theorem C6_series_labels_are_sorted :
    ∃ m0 m : PrometheusMetrics, NewPrometheusMetrics = .ok m0 ∧ run m0 scenarioS4 = .ok m ∧
      m.WalletBalance.desc.variableLabels = ["chain", "gas_price", "key", "address", "denom"] ∧
      m.FeesSpent.desc.variableLabels = ["chain", "gas_price", "key", "address", "denom"] ∧
      m.Gather.map (fun f => (f.name, f.metric.map Prod.fst)) =
        [("cosmos_relayer_fees_spent",
          [[("address", ascii "cosmos1xyz"), ("chain", ascii "cosmoshub-4"),
            ("denom", ascii "uatom"), ("gas_price", ascii "0.025uatom"),
            ("key", ascii "relayer")]]),
         ("cosmos_relayer_wallet_balance",
          [[("address", ascii "cosmos1xyz"), ("chain", ascii "cosmoshub-4"),
            ("denom", ascii "uatom"), ("gas_price", ascii "0.025uatom"),
            ("key", ascii "relayer")]])] ∧
      ∀ f ∈ m.Gather, ∀ x ∈ f.metric,
        x.1.map Prod.fst = ["address", "chain", "denom", "gas_price", "key"] ∧
        x.1.map Prod.fst ≠ ["chain", "gas_price", "key", "address", "denom"] :=
  ⟨freshMetrics, _, new_eq, rfl, by decide, by decide, by decide, by decide⟩

/-- C6, amended: the label schema `NewPrometheusMetrics` declares for each instrument is the
ordered list of the catalog, and it is still the schema of the vector after any admissible
calls; in the scrape taken then every call has its series, in the family of its instrument,
and every series in the scrape is the series of one of the calls: it carries each declared
label name once, bound to the positional argument the call passed for it, the labels listed
sorted by name and not in the declared order. -/
theorem C6_label_schema_sorted_series (cs : List Call) (hcs : ∀ x ∈ cs, x.admissible = true) :
    ∃ m0 m : PrometheusMetrics, NewPrometheusMetrics = .ok m0 ∧ run m0 cs = .ok m ∧
      (m0.PacketObservedCounter.desc.variableLabels =
          ["path", "chain", "channel", "port", "type"] ∧
        m0.PacketRelayedCounter.desc.variableLabels =
          ["path", "chain", "channel", "port", "type"] ∧
        m0.LatestHeightGauge.desc.variableLabels = ["chain"] ∧
        m0.WalletBalance.desc.variableLabels =
          ["chain", "gas_price", "key", "address", "denom"] ∧
        m0.FeesSpent.desc.variableLabels = ["chain", "gas_price", "key", "address", "denom"] ∧
        m0.BlockQueryFailure.desc.variableLabels = ["chain", "type"] ∧
        m0.ClientExpiration.desc.variableLabels =
          ["path_name", "chain", "client_id", "trusting_period"]) ∧
      (∀ i, (m.desc i).variableLabels = i.catalogLabels) ∧
      (∀ c ∈ cs, ∃ f ∈ m.Gather, f.name = c.instrument.catalogName ∧
        ∃ x ∈ f.metric, x.1 = c.sortedBinding) ∧
      ∀ f ∈ m.Gather, ∃ i : Instrument, f.name = i.catalogName ∧
        ∀ x ∈ f.metric,
          x.1.map Prod.fst = i.sortedLabels ∧
          (x.1.map Prod.fst).Perm (m.desc i).variableLabels ∧
          (x.1.map Prod.fst).Pairwise (fun a b => stringLess a b = true) ∧
          ∃ c ∈ cs, c.instrument = i ∧ x.1 = c.sortedBinding ∧
            x.1.Perm ((m.desc i).variableLabels.zip c.labels) := by
  obtain ⟨m, hm⟩ := run_ok cs freshMetrics fresh_lengths hcs
  obtain ⟨hR, hd⟩ := run_desc cs freshMetrics m hm
  have hlab : ∀ i, (m.desc i).variableLabels = i.catalogLabels := fun i => by
    rw [hd i]; exact (fresh_desc i).1
  have hkeys : ∀ i L, L ∈ m.seriesKeys i ↔ ∃ c ∈ cs, c.instrument = i ∧ c.labels = L := by
    intro i L
    rw [run_keys_calls cs freshMetrics m hm i L, fresh_keys]
    simp
  refine ⟨freshMetrics, m, new_eq, hm, by decide, hlab, ?_, ?_⟩
  · intro c hc
    obtain ⟨f, hf, hname, hmet⟩ := family_of m c.instrument
    have hmem : c.sortedBinding ∈ f.metric.map Prod.fst := by
      rw [hmet, List.mem_map]
      exact ⟨c.labels, (hkeys _ _).mpr ⟨c, hc, rfl, rfl⟩, by
        rw [hd c.instrument]; exact makeLabelPairs_call c⟩
    obtain ⟨x, hx, hx1⟩ := List.mem_map.mp hmem
    refine ⟨f, (mem_gather m hR hd f).mpr ⟨hf, List.ne_nil_of_mem hx⟩, ?_, x, hx, hx1⟩
    rw [hname, hd c.instrument]
    exact (fresh_desc c.instrument).2.1
  · intro f hf
    obtain ⟨hf1, _⟩ := (mem_gather m hR hd f).mp hf
    obtain ⟨i, hname, hmet⟩ := mem_families m f hf1
    refine ⟨i, by rw [hname, hd i]; exact (fresh_desc i).2.1, ?_⟩
    intro x hx
    have hx1 : x.1 ∈ f.metric.map Prod.fst := List.mem_map.mpr ⟨x, hx, rfl⟩
    rw [hmet, List.mem_map] at hx1
    obtain ⟨L, hL, hLx⟩ := hx1
    obtain ⟨c, hc, hci, hcL⟩ := (hkeys i L).mp hL
    have hsb : x.1 = c.sortedBinding := by
      rw [← hLx, ← hcL, ← hci, hd c.instrument]
      exact makeLabelPairs_call c
    have hnames : x.1.map Prod.fst = i.sortedLabels := by
      rw [hsb, sortedBinding_names, hci]
    have hperm : x.1.Perm ((m.desc i).variableLabels.zip c.labels) := by
      rw [← hLx, hcL]
      exact makeLabelPairs_perm _ _
    refine ⟨hnames, ?_, ?_, c, hc, hci, hsb, hperm⟩
    · have h2 := hperm.map Prod.fst
      rw [List.map_fst_zip] at h2
      · exact h2
      · rw [hlab i, ← hci, labels_length c]
    · rw [hnames]
      exact sortedLabels_increasing i

/-- C6, amended, after the calls of scenario S4. -/
theorem C6_label_schema_sorted_series_witness :
    ∃ m0 m : PrometheusMetrics, NewPrometheusMetrics = .ok m0 ∧ run m0 scenarioS4 = .ok m ∧
      (m0.PacketObservedCounter.desc.variableLabels =
          ["path", "chain", "channel", "port", "type"] ∧
        m0.PacketRelayedCounter.desc.variableLabels =
          ["path", "chain", "channel", "port", "type"] ∧
        m0.LatestHeightGauge.desc.variableLabels = ["chain"] ∧
        m0.WalletBalance.desc.variableLabels =
          ["chain", "gas_price", "key", "address", "denom"] ∧
        m0.FeesSpent.desc.variableLabels = ["chain", "gas_price", "key", "address", "denom"] ∧
        m0.BlockQueryFailure.desc.variableLabels = ["chain", "type"] ∧
        m0.ClientExpiration.desc.variableLabels =
          ["path_name", "chain", "client_id", "trusting_period"]) ∧
      (∀ i, (m.desc i).variableLabels = i.catalogLabels) ∧
      (∀ c ∈ scenarioS4, ∃ f ∈ m.Gather, f.name = c.instrument.catalogName ∧
        ∃ x ∈ f.metric, x.1 = c.sortedBinding) ∧
      ∀ f ∈ m.Gather, ∃ i : Instrument, f.name = i.catalogName ∧
        ∀ x ∈ f.metric,
          x.1.map Prod.fst = i.sortedLabels ∧
          (x.1.map Prod.fst).Perm (m.desc i).variableLabels ∧
          (x.1.map Prod.fst).Pairwise (fun a b => stringLess a b = true) ∧
          ∃ c ∈ scenarioS4, c.instrument = i ∧ x.1 = c.sortedBinding ∧
            x.1.Perm ((m.desc i).variableLabels.zip c.labels) :=
  C6_label_schema_sorted_series _ (by decide)

/-- C9: a recording call that completes changes only the series of its instrument and label
values: that series exists afterwards, it is the one series added when it did not exist
before and no series is added otherwise, the series of every other instrument are the same,
and every other series, on another instrument or under other label values, still exists with
the value it had. -/
theorem C9_frame (m m1 : PrometheusMetrics) (c : Call) (h : c.apply m = .ok m1) :
    c.labels ∈ m1.seriesKeys c.instrument ∧
    m1.seriesKeys c.instrument =
      (if c.labels ∈ m.seriesKeys c.instrument then m.seriesKeys c.instrument
       else m.seriesKeys c.instrument ++ [c.labels]) ∧
    (∀ i, i ≠ c.instrument → m1.seriesKeys i = m.seriesKeys i) ∧
    (∀ i L, ¬ (i = c.instrument ∧ L = c.labels) → m1.value i L = m.value i L) := by
  obtain ⟨_, _, _, hkeys, hframe, _⟩ := apply_spec m m1 c h
  have hk := hkeys c.instrument
  simp only [true_and] at hk
  refine ⟨?_, ?_, ?_, fun i L hne => (hframe i L hne).1⟩
  · rw [hk]
    split_ifs with hcond
    · exact hcond
    · simp
  · rw [hk]
    split_ifs <;> rfl
  · intro i hi
    rw [hkeys i, if_neg (fun hh => hi hh.1)]


/-- C9 for an `IncBlockQueryFailure` on the struct `NewPrometheusMetrics` returns. -/
theorem C9_frame_witness :
    ∃ m1 : PrometheusMetrics,
      (Call.IncBlockQueryFailure (ascii "chainA") (ascii "IBC Header")).apply freshMetrics
        = .ok m1 ∧
      ((Call.IncBlockQueryFailure (ascii "chainA") (ascii "IBC Header")).labels ∈
        m1.seriesKeys (Call.IncBlockQueryFailure (ascii "chainA") (ascii "IBC Header")).instrument ∧
      m1.seriesKeys (Call.IncBlockQueryFailure (ascii "chainA") (ascii "IBC Header")).instrument =
        (if (Call.IncBlockQueryFailure (ascii "chainA") (ascii "IBC Header")).labels ∈
            freshMetrics.seriesKeys
              (Call.IncBlockQueryFailure (ascii "chainA") (ascii "IBC Header")).instrument
         then freshMetrics.seriesKeys
              (Call.IncBlockQueryFailure (ascii "chainA") (ascii "IBC Header")).instrument
         else freshMetrics.seriesKeys
              (Call.IncBlockQueryFailure (ascii "chainA") (ascii "IBC Header")).instrument ++
            [(Call.IncBlockQueryFailure (ascii "chainA") (ascii "IBC Header")).labels]) ∧
      (∀ i, i ≠ (Call.IncBlockQueryFailure (ascii "chainA") (ascii "IBC Header")).instrument →
        m1.seriesKeys i = freshMetrics.seriesKeys i) ∧
      (∀ i L, ¬ (i = (Call.IncBlockQueryFailure (ascii "chainA") (ascii "IBC Header")).instrument ∧
          L = (Call.IncBlockQueryFailure (ascii "chainA") (ascii "IBC Header")).labels) →
        m1.value i L = freshMetrics.value i L)) :=
  ⟨_, rfl, C9_frame freshMetrics _ _ rfl⟩

end processor
